import Mathlib

/-!
# FileSegment: the per-segment download protocol of the file cache

A shallow embedding of `src/Common/FileSegment.cpp`.

* Every `size_t` is a natural number below `2 ^ 64`; each arithmetic operation of the
  source is followed by an explicit reduction modulo `2 ^ 64` (`sizeAdd`, `sizeSub`).
* A member function becomes a function from the segment before the call, the calling
  thread's context and the cache manager's answers to an `Outcome`: the value returned
  or the exception thrown, the segment after the call (also after a throw, since a
  C++ exception keeps the assignments made before it), and the trace of the calls made
  on collaborators (cache manager, write buffer, condition variable).
* Mutexes are not modelled: every member function is one atomic step.
* The `assert`s of the source are compiled out (a release build), logging is left out,
  and the collaborators do not fail: the cache manager answers, the write buffer writes.
* `FileSegment.h` is not among the sources. What the functions use of it (`Range`,
  `availableSize()`, the default values of the members) follows the spec's data model.
-/

namespace DB

/-! ## Machine integers -/

/-- The number of values of `size_t`; every value of the type is below it. -/
def sizeModulus : Nat := 2 ^ 64

/-- Addition of two `size_t` values. -/
def sizeAdd (a b : Nat) : Nat := (a + b) % 2 ^ 64

/-- Subtraction of two `size_t` values (wraps around below zero). -/
def sizeSub (a b : Nat) : Nat := (a + (2 ^ 64 - b % 2 ^ 64)) % 2 ^ 64

/-! ## Data model -/

/-- The only error kind thrown by the segment (`ErrorCodes::FILE_CACHE_ERROR`). -/
inductive ErrorCode where
  | FILE_CACHE_ERROR
  deriving DecidableEq, Repr

/-- The states of `FileSegment::State`, in the order of `FileSegment::toString`. -/
inductive State where
  | DOWNLOADED
  | EMPTY
  | DOWNLOADING
  | PARTIALLY_DOWNLOADED
  | PARTIALLY_DOWNLOADED_NO_CONTINUATION
  | SKIP_CACHE
  deriving DecidableEq, Repr

/-- The key of the cached file: an opaque identifier. -/
abbrev Key := Nat

/-- Modelled from the spec: the class `Range` is declared in `FileSegment.h`, which is not
among the sources. The spec gives the segment the closed range `[offset, offset+size-1]`. -/
structure Range where
  left : Nat
  right : Nat
  deriving DecidableEq, Repr

/-- Modelled from the spec: `Range::size()` is declared in `FileSegment.h`, which is not among
the sources; the number of bytes of the closed range, `right - left + 1`, in `size_t`. -/
def Range.size (r : Range) : Nat := sizeAdd (sizeSub r.right r.left) 1

/-- The append-only writer over the backing file (`WriteBufferFromFile`): the path it was
opened on and the number of bytes appended through it. The bytes themselves are not
tracked. -/
structure WriteBufferFromFile where
  path : String
  count : Nat
  deriving DecidableEq, Repr

/-- The mutable and immutable members of a `FileSegment`. -/
structure FileSegment where
  segment_range : Range
  download_state : State
  file_key : Key
  downloaded_size : Nat
  reserved_size : Nat
  downloader_id : String
  download_buffer : Option WriteBufferFromFile
  deriving DecidableEq, Repr

/-- The answers of the cache manager (`FileCache`) to the queries a segment makes.
`remove` and `reduceSizeToDownloaded` return nothing and appear in the trace only. -/
structure FileCache where
  tryReserve : Key → Nat → Nat → Bool
  isLastFileSegmentHolder : Key → Nat → Bool
  path : Key → Nat → String

/-- The context of the calling thread, as read through `CurrentThread`. -/
structure CurrentThread where
  isInitialized : Bool
  queryId : String
  deriving DecidableEq, Repr

/-- A call made by the segment on one of its collaborators. -/
inductive Effect where
  | tryReserve (key : Key) (offset : Nat) (size : Nat) (answer : Bool)
  | isLastFileSegmentHolder (key : Key) (offset : Nat) (answer : Bool)
  | remove (key : Key) (offset : Nat)
  | reduceSizeToDownloaded (key : Key) (offset : Nat)
  | bufferOpen (path : String)
  | bufferWrite (size : Nat)
  | bufferSync
  | bufferReset
  | waitFor (seconds : Nat)
  | notifyAll
  deriving DecidableEq, Repr

/-- What a member function leaves behind: its result, the segment, the calls it made. -/
structure Outcome (α : Type) where
  result : Except ErrorCode α
  seg : FileSegment
  effects : List Effect

/-- True when the call ended in an exception. -/
def Outcome.failed {α : Type} (o : Outcome α) : Bool :=
  match o.result with
  | .error _ => true
  | .ok _ => false

/-- The end of both `complete` functions: `cv.notify_all()` runs after the locked block,
unless an exception left the block first. -/
def Outcome.thenNotifyAll (o : Outcome Unit) : Outcome Unit :=
  match o.result with
  | .error e => ⟨.error e, o.seg, o.effects⟩
  | .ok _ => ⟨.ok (), o.seg, o.effects ++ [Effect.notifyAll]⟩

/-- True when the effect is a mutating cache-manager operation. -/
def Effect.isCacheMutation : Effect → Bool
  | .remove _ _ => true
  | .reduceSizeToDownloaded _ _ => true
  | _ => false

/-- True when the effect is any call on the cache manager. -/
def Effect.isCacheCall : Effect → Bool
  | .tryReserve _ _ _ _ => true
  | .isLastFileSegmentHolder _ _ _ => true
  | .remove _ _ => true
  | .reduceSizeToDownloaded _ _ => true
  | _ => false

namespace FileSegment

/-- The accessor `range()`. -/
def range (s : FileSegment) : Range := s.segment_range

/-- The accessor `offset()`: the left bound of the range. -/
def offset (s : FileSegment) : Nat := s.range.left

/-- The accessor `key()`. -/
def key (s : FileSegment) : Key := s.file_key

/-- Modelled from the spec: `availableSize()` is declared in `FileSegment.h`, which is not
among the sources; the spec's write precondition is `n ≤ reserved_size - downloaded_size`. -/
def availableSize (s : FileSegment) : Nat := sizeSub s.reserved_size s.downloaded_size

/-- The constructor `FileSegment::FileSegment`. The members without an initialiser in the
constructor keep the defaults of the spec's data model: sizes `0`, no downloader, no
writer. -/
def construct (offset_ size_ : Nat) (key_ : Key) (download_state_ : State) :
    Except ErrorCode FileSegment :=
  let s : FileSegment :=
    { segment_range := ⟨offset_, sizeSub (sizeAdd offset_ size_) 1⟩
      download_state := download_state_
      file_key := key_
      downloaded_size := 0
      reserved_size := 0
      downloader_id := ""
      download_buffer := none }
  if download_state_ = State.DOWNLOADED then
    .ok { s with reserved_size := size_, downloaded_size := size_ }
  else if download_state_ ≠ State.EMPTY then
    .error ErrorCode.FILE_CACHE_ERROR
  else
    .ok s

/-- The accessor `state()`. -/
def state (s : FileSegment) : State := s.download_state

/-- The function `downloadOffset()`: `range().left + downloaded_size - 1` in `size_t`. -/
def downloadOffset (s : FileSegment) : Nat :=
  sizeSub (sizeAdd s.range.left s.downloaded_size) 1

/-- The function `getCallerId()`: the query id of the calling thread, or an exception when
the thread has no context or an empty query id. -/
def getCallerId (t : CurrentThread) : Except ErrorCode String :=
  if t.isInitialized = false ∨ t.queryId = "" then
    .error ErrorCode.FILE_CACHE_ERROR
  else
    .ok t.queryId

/-- The function `getOrSetDownloader()`. -/
def getOrSetDownloader (s : FileSegment) (t : CurrentThread) : Outcome String :=
  if s.downloader_id = "" then
    match getCallerId t with
    | .error e => ⟨.error e, s, []⟩
    | .ok caller_id =>
      let s1 := { s with downloader_id := caller_id }
      let s2 := { s1 with download_state := State.DOWNLOADING }
      ⟨.ok s2.downloader_id, s2, []⟩
  else
    ⟨.ok s.downloader_id, s, []⟩

/-- The function `isDownloader()`. -/
def isDownloader (s : FileSegment) (t : CurrentThread) : Except ErrorCode Bool :=
  match getCallerId t with
  | .error e => .error e
  | .ok caller_id => .ok (decide (caller_id = s.downloader_id))

/-- The function `write(from, size)`. Only the number of bytes is modelled. -/
def write (s : FileSegment) (t : CurrentThread) (cache : FileCache) (size : Nat) :
    Outcome Unit :=
  if size = 0 then
    ⟨.error ErrorCode.FILE_CACHE_ERROR, s, []⟩
  else if s.availableSize < size then
    ⟨.error ErrorCode.FILE_CACHE_ERROR, s, []⟩
  else
    match isDownloader s t with
    | .error e => ⟨.error e, s, []⟩
    | .ok false => ⟨.error ErrorCode.FILE_CACHE_ERROR, s, []⟩
    | .ok true =>
      match s.download_buffer with
      | none =>
        let download_path := cache.path s.key s.offset
        let buffer : WriteBufferFromFile := ⟨download_path, size⟩
        ⟨.ok (), { s with download_buffer := some buffer
                          downloaded_size := sizeAdd s.downloaded_size size },
          [Effect.bufferOpen download_path, Effect.bufferWrite size]⟩
      | some buffer =>
        ⟨.ok (), { s with download_buffer := some { buffer with count := buffer.count + size }
                          downloaded_size := sizeAdd s.downloaded_size size },
          [Effect.bufferWrite size]⟩

/-- The function `wait()`. The timed wait on the condition variable is one entry of the
trace; no other thread runs during it, so the state returned is the state found. -/
def wait (s : FileSegment) : Outcome State :=
  if s.download_state = State.EMPTY then
    ⟨.error ErrorCode.FILE_CACHE_ERROR, s, []⟩
  else if s.download_state = State.DOWNLOADING then
    ⟨.ok s.download_state, s, [Effect.waitFor 60]⟩
  else
    ⟨.ok s.download_state, s, []⟩

/-- The function `reserve(size)`. -/
def reserve (s : FileSegment) (t : CurrentThread) (cache : FileCache) (size : Nat) :
    Outcome Bool :=
  if size = 0 then
    ⟨.error ErrorCode.FILE_CACHE_ERROR, s, []⟩
  else if sizeAdd s.downloaded_size size > s.range.size then
    ⟨.error ErrorCode.FILE_CACHE_ERROR, s, []⟩
  else
    match getCallerId t with
    | .error e => ⟨.error e, s, []⟩
    | .ok caller_id =>
      if s.downloader_id ≠ caller_id then
        ⟨.error ErrorCode.FILE_CACHE_ERROR, s, []⟩
      else
        let free_space := sizeSub s.reserved_size s.downloaded_size
        let size_to_reserve := sizeSub size free_space
        let reserved := cache.tryReserve s.key s.offset size_to_reserve
        let s1 := if reserved then { s with reserved_size := sizeAdd s.reserved_size size } else s
        ⟨.ok reserved, s1, [Effect.tryReserve s.key s.offset size_to_reserve reserved]⟩

/-- The function `completeBatch()`. -/
def completeBatch (s : FileSegment) (t : CurrentThread) : Outcome Unit :=
  match getCallerId t with
  | .error e => ⟨.error e, s, []⟩
  | .ok caller_id =>
    if s.downloader_id ≠ caller_id then
      ⟨.error ErrorCode.FILE_CACHE_ERROR, s, [Effect.notifyAll]⟩
    else
      let s1 := if s.downloaded_size = s.range.size then
          { s with download_state := State.DOWNLOADED } else s
      ⟨.ok (), { s1 with downloader_id := "" }, [Effect.notifyAll]⟩

/-- The first block of `completeImpl`: the exchange with the cache manager. It yields the
segment, the local `download_can_continue` and the calls made. -/
def finalizeWithCache (s : FileSegment) (cache : FileCache) : FileSegment × Bool × List Effect :=
  if s.download_state = State.PARTIALLY_DOWNLOADED
      ∨ s.download_state = State.PARTIALLY_DOWNLOADED_NO_CONTINUATION then
    let is_last_holder := cache.isLastFileSegmentHolder s.key s.offset
    let download_can_continue :=
      !is_last_holder && decide (s.download_state = State.PARTIALLY_DOWNLOADED)
    let asked := [Effect.isLastFileSegmentHolder s.key s.offset is_last_holder]
    if download_can_continue = false then
      if s.downloaded_size = 0 then
        ({ s with download_state := State.SKIP_CACHE }, download_can_continue,
          asked ++ [Effect.remove s.key s.offset])
      else if is_last_holder = true then
        (s, download_can_continue, asked ++ [Effect.reduceSizeToDownloaded s.key s.offset])
      else
        (s, download_can_continue, asked)
    else
      (s, download_can_continue, asked)
  else
    (s, false, [])

/-- The function `completeImpl(segment_lock)`: the finalizer shared by both `complete`. -/
def completeImpl (s : FileSegment) (t : CurrentThread) (cache : FileCache) : Outcome Unit :=
  let s1 := (finalizeWithCache s cache).1
  let download_can_continue := (finalizeWithCache s cache).2.1
  let calls := (finalizeWithCache s cache).2.2
  match getCallerId t with
  | .error e => ⟨.error e, s1, calls⟩
  | .ok caller_id =>
    let s2 := if s1.downloader_id = caller_id then { s1 with downloader_id := "" } else s1
    if download_can_continue = false ∧ s2.download_buffer.isSome = true then
      ⟨.ok (), { s2 with download_buffer := none },
        calls ++ [Effect.bufferSync, Effect.bufferReset]⟩
    else
      ⟨.ok (), s2, calls⟩

/-- The function `complete(State state)`. -/
def complete (s : FileSegment) (t : CurrentThread) (cache : FileCache) (state : State) :
    Outcome Unit :=
  match getCallerId t with
  | .error e => ⟨.error e, s, []⟩
  | .ok caller_id =>
    if s.downloader_id ≠ caller_id then
      ⟨.error ErrorCode.FILE_CACHE_ERROR, s, [Effect.notifyAll]⟩
    else if state ≠ State.DOWNLOADED ∧ state ≠ State.PARTIALLY_DOWNLOADED
        ∧ state ≠ State.PARTIALLY_DOWNLOADED_NO_CONTINUATION then
      ⟨.error ErrorCode.FILE_CACHE_ERROR, s, [Effect.notifyAll]⟩
    else
      (completeImpl { s with download_state := state } t cache).thenNotifyAll

/-- The function `complete()` without argument. -/
def completeNoArg (s : FileSegment) (t : CurrentThread) (cache : FileCache) : Outcome Unit :=
  if s.download_state = State.SKIP_CACHE then
    ⟨.ok (), s, []⟩
  else
    let s1 := if s.downloaded_size = s.range.size ∧ s.download_state ≠ State.DOWNLOADED then
        { s with download_state := State.DOWNLOADED } else s
    let s2 := if s1.download_state = State.DOWNLOADING ∨ s1.download_state = State.EMPTY then
        { s1 with download_state := State.PARTIALLY_DOWNLOADED } else s1
    (completeImpl s2 t cache).thenNotifyAll

end FileSegment

/-! ## Sequential runs of public operations -/

/-- The public operations of a segment, with their arguments. -/
inductive Op where
  | getOrSetDownloader
  | reserve (size : Nat)
  | write (size : Nat)
  | completeBatch
  | complete (state : State)
  | completeNoArg
  | wait
  deriving DecidableEq, Repr

/-- One call: who calls, what the cache manager answers during the call, which operation. -/
structure Call where
  thread : CurrentThread
  cache : FileCache
  op : Op

/-- The segment after one call, whether the call returned or threw. -/
def step (s : FileSegment) (c : Call) : FileSegment :=
  match c.op with
  | .getOrSetDownloader => (s.getOrSetDownloader c.thread).seg
  | .reserve size => (s.reserve c.thread c.cache size).seg
  | .write size => (s.write c.thread c.cache size).seg
  | .completeBatch => (s.completeBatch c.thread).seg
  | .complete state => (s.complete c.thread c.cache state).seg
  | .completeNoArg => (s.completeNoArg c.thread c.cache).seg
  | .wait => s.wait.seg

/-- The segment after a finite sequence of calls. -/
def run (s : FileSegment) (cs : List Call) : FileSegment := cs.foldl step s

/-- The results of consecutive `getOrSetDownloader` calls by the given threads. -/
def getOrSetDownloaderSeq (s : FileSegment) : List CurrentThread → List (Except ErrorCode String)
  | [] => []
  | t :: ts => (s.getOrSetDownloader t).result :: getOrSetDownloaderSeq (s.getOrSetDownloader t).seg ts

/-- A cache manager that grants every reservation; the flag says whether the caller is the
last holder of the segment. -/
def grantingCache (is_last : Bool) : FileCache :=
  { tryReserve := fun _ _ _ => true
    isLastFileSegmentHolder := fun _ _ => is_last
    path := fun _ _ => "segment" }

/-- A thread with the given query id. -/
def client (id : String) : CurrentThread := ⟨true, id⟩

/-- A fresh segment of 10 bytes at offset 0, as the constructor leaves it for `EMPTY`. -/
def emptySegment10 : FileSegment :=
  { segment_range := ⟨0, 9⟩, download_state := State.EMPTY, file_key := 1, downloaded_size := 0,
    reserved_size := 0, downloader_id := "", download_buffer := none }

/-- A thread has a client id when its context is initialised and its query id is not
empty: exactly the threads for which `getCallerId` returns. -/
def CurrentThread.hasId (t : CurrentThread) : Prop := t.isInitialized = true ∧ t.queryId ≠ ""

instance (t : CurrentThread) : Decidable t.hasId := by
  unfold CurrentThread.hasId; infer_instance

/-- The size invariant of the data model: `downloaded_size ≤ reserved_size ≤ size`. -/
def FileSegment.sizesOrdered (s : FileSegment) : Prop :=
  s.downloaded_size ≤ s.reserved_size ∧ s.reserved_size ≤ s.range.size

instance (s : FileSegment) : Decidable s.sizesOrdered := by
  unfold FileSegment.sizesOrdered; infer_instance

/-- The `DOWNLOADED` invariant of the data model. -/
def FileSegment.downloadedComplete (s : FileSegment) : Prop :=
  s.download_state = State.DOWNLOADED →
    s.downloaded_size = s.range.size ∧ s.downloader_id = ""

instance (s : FileSegment) : Decidable s.downloadedComplete := by
  unfold FileSegment.downloadedComplete; infer_instance

/-- The `DOWNLOADING` invariant of the data model. -/
def FileSegment.downloadingHasDownloader (s : FileSegment) : Prop :=
  s.download_state = State.DOWNLOADING → s.downloader_id ≠ ""

instance (s : FileSegment) : Decidable s.downloadingHasDownloader := by
  unfold FileSegment.downloadingHasDownloader; infer_instance

/-- The terminal states of the spec's state diagram. -/
def State.isTerminal (st : State) : Prop := st = State.DOWNLOADED ∨ st = State.SKIP_CACHE

instance (st : State) : Decidable st.isTerminal := by
  unfold State.isTerminal; infer_instance

/-- The states `complete(state)` accepts. -/
def State.isCompletion (st : State) : Prop :=
  st = State.DOWNLOADED ∨ st = State.PARTIALLY_DOWNLOADED
    ∨ st = State.PARTIALLY_DOWNLOADED_NO_CONTINUATION

instance (st : State) : Decidable st.isCompletion := by
  unfold State.isCompletion; infer_instance

/-- The segments a valid construction yields: the constructor, called with `size_t`
arguments, returned them. -/
def Constructed (s : FileSegment) : Prop :=
  ∃ (offset_ size_ : Nat) (key_ : Key) (st : State),
    offset_ < sizeModulus ∧ size_ < sizeModulus
      ∧ FileSegment.construct offset_ size_ key_ st = Except.ok s

/-- The segments reachable from a valid construction through calls that each satisfy
`allowed` in the state they are made in. -/
inductive ReachableBy (allowed : FileSegment → Call → Prop) : FileSegment → Prop where
  | init (s : FileSegment) : Constructed s → ReachableBy allowed s
  | next (s : FileSegment) (c : Call) :
      ReachableBy allowed s → allowed s c → ReachableBy allowed (step s c)

/-- The segments reachable from a valid construction through any public operations. -/
def Reachable (s : FileSegment) : Prop := ReachableBy (fun _ _ => True) s

/-- The two calls that break the `DOWNLOADED` invariant: `complete(DOWNLOADED)` by the
registered downloader while `downloaded_size != size`, and `complete()` on a segment that
is not `SKIP_CACHE`, holds every byte and has a registered downloader, by a caller other
than that downloader (a caller without id included). -/
def breaksDownloaded (s : FileSegment) (c : Call) : Prop :=
  match c.op with
  | .complete State.DOWNLOADED =>
    (c.thread.hasId ∧ c.thread.queryId = s.downloader_id)
      ∧ s.downloaded_size ≠ s.range.size
  | .completeNoArg =>
    s.download_state ≠ State.SKIP_CACHE ∧ s.downloaded_size = s.range.size
      ∧ s.downloader_id ≠ "" ∧ ¬ (c.thread.hasId ∧ c.thread.queryId = s.downloader_id)
  | _ => False

/-- The calls that keep the `DOWNLOADED` invariant: all but the two of `breaksDownloaded`. -/
def keepsDownloaded (s : FileSegment) (c : Call) : Prop := ¬ breaksDownloaded s c

/-- A call by client `id` while the cache manager grants every reservation and reports
other holders. -/
def callBy (id : String) (op : Op) : Call := ⟨client id, grantingCache false, op⟩

/-- The calls `cs`, made one after the other from `s`, each satisfy `allowed` in the state
they are made in. -/
def allowedAlong (allowed : FileSegment → Call → Prop) (s : FileSegment) : List Call → Prop
  | [] => True
  | c :: cs => allowed s c ∧ allowedAlong allowed (step s c) cs

/-- True for `getOrSetDownloader`. -/
def Op.isClaim : Op → Bool
  | .getOrSetDownloader => true
  | _ => false

/-- True for `completeBatch` and `complete(state)`, the completions reserved to the
downloader. -/
def Op.isDownloaderCompletion : Op → Bool
  | .completeBatch => true
  | .complete _ => true
  | _ => false

/-- A 10-byte segment at offset 0, as the constructor leaves it for `DOWNLOADED`. -/
def downloadedSegment10 : FileSegment :=
  { segment_range := ⟨0, 9⟩, download_state := State.DOWNLOADED, file_key := 1,
    downloaded_size := 10, reserved_size := 10, downloader_id := "", download_buffer := none }

/-- The state in which `complete()` enters the finalizer, in the words of the spec:
`DOWNLOADED` when every byte is there, else `PARTIALLY_DOWNLOADED` when the state was
`DOWNLOADING` or `EMPTY`, else the state as it was. -/
def stateBeforeFinalizer (s : FileSegment) : State :=
  if s.downloaded_size = s.range.size then State.DOWNLOADED
  else if s.download_state = State.DOWNLOADING ∨ s.download_state = State.EMPTY then
    State.PARTIALLY_DOWNLOADED
  else s.download_state

/-- The state is one of the two partial states on which the finalizer consults the cache
manager. -/
def State.isPartial (st : State) : Prop :=
  st = State.PARTIALLY_DOWNLOADED ∨ st = State.PARTIALLY_DOWNLOADED_NO_CONTINUATION

instance (st : State) : Decidable st.isPartial := by
  unfold State.isPartial; infer_instance

/-- The `can_continue` of the spec's finalizer: the caller is not the last holder and the
state is `PARTIALLY_DOWNLOADED`. -/
def canContinue (s : FileSegment) (cache : FileCache) : Prop :=
  cache.isLastFileSegmentHolder s.key s.offset = false
    ∧ s.download_state = State.PARTIALLY_DOWNLOADED

instance (s : FileSegment) (cache : FileCache) : Decidable (canContinue s cache) := by
  unfold canContinue; infer_instance

end DB

/-! # BitSetSort

A shallow embedding of `base/base/BitSetSort.h`.

* A range `[first, last)` is the list of its elements; an iterator of the range is its
  distance from `first`. A function that is handed a sub-range works on the list of that
  sub-range, and its result is put back in place (`onSuffix`, `take`, `drop`).
* The comparator is a function to `Bool`. A value that is moved arrives at its new place;
  what the move leaves in the object moved from is given by a parameter `moved`, a function
  of the value moved out (the identity for trivially copyable values). The only moved-from
  object the source can read is `*__first` in `__bitset_partition`: every other move is
  followed by an assignment to the object moved from before that object is read, or stands
  in the branch of the conditional swaps that is compiled for trivially copyable values
  only.
* `difference_type` and the iterators of `__bitset_partition` are integers (they fit the
  64-bit types as long as the range fits the address space); the bit sets are natural
  numbers below `2 ^ 64`.
* A `while` loop is a function that is recursive on a counter of the remaining steps, set
  by its caller to a number the loop cannot exceed.
* `std::make_heap` followed by `std::sort_heap` belongs to the standard library: it is a
  parameter `heap_sort` of the functions that reach it.
-/

namespace stdext

variable {α : Type} [Inhabited α]

/-- The value `*(first + i)`. -/
def rd (a : List α) (i : Nat) : α := a.getD i default

/-- The value `*it` for an iterator kept as an integer. -/
def rdi (a : List α) (i : Int) : α := rd a i.toNat

/-- The call `std::iter_swap(first + i, first + j)`. -/
def iter_swap (a : List α) (i j : Nat) : List α := (a.set i (rd a j)).set j (rd a i)

/-- The call `std::iter_swap` on iterators kept as integers. -/
def iter_swapi (a : List α) (i j : Int) : List α := iter_swap a i.toNat j.toNat

/-- Runs `f` on the storage that starts at position `i`. -/
def onSuffix (i : Nat) (f : List α → List α) (a : List α) : List α := a.take i ++ f (a.drop i)

namespace __sorting_network

/-- The call operator of `__conditional_swap`. `trivially` is the value of the compile-time
test on `value_type` that selects the branch-free code. -/
def __conditional_swap (trivially : Bool) (comp : α → α → Bool) (a : List α) (x y : Nat) :
    List α :=
  let result := comp (rd a y) (rd a x)
  if trivially then
    let min := if result then rd a y else rd a x
    let a1 := a.set y (if result then rd a x else rd a y)
    a1.set x min
  else
    if result then iter_swap a x y else a

/-- The call operator of `__reverse_conditional_swap`. -/
def __reverse_conditional_swap (trivially : Bool) (comp : α → α → Bool) (a : List α)
    (x y : Nat) : List α :=
  let result := !comp (rd a x) (rd a y)
  if trivially then
    let min := if result then rd a x else rd a y
    let a1 := a.set y (if result then rd a y else rd a x)
    a1.set x min
  else
    if !result then iter_swap a x y else a

/-- A sequence of calls `__cond_swap(__a + i, __a + j)`, in order. -/
def applySwaps (cond_swap : List α → Nat → Nat → List α) (a : List α) :
    List (Nat × Nat) → List α
  | [] => a
  | (i, j) :: rest => applySwaps cond_swap (cond_swap a i j) rest

/-- The function `__sort2`. -/
def __sort2 (cond_swap : List α → Nat → Nat → List α) (a : List α) : List α :=
  applySwaps cond_swap a [(0, 1)]

/-- The function `__sort3` on a base iterator. -/
def __sort3 (cond_swap : List α → Nat → Nat → List α) (a : List α) : List α :=
  applySwaps cond_swap a [(1, 2), (0, 1), (1, 2)]

/-- The function `__sort4`. -/
def __sort4 (cond_swap : List α → Nat → Nat → List α) (a : List α) : List α :=
  applySwaps cond_swap a [(0, 1), (2, 3), (0, 2), (1, 3), (1, 2)]

/-- The function `__sort5`. -/
def __sort5 (cond_swap : List α → Nat → Nat → List α) (a : List α) : List α :=
  applySwaps cond_swap a [(0, 1), (3, 4), (2, 3), (3, 4), (0, 3), (1, 4), (0, 2), (1, 3), (1, 2)]

/-- The function `__sort6`. -/
def __sort6 (cond_swap : List α → Nat → Nat → List α) (a : List α) : List α :=
  applySwaps cond_swap a [(1, 2), (4, 5), (0, 1), (3, 4), (1, 2), (4, 5), (0, 3), (1, 4),
    (2, 5), (2, 4), (1, 3), (2, 3)]

/-- The function `__sort7`. -/
def __sort7 (cond_swap : List α → Nat → Nat → List α) (a : List α) : List α :=
  applySwaps cond_swap a [(1, 2), (3, 4), (5, 6), (0, 1), (3, 5), (4, 6), (1, 2), (4, 5),
    (0, 4), (1, 5), (2, 6), (0, 3), (2, 5), (1, 3), (2, 4), (2, 3)]

/-- The function `__sort8`. -/
def __sort8 (cond_swap : List α → Nat → Nat → List α) (a : List α) : List α :=
  applySwaps cond_swap a [(0, 1), (2, 3), (4, 5), (6, 7), (0, 2), (1, 3), (4, 6), (5, 7),
    (1, 2), (5, 6), (0, 4), (1, 5), (2, 6), (3, 7), (1, 4), (3, 6), (2, 4), (3, 5), (3, 4)]

/-- The function `__sort1to8`: the `switch` on `__len`, any other length being ignored. -/
def __sort1to8 (cond_swap : List α → Nat → Nat → List α) (a : List α) (len : Int) : List α :=
  if len = 2 then __sort2 cond_swap a
  else if len = 3 then __sort3 cond_swap a
  else if len = 4 then __sort4 cond_swap a
  else if len = 5 then __sort5 cond_swap a
  else if len = 6 then __sort6 cond_swap a
  else if len = 7 then __sort7 cond_swap a
  else if len = 8 then __sort8 cond_swap a
  else a

/-- The function `__sort3` on three iterators. -/
def __sort3_at (cond_swap : List α → Nat → Nat → List α) (a : List α) (a0 a1 a2 : Nat) :
    List α :=
  cond_swap (cond_swap (cond_swap a a1 a2) a0 a2) a0 a1

end __sorting_network

namespace __bitonic

/-- The constant `__detail::__batch`. -/
def __batch : Nat := 8

/-- The constant `__detail::__bitonic_batch`. -/
def __bitonic_batch : Nat := __batch * 2

/-- The constant `__detail::__small_sort_max`. -/
def __small_sort_max : Nat := __bitonic_batch * 2

/-- The `while` loop of `__enforce_order`, from the iterator `__i` on: `a` is the storage
from `__i` to `__last`, the result the storage after the loop and the distance `__i` has
moved. -/
def enforce_order_loop (cond_swap reverse_cond_swap : List α → Nat → Nat → List α) :
    Nat → List α → List α × Nat
  | 0, a => (a, 0)
  | fuel + 1, a =>
    if __bitonic_batch ≤ a.length then
      let a1 := __sorting_network.__sort8 cond_swap a
      let a2 := onSuffix __batch (__sorting_network.__sort8 reverse_cond_swap) a1
      let r := enforce_order_loop cond_swap reverse_cond_swap fuel (a2.drop __bitonic_batch)
      (a2.take __bitonic_batch ++ r.1, __bitonic_batch + r.2)
    else (a, 0)

/-- The function `__enforce_order` on the range `a`. -/
def __enforce_order (cond_swap reverse_cond_swap : List α → Nat → Nat → List α)
    (a : List α) : List α :=
  let r := enforce_order_loop cond_swap reverse_cond_swap a.length a
  let i := r.2
  onSuffix i (fun s =>
    if __batch ≤ s.length then
      let s1 := __sorting_network.__sort8 cond_swap s
      onSuffix __batch (fun u =>
        __sorting_network.__sort1to8 reverse_cond_swap u (u.length : Int)) s1
    else
      __sorting_network.__sort1to8 cond_swap s (s.length : Int)) r.1

/-- The loop of `__forward_merge`: `len` steps left, `first` and `last` the two iterators
into `src`, `out` what has been written to `__result` so far. -/
def forward_merge_loop (comp : α → α → Bool) (src : List α) :
    Nat → Nat → Nat → List α → List α
  | 0, first, _, out => out ++ [rd src first]
  | len + 1, first, last, out =>
    if comp (rd src last) (rd src first) then
      forward_merge_loop comp src len first (last - 1) (out ++ [rd src last])
    else
      forward_merge_loop comp src len (first + 1) last (out ++ [rd src first])

/-- The function `__forward_merge` on the range `src`: the values written to `__result`. -/
def __forward_merge (comp : α → α → Bool) (src : List α) : List α :=
  forward_merge_loop comp src (src.length - 1) 0 (src.length - 1) []

/-- The loop of `__backward_merge`; `out` is what has been written so far, from
`__result` backwards. -/
def backward_merge_loop (comp : α → α → Bool) (src : List α) :
    Nat → Nat → Nat → List α → List α
  | 0, first, _, out => rd src first :: out
  | len + 1, first, last, out =>
    if comp (rd src first) (rd src last) then
      backward_merge_loop comp src len (first + 1) last (rd src first :: out)
    else
      backward_merge_loop comp src len first (last - 1) (rd src last :: out)

/-- The function `__backward_merge` on the range `src`: the values written to the
`src.length` places that start at `__result`. -/
def __backward_merge (comp : α → α → Bool) (src : List α) : List α :=
  backward_merge_loop comp src (src.length - 1) 0 (src.length - 1) []

/-- The function `__small_sort` on the range `a` of length `__len`: the value returned and
the range afterwards. -/
def __small_sort (trivially : Bool) (comp : α → α → Bool) (a : List α) : Bool × List α :=
  let cond_swap := __sorting_network.__conditional_swap trivially comp
  let reverse_cond_swap := __sorting_network.__reverse_conditional_swap trivially comp
  if a.length > __small_sort_max then (false, a)
  else
    let a1 := __enforce_order cond_swap reverse_cond_swap a
    if a.length ≤ __batch then (true, a1)
    else if a.length ≤ __bitonic_batch then
      let buff := __forward_merge comp a1
      (true, buff)
    else
      let buff1 := __forward_merge comp (a1.take __bitonic_batch)
      let buff2 := __backward_merge comp (a1.drop __bitonic_batch)
      (true, __forward_merge comp (buff1 ++ buff2))

end __bitonic

namespace __bitsetsort

/-- The constant `__64bit_set::__block_size`. -/
def __block_size : Nat := 64

/-- Negation in `uint64_t`. -/
def neg64 (x : Nat) : Nat := (2 ^ 64 - x % 2 ^ 64) % 2 ^ 64

/-- The function `__64bit_set::__blsr`: `x ^ (x & -x)`. -/
def __blsr (x : Nat) : Nat := x ^^^ (x &&& neg64 x)

/-- Counts the zero bits below the lowest set bit, looking at `width` bits. -/
def countTrailingZeros : Nat → Nat → Nat
  | 0, _ => 0
  | width + 1, x => if x % 2 = 1 then 0 else 1 + countTrailingZeros width (x / 2)

/-- The function `__64bit_set::__ctz`, that is `__builtin_ctzll`. -/
def __ctz (x : Nat) : Nat := countTrailingZeros 64 x

/-- The function `__64bit_set::__clz`, that is `__builtin_clzll`: the number of zero bits
above the highest set bit of a non-zero 64-bit value. -/
def __clz (x : Nat) : Nat := 63 - Nat.log2 x

/-- The statement `bitset |= (static_cast<__storage_t>(comp_result) << j)`. -/
def setBit (bitset : Nat) (comp_result : Bool) (j : Nat) : Nat :=
  bitset ||| ((if comp_result then 1 else 0) <<< j) % 2 ^ 64

/-- The function `__swap_bitmap_pos`: the range and the two bit sets afterwards. -/
def __swap_bitmap_pos (first last : Int) :
    Nat → List α → Nat → Nat → List α × Nat × Nat
  | 0, a, left_bitset, right_bitset => (a, left_bitset, right_bitset)
  | fuel + 1, a, left_bitset, right_bitset =>
    if left_bitset ≠ 0 ∧ right_bitset ≠ 0 then
      let tz_left := __ctz left_bitset
      let left_bitset := __blsr left_bitset
      let tz_right := __ctz right_bitset
      let right_bitset := __blsr right_bitset
      __swap_bitmap_pos first last fuel (iter_swapi a (first + tz_left) (last - tz_right))
        left_bitset right_bitset
    else (a, left_bitset, right_bitset)

/-- The loop `while (!__comp(__pivot, *++__first))`. -/
def scan_unguarded (comp : α → α → Bool) (pivot : α) (a : List α) : Nat → Int → Int
  | 0, first => first
  | fuel + 1, first =>
    if !comp pivot (rdi a (first + 1)) then scan_unguarded comp pivot a fuel (first + 1)
    else first + 1

/-- The loop `while (++__first < __last && !__comp(__pivot, *__first))`. -/
def scan_guarded (comp : α → α → Bool) (pivot : α) (a : List α) (last : Int) :
    Nat → Int → Int
  | 0, first => first
  | fuel + 1, first =>
    if first + 1 < last ∧ comp pivot (rdi a (first + 1)) = false then
      scan_guarded comp pivot a last fuel (first + 1)
    else first + 1

/-- The loop `while (__comp(__pivot, *--__last))`. -/
def scan_back (comp : α → α → Bool) (pivot : α) (a : List α) : Nat → Int → Int
  | 0, last => last
  | fuel + 1, last =>
    if comp pivot (rdi a (last - 1)) then scan_back comp pivot a fuel (last - 1)
    else last - 1

/-- The loop that fills `__left_bitset`: `count` positions from `iter` on, the first of
them for bit `j`. -/
def fill_left (comp : α → α → Bool) (pivot : α) (a : List α) :
    Nat → Nat → Int → Nat → Nat
  | 0, _, _, bitset => bitset
  | count + 1, j, iter, bitset =>
    fill_left comp pivot a count (j + 1) (iter + 1) (setBit bitset (comp pivot (rdi a iter)) j)

/-- The loop that fills `__right_bitset`: `count` positions from `iter` down, the first of
them for bit `j`. -/
def fill_right (comp : α → α → Bool) (pivot : α) (a : List α) :
    Nat → Nat → Int → Nat → Nat
  | 0, _, _, bitset => bitset
  | count + 1, j, iter, bitset =>
    fill_right comp pivot a count (j + 1) (iter - 1) (setBit bitset (comp (rdi a iter) pivot) j)

/-- The main loop of `__bitset_partition`, block by block: the range, `__first`, `__lm1`
and the two bit sets afterwards. -/
def block_loop (comp : α → α → Bool) (pivot : α) :
    Nat → List α → Int → Int → Nat → Nat → List α × Int × Int × Nat × Nat
  | 0, a, first, lm1, left_bitset, right_bitset => (a, first, lm1, left_bitset, right_bitset)
  | fuel + 1, a, first, lm1, left_bitset, right_bitset =>
    if lm1 - first ≥ 2 * (__block_size : Int) - 1 then
      let left_bitset :=
        if left_bitset = 0 then fill_left comp pivot a __block_size 0 first left_bitset
        else left_bitset
      let right_bitset :=
        if right_bitset = 0 then fill_right comp pivot a __block_size 0 lm1 right_bitset
        else right_bitset
      let r := __swap_bitmap_pos first lm1 __block_size a left_bitset right_bitset
      let first := first + (if r.2.1 = 0 then (__block_size : Int) else 0)
      let lm1 := lm1 - (if r.2.2 = 0 then (__block_size : Int) else 0)
      block_loop comp pivot fuel r.1 first lm1 r.2.1 r.2.2
    else (a, first, lm1, left_bitset, right_bitset)

/-- The loop that swaps within the left side: the range and `__lm1` afterwards. -/
def left_side_loop (first : Int) : Nat → List α → Int → Nat → List α × Int
  | 0, a, lm1, _ => (a, lm1)
  | fuel + 1, a, lm1, left_bitset =>
    if left_bitset ≠ 0 then
      let tz_left : Int := (__block_size : Int) - 1 - (__clz left_bitset : Int)
      let left_bitset := left_bitset &&& (((1 <<< tz_left.toNat) % 2 ^ 64 + (2 ^ 64 - 1)) % 2 ^ 64)
      let it := first + tz_left
      let a := if it ≠ lm1 then iter_swapi a it lm1 else a
      left_side_loop first fuel a (lm1 - 1) left_bitset
    else (a, lm1)

/-- The loop that swaps within the right side: the range and `__first` afterwards. -/
def right_side_loop (lm1 : Int) : Nat → List α → Int → Nat → List α × Int
  | 0, a, first, _ => (a, first)
  | fuel + 1, a, first, right_bitset =>
    if right_bitset ≠ 0 then
      let tz_right : Int := (__block_size : Int) - 1 - (__clz right_bitset : Int)
      let right_bitset := right_bitset &&& (((1 <<< tz_right.toNat) % 2 ^ 64 + (2 ^ 64 - 1)) % 2 ^ 64)
      let it := lm1 - tz_right
      let a := if it ≠ first then iter_swapi a it first else a
      right_side_loop lm1 fuel a (first + 1) right_bitset
    else (a, first)

/-- The sizes `__l_size` and `__r_size` of the two last blocks. -/
def last_block_sizes (remaining_len : Int) (left_bitset right_bitset : Nat) : Int × Int :=
  if left_bitset = 0 ∧ right_bitset = 0 then
    let l_size := Int.tdiv remaining_len 2
    (l_size, remaining_len - l_size)
  else if left_bitset = 0 then
    (remaining_len - (__block_size : Int), (__block_size : Int))
  else
    ((__block_size : Int), remaining_len - (__block_size : Int))

/-- The first part of `__bitset_partition`, from the move of the pivot out of `*__first`
up to the main loop: the two scans for the first values out of place and their exchange.
The argument `a` is the range as the move has left it. The result is the range, `__first`,
`__lm1` and the flag `__already_partitioned`. -/
def partition_start (comp : α → α → Bool) (pivot : α) (a : List α) :
    List α × Int × Int × Bool :=
  let last : Int := a.length
  let first : Int := 0
  let first :=
    if comp pivot (rdi a (last - 1)) then scan_unguarded comp pivot a a.length first
    else scan_guarded comp pivot a last a.length first
  let last := if first < last then scan_back comp pivot a a.length last else last
  let already_partitioned := decide (first ≥ last)
  let a := if !already_partitioned then iter_swapi a first last else a
  let first := if !already_partitioned then first + 1 else first
  let lm1 := last - 1
  (a, first, lm1, already_partitioned)

/-- The part of `__bitset_partition` after the main loop: the two last blocks and the
values left on one side. The result is the range and `__first`. -/
def partition_finish (comp : α → α → Bool) (pivot : α) (a : List α) (first lm1 : Int)
    (left_bitset right_bitset : Nat) : List α × Int :=
  let remaining_len := lm1 - first + 1
  let sizes := last_block_sizes remaining_len left_bitset right_bitset
  let l_size := sizes.1
  let r_size := sizes.2
  let left_bitset :=
    if left_bitset = 0 then fill_left comp pivot a l_size.toNat 0 first left_bitset
    else left_bitset
  let right_bitset :=
    if right_bitset = 0 then fill_right comp pivot a r_size.toNat 0 lm1 right_bitset
    else right_bitset
  let s := __swap_bitmap_pos first lm1 __block_size a left_bitset right_bitset
  let a := s.1
  let left_bitset := s.2.1
  let right_bitset := s.2.2
  let first := first + (if left_bitset = 0 then l_size else 0)
  let lm1 := lm1 - (if right_bitset = 0 then r_size else 0)
  if left_bitset ≠ 0 then
    let u := left_side_loop first __block_size a lm1 left_bitset
    (u.1, u.2 + 1)
  else if right_bitset ≠ 0 then
    right_side_loop lm1 __block_size a first right_bitset
  else (a, first)

/-- The function `__bitset_partition` on the non-empty range `a`: the range afterwards, the
position of the pivot and the flag `__already_partitioned`. The pivot is moved out of
`*__first`, which is left with the value `moved pivot`. The scan from the right ends inside
the range when the range holds a value that is not greater than the pivot; the source
relies on its caller for that. Where there is none the source reads before the range,
which is undefined, and the counter of `scan_back` ends the scan at the front. -/
def __bitset_partition (comp : α → α → Bool) (moved : α → α) (a : List α) :
    List α × Int × Bool :=
  let begin : Int := 0
  let pivot := rdi a begin
  let a := a.set begin.toNat (moved pivot)
  let s := partition_start comp pivot a
  let r := block_loop comp pivot a.length s.1 s.2.1 s.2.2.1 0 0
  let t := partition_finish comp pivot r.1 r.2.1 r.2.2.1 r.2.2.2.1 r.2.2.2.2
  let a := t.1
  let first := t.2
  let pivot_pos := first - 1
  let a := if begin ≠ pivot_pos then a.set begin.toNat (rdi a pivot_pos) else a
  let a := a.set pivot_pos.toNat pivot
  (a, pivot_pos, s.2.2.2)

/-- The `do ... while` loop of `__partial_insertion_sort` that moves the values above `t`
one place up: the range and the place `__j` left for `t`. -/
def shift_loop (comp : α → α → Bool) (t : α) : Nat → List α → Nat → Nat → List α × Nat
  | 0, a, j, _ => (a, j)
  | fuel + 1, a, j, k =>
    let a := a.set j (rd a k)
    let j := k
    if j ≠ 0 ∧ comp t (rd a (k - 1)) = true then shift_loop comp t fuel a j (k - 1)
    else (a, j)

/-- The `for` loop of `__partial_insertion_sort`, from `__i` on: the value returned and the
range afterwards. -/
def insertion_loop (comp : α → α → Bool) :
    Nat → List α → Nat → Nat → Nat → Bool × List α
  | 0, a, _, _, _ => (true, a)
  | fuel + 1, a, i, j, count =>
    if i ≠ a.length then
      if comp (rd a i) (rd a j) then
        let t := rd a i
        let r := shift_loop comp t a.length a i j
        let a := r.1.set r.2 t
        let count := count + 1
        if count = 8 then (decide (i + 1 = a.length), a)
        else insertion_loop comp fuel a (i + 1) i count
      else insertion_loop comp fuel a (i + 1) i count
    else (true, a)

/-- The function `__partial_insertion_sort` on the range `a`. -/
def __partial_insertion_sort (comp : α → α → Bool) (a : List α) : Bool × List α :=
  if a.length = 0 then (true, a)
  else insertion_loop comp a.length a 1 0 0

/-- The choice of the pivot in `__bitsetsort_loop`: the median of three or, above
`__ninther_threshold`, of three medians, moved to the front. -/
def select_pivot (cond_swap : List α → Nat → Nat → List α) (a : List α) : List α :=
  let len := a.length
  let half_len := len / 2
  if len > 128 then
    let a := __sorting_network.__sort3_at cond_swap a 0 half_len (len - 1)
    let a := __sorting_network.__sort3_at cond_swap a 1 (half_len - 1) (len - 2)
    let a := __sorting_network.__sort3_at cond_swap a 2 (half_len + 1) (len - 3)
    let a := __sorting_network.__sort3_at cond_swap a (half_len - 1) half_len (half_len + 1)
    iter_swap a 0 half_len
  else
    __sorting_network.__sort3_at cond_swap a half_len 0 (len - 1)

/-- The function `__bitsetsort_loop` on the range `a` with depth limit `limit`. Each turn of
its `while (true)` loop and each recursive call goes on with a strictly shorter range, the
counter `fuel` being a bound on the length of the range. -/
def __bitsetsort_loop (heap_sort : List α → List α) (moved : α → α) (trivially : Bool)
    (comp : α → α → Bool) : Nat → List α → Int → List α
  | 0, a, _ => a
  | fuel + 1, a, limit =>
    let cond_swap := __sorting_network.__conditional_swap trivially comp
    if limit = 0 then heap_sort a
    else
      let limit := limit - 1
      let len := a.length
      if len ≤ __bitonic.__batch then __sorting_network.__sort1to8 cond_swap a (len : Int)
      else if len ≤ __bitonic.__small_sort_max then (__bitonic.__small_sort trivially comp a).2
      else
        let a := select_pivot cond_swap a
        let ret := __bitset_partition comp moved a
        let a := ret.1
        let pos := ret.2.1.toNat
        let lower := a.take pos
        let upper := a.drop (pos + 1)
        let middle := (a.drop pos).take 1
        if ret.2.2 then
          let left := __partial_insertion_sort comp lower
          let right := __partial_insertion_sort comp upper
          if right.1 then
            if left.1 then left.2 ++ middle ++ right.2
            else
              __bitsetsort_loop heap_sort moved trivially comp fuel left.2 limit ++ middle
                ++ right.2
          else
            if left.1 then
              left.2 ++ middle
                ++ __bitsetsort_loop heap_sort moved trivially comp fuel right.2 limit
            else
              __bitsetsort_loop heap_sort moved trivially comp fuel left.2 limit ++ middle
                ++ __bitsetsort_loop heap_sort moved trivially comp fuel right.2 limit
        else
          __bitsetsort_loop heap_sort moved trivially comp fuel lower limit ++ middle
            ++ __bitsetsort_loop heap_sort moved trivially comp fuel upper limit

/-- The loop of `__log2i`. -/
def log2i_loop : Nat → Int → Int → Int
  | 0, _, log2 => log2
  | fuel + 1, n, log2 => if n > 1 then log2i_loop fuel (n / 2) (log2 + 1) else log2

/-- The function `__log2i`. -/
def __log2i (n : Int) : Int := log2i_loop n.toNat n 0

/-- The function `__bitsetsort_internal` on the range `a`. -/
def __bitsetsort_internal (heap_sort : List α → List α) (moved : α → α) (trivially : Bool)
    (comp : α → α → Bool) (a : List α) : List α :=
  let depth_limit := 2 * __log2i (a.length : Int)
  __bitsetsort_loop heap_sort moved trivially comp (a.length + 1) a depth_limit

end __bitsetsort

/-- The function `bitsetsort` at run time (the branch of constant evaluation is left out). -/
def bitsetsort (heap_sort : List α → List α) (moved : α → α) (trivially : Bool)
    (comp : α → α → Bool) (a : List α) : List α :=
  __bitsetsort.__bitsetsort_internal heap_sort moved trivially comp a

end stdext

namespace stdext

variable {α : Type} [Inhabited α]

/-- The requirement of the standard library on a comparator: a strict weak ordering. -/
structure StrictWeakOrder (comp : α → α → Bool) : Prop where
  irrefl : ∀ a, comp a a = false
  trans : ∀ a b c, comp a b = true → comp b c = true → comp a c = true
  incomp_trans : ∀ a b c, comp a b = false → comp b a = false → comp b c = false →
    comp c b = false → comp a c = false ∧ comp c a = false

/-- The range is sorted: no positions `i < j` with `comp(a[j], a[i])`. -/
def SortedBy (comp : α → α → Bool) (a : List α) : Prop :=
  ∀ i j, i < j → j < a.length → comp (rd a j) (rd a i) = false

/-- The contract of `std::make_heap` followed by `std::sort_heap`: the range becomes a
sorted permutation of itself. -/
def SortsRanges (comp : α → α → Bool) (heap_sort : List α → List α) : Prop :=
  ∀ a, (heap_sort a).Perm a ∧ SortedBy comp (heap_sort a)

end stdext

namespace stdext

variable {α : Type} [Inhabited α]

/-! ## Predicates of the correctness proof -/

/-- What both conditional swaps do, for the order `lt` they sort by: the two values are
exchanged when the second is below the first. -/
def cswap (lt : α → α → Bool) (a : List α) (x y : Nat) : List α :=
  if lt (rd a y) (rd a x) then iter_swap a x y else a

/-- The comparator with its arguments exchanged: the order of `__reverse_conditional_swap`. -/
def flipComp (comp : α → α → Bool) : α → α → Bool := fun u v => comp v u

/-- Every position named by the network lies below `n`. -/
def NetBelow (n : Nat) (net : List (Nat × Nat)) : Prop := ∀ p ∈ net, p.1 < n ∧ p.2 < n

instance (n : Nat) (net : List (Nat × Nat)) : Decidable (NetBelow n net) := by
  unfold NetBelow; infer_instance

/-- The order on `Bool` with `false` below `true`. -/
def ltBool (x y : Bool) : Bool := !x && y

/-- The test `¬ lt v t` of a value against a threshold `t`. -/
def aboveOrAt (lt : α → α → Bool) (t : α) (v : α) : Bool := !lt v t

/-- All lists of `n` truth values. -/
def allBools : Nat → List (List Bool)
  | 0 => [[]]
  | n + 1 => (allBools n).map (fun l => false :: l) ++ (allBools n).map (fun l => true :: l)

/-- No `true` stands before a `false`. -/
def sortedBools : List Bool → Bool
  | [] => true
  | x :: rest => (!x || rest.all id) && sortedBools rest

/-- The network sorts every list of `n` truth values. -/
def SortsBools (n : Nat) (net : List (Nat × Nat)) : Prop :=
  ∀ l ∈ allBools n, sortedBools (__sorting_network.applySwaps (cswap ltBool) l net) = true

instance (n : Nat) (net : List (Nat × Nat)) : Decidable (SortsBools n net) := by
  unfold SortsBools; infer_instance

/-- What a network of the source does to a range at least as long as the network is wide:
the front becomes a sorted permutation of itself and the rest stays. -/
def SortsFront (lt : α → α → Bool) (n : Nat) (f : List α → List α) : Prop :=
  ∀ a : List α, n ≤ a.length →
    ∃ s : List α, f a = s ++ a.drop n ∧ s.Perm (a.take n) ∧ SortedBy lt s

/-- A conditional swap of the source that sorts by `lt`. -/
def IsCondSwap (lt : α → α → Bool) (cs : List α → Nat → Nat → List α) : Prop :=
  ∀ a x y, x < a.length → y < a.length → cs a x y = cswap lt a x y

/-- No value of the range lies strictly below a value before it and a value after it: the
range rises and then falls. -/
def NoValley (lt : α → α → Bool) (s : List α) : Prop :=
  ∀ i j k, i < j → j < k → k < s.length →
    ¬ (lt (rd s j) (rd s i) = true ∧ lt (rd s j) (rd s k) = true)

/-- Every block of sixteen values of the range rises and then falls. -/
def Bitonic16 (lt : α → α → Bool) (e : List α) : Prop :=
  ∀ k, NoValley lt ((e.drop (16 * k)).take 16)

/-- What `__enforce_order` does after its loop, on the rest `s` of the range. -/
def enforce_rest (cs rcs : List α → Nat → Nat → List α) (s : List α) : List α :=
  if __bitonic.__batch ≤ s.length then
    let s1 := __sorting_network.__sort8 cs s
    onSuffix __bitonic.__batch (fun u =>
      __sorting_network.__sort1to8 rcs u (u.length : Int)) s1
  else
    __sorting_network.__sort1to8 cs s (s.length : Int)

/-- The first `n` values of the range are sorted. -/
def SortedPrefix (comp : α → α → Bool) (a : List α) (n : Nat) : Prop :=
  ∀ p q, p < q → q < n → comp (rd a q) (rd a p) = false

/-- The state of the range while the value `t` travels down from position `i`, seen with
`t` put in the place `j` that is free: the other values up to `i` are in order and those
above `j` are greater than `t`. -/
def InsertInv (comp : α → α → Bool) (t : α) (b : List α) (j i : Nat) : Prop :=
  rd b j = t
    ∧ (∀ p q, p < q → q ≤ i → p ≠ j → q ≠ j → comp (rd b q) (rd b p) = false)
    ∧ (∀ q, j < q → q ≤ i → comp t (rd b q) = true)

/-- The left bit set tells, for each of the `sz` positions from `first` on, whether the
value there is greater than the pivot. -/
def ExactL (comp : α → α → Bool) (pivot : α) (a : List α) (first : Int) (left sz : Nat) :
    Prop :=
  left < 2 ^ 64 ∧ ∀ m : Nat, left.testBit m = (decide (m < sz) && comp pivot (rdi a (first + m)))

/-- The right bit set tells, for each of the `sz` positions from `lm1` down, whether the
value there is less than the pivot. -/
def ExactR (comp : α → α → Bool) (pivot : α) (a : List α) (lm1 : Int) (right sz : Nat) :
    Prop :=
  right < 2 ^ 64 ∧ ∀ m : Nat, right.testBit m = (decide (m < sz) && comp (rdi a (lm1 - m)) pivot)

/-- The state of the range between the scans: the front still holds `hole`, what the move
of the pivot has left there, no value before `first` (the front apart) is greater than the
pivot, no value after `lm1` (and not before `first`) is less. -/
structure PartInv (comp : α → α → Bool) (pivot hole : α) (n : Nat) (a : List α)
    (first lm1 : Int) : Prop where
  len : a.length = n
  piv : rd a 0 = hole
  lo : 1 ≤ first
  hi : lm1 < n
  gap : first ≤ lm1 + 2
  fn : first ≤ n
  r1 : ∀ i : Nat, 1 ≤ i → (i : Int) < first → comp pivot (rd a i) = false
  r2 : ∀ i : Nat, first ≤ (i : Int) → lm1 < (i : Int) → i < n → comp (rd a i) pivot = false

/-- The state at the head of the main loop: the regions, and each bit set either empty or
exact for the block of 64 positions at its end of the part not yet settled. -/
structure BlockInv (comp : α → α → Bool) (pivot hole : α) (n : Nat) (a : List α)
    (first lm1 : Int) (left right : Nat) : Prop where
  inv : PartInv comp pivot hole n a first lm1
  one : left = 0 ∨ right = 0
  exl : left = 0 ∨ (ExactL comp pivot a first left 64 ∧ first + 63 ≤ lm1)
  exr : right = 0 ∨ (ExactR comp pivot a lm1 right 64 ∧ first + 63 ≤ lm1)

/-- The result of `__bitset_partition`: a permutation of the range with the pivot at the
returned position, nothing greater than the pivot before it and nothing less after it. -/
def PartitionPost (comp : α → α → Bool) (a : List α) (r : List α × Int × Bool) : Prop :=
  r.1.Perm a ∧ 0 ≤ r.2.1 ∧ r.2.1 < a.length ∧ rd r.1 r.2.1.toNat = rd a 0
    ∧ (∀ i : Nat, (i : Int) < r.2.1 → comp (rd a 0) (rd r.1 i) = false)
    ∧ (∀ i : Nat, r.2.1 < (i : Int) → i < a.length → comp (rd r.1 i) (rd a 0) = false)

/-- The scan from the right of `__bitset_partition` ends inside the range `a`: a value
after the first is not greater than the pivot (the first value), or the first place, as
the move of the pivot has left it, holds a value that is not greater than the pivot. -/
def ScanGuarded (comp : α → α → Bool) (moved : α → α) (a : List α) : Prop :=
  (∃ i : Nat, 1 ≤ i ∧ i < a.length ∧ comp (rd a 0) (rd a i) = false)
    ∨ comp (rd a 0) (moved (rd a 0)) = false

/-- The order `<` of the natural numbers as a comparator. -/
def natLess (x y : Nat) : Bool := decide (x < y)

/-- A sort of natural numbers standing for the heap sort of the standard library. -/
def natHeapSort (a : List Nat) : List Nat := a.insertionSort (fun x y => x ≤ y)

end stdext

namespace stdext

open __bitsetsort

variable {α : Type} [Inhabited α]

/-! ## The sizes of the last blocks, and the counter of the main loop -/

/-- The values of `__l_size` and `__r_size` in `__bitset_partition` on the range `a`. -/
def partition_sizes (comp : α → α → Bool) (moved : α → α) (a : List α) : Int × Int :=
  let begin : Int := 0
  let pivot := rdi a begin
  let a := a.set begin.toNat (moved pivot)
  let s := partition_start comp pivot a
  let r := block_loop comp pivot a.length s.1 s.2.1 s.2.2.1 0 0
  last_block_sizes (r.2.2.1 - r.2.1 + 1) r.2.2.2.1 r.2.2.2.2

/-- The function `__bitsetsort_loop` with its counter made visible: the counter allows
`fuel` nested turns of the `while (true)` loop and recursive calls, and the result is
`none` when a turn is reached that the counter does not allow. -/
def __bitsetsort_loop_checked (heap_sort : List α → List α) (moved : α → α)
    (trivially : Bool) (comp : α → α → Bool) : Nat → List α → Int → Option (List α)
  | 0, _, _ => none
  | fuel + 1, a, limit =>
    let cond_swap := __sorting_network.__conditional_swap trivially comp
    if limit = 0 then some (heap_sort a)
    else
      let limit := limit - 1
      let len := a.length
      if len ≤ __bitonic.__batch then
        some (__sorting_network.__sort1to8 cond_swap a (len : Int))
      else if len ≤ __bitonic.__small_sort_max then
        some (__bitonic.__small_sort trivially comp a).2
      else
        let a := select_pivot cond_swap a
        let ret := __bitset_partition comp moved a
        let a := ret.1
        let pos := ret.2.1.toNat
        let lower := a.take pos
        let upper := a.drop (pos + 1)
        let middle := (a.drop pos).take 1
        if ret.2.2 then
          let left := __partial_insertion_sort comp lower
          let right := __partial_insertion_sort comp upper
          if right.1 then
            if left.1 then some (left.2 ++ middle ++ right.2)
            else
              (__bitsetsort_loop_checked heap_sort moved trivially comp fuel left.2 limit).map
                (fun l => l ++ middle ++ right.2)
          else
            if left.1 then
              (__bitsetsort_loop_checked heap_sort moved trivially comp fuel right.2 limit).map
                (fun r => left.2 ++ middle ++ r)
            else
              (__bitsetsort_loop_checked heap_sort moved trivially comp fuel left.2 limit).bind
                (fun l =>
                  (__bitsetsort_loop_checked heap_sort moved trivially comp fuel right.2
                    limit).map (fun r => l ++ middle ++ r))
        else
          (__bitsetsort_loop_checked heap_sort moved trivially comp fuel lower limit).bind
            (fun l =>
              (__bitsetsort_loop_checked heap_sort moved trivially comp fuel upper limit).map
                (fun r => l ++ middle ++ r))

end stdext

namespace DB

/-- The writer invariant of the data model: a writer is present only in state
`DOWNLOADING` with a registered downloader. -/
def FileSegment.writerWhileDownloading (s : FileSegment) : Prop :=
  s.download_buffer.isSome = true →
    s.download_state = State.DOWNLOADING ∧ s.downloader_id ≠ ""

instance (s : FileSegment) : Decidable s.writerWhileDownloading := by
  unfold FileSegment.writerWhileDownloading; infer_instance

/-- The calls that break the writer invariant on a segment that satisfies it: a `write`
that returns while the state is not `DOWNLOADING`; `completeBatch` by the downloader while
the writer is present; `complete(PARTIALLY_DOWNLOADED)` by the downloader while the writer
is present and another holder exists; `complete()` while the writer is present, by a
caller without id, or by any caller when bytes are missing and another holder exists. -/
def breaksWriter (s : FileSegment) (c : Call) : Prop :=
  match c.op with
  | .write n =>
    (n ≠ 0 ∧ n ≤ s.availableSize ∧ c.thread.hasId ∧ c.thread.queryId = s.downloader_id)
      ∧ s.download_state ≠ State.DOWNLOADING
  | .completeBatch =>
    (c.thread.hasId ∧ c.thread.queryId = s.downloader_id) ∧ s.download_buffer.isSome = true
  | .complete st =>
    (c.thread.hasId ∧ c.thread.queryId = s.downloader_id) ∧ s.download_buffer.isSome = true
      ∧ st = State.PARTIALLY_DOWNLOADED
      ∧ c.cache.isLastFileSegmentHolder s.key s.offset = false
  | .completeNoArg =>
    s.download_buffer.isSome = true
      ∧ (¬ c.thread.hasId
        ∨ (s.downloaded_size ≠ s.range.size
          ∧ c.cache.isLastFileSegmentHolder s.key s.offset = false))
  | _ => False

/-- The calls that keep the writer invariant: all but those of `breaksWriter`. -/
def keepsWriter (s : FileSegment) (c : Call) : Prop := ¬ breaksWriter s c

/-- The `EMPTY` invariant of the data model. -/
def FileSegment.emptyIsUntouched (s : FileSegment) : Prop :=
  s.download_state = State.EMPTY →
    s.downloaded_size = 0 ∧ s.reserved_size = 0 ∧ s.downloader_id = ""

instance (s : FileSegment) : Decidable s.emptyIsUntouched := by
  unfold FileSegment.emptyIsUntouched; infer_instance

/-- A thread without context: `CurrentThread::isInitialized()` is false. -/
def noThread : CurrentThread := ⟨false, ""⟩

/-! ## Basic facts -/

theorem getCallerId_of_hasId {t : CurrentThread} (h : t.hasId) :
    FileSegment.getCallerId t = .ok t.queryId := by
  obtain ⟨h1, h2⟩ := h
  simp [FileSegment.getCallerId, h1, h2]

theorem getCallerId_of_not_hasId {t : CurrentThread} (h : ¬ t.hasId) :
    FileSegment.getCallerId t = .error ErrorCode.FILE_CACHE_ERROR := by
  unfold CurrentThread.hasId at h
  unfold FileSegment.getCallerId
  split
  · rfl
  · rename_i h2
    exact absurd ⟨by simpa using (not_or.mp h2).1, (not_or.mp h2).2⟩ h

theorem getCallerId_ok_iff {t : CurrentThread} {c : String} :
    FileSegment.getCallerId t = .ok c ↔ t.hasId ∧ c = t.queryId := by
  by_cases h : t.hasId
  · rw [getCallerId_of_hasId h]
    constructor
    · intro h1; exact ⟨h, (Except.ok.inj h1).symm⟩
    · rintro ⟨_, rfl⟩; rfl
  · rw [getCallerId_of_not_hasId h]
    constructor
    · intro h1; cases h1
    · rintro ⟨h1, _⟩; exact absurd h1 h

theorem getOrSetDownloader_of_set (s : FileSegment) (t : CurrentThread)
    (h : s.downloader_id ≠ "") :
    s.getOrSetDownloader t = ⟨.ok s.downloader_id, s, []⟩ := by
  simp [FileSegment.getOrSetDownloader, h]

theorem getOrSetDownloader_of_unset (s : FileSegment) (t : CurrentThread)
    (h : s.downloader_id = "") (ht : t.hasId) :
    s.getOrSetDownloader t = ⟨.ok t.queryId,
      { s with downloader_id := t.queryId, download_state := State.DOWNLOADING }, []⟩ := by
  simp [FileSegment.getOrSetDownloader, h, getCallerId_of_hasId ht]

theorem getOrSetDownloaderSeq_of_set (s : FileSegment) (ts : List CurrentThread)
    (h : s.downloader_id ≠ "") :
    getOrSetDownloaderSeq s ts = List.replicate ts.length (.ok s.downloader_id) := by
  induction ts with
  | nil => rfl
  | cons t ts ih =>
    simp [getOrSetDownloaderSeq, getOrSetDownloader_of_set s t h, ih, List.replicate_succ]

theorem reachable_of_construct (offset_ size_ : Nat) (key_ : Key) (st : State)
    (s : FileSegment) (ho : offset_ < sizeModulus) (hs : size_ < sizeModulus)
    (h : FileSegment.construct offset_ size_ key_ st = .ok s) : Reachable s :=
  ReachableBy.init s ⟨offset_, size_, key_, st, ho, hs, h⟩

theorem reachableBy_run {allowed : FileSegment → Call → Prop} {s : FileSegment}
    (h : ReachableBy allowed s) (cs : List Call) (hcs : allowedAlong allowed s cs) :
    ReachableBy allowed (run s cs) := by
  induction cs generalizing s with
  | nil => exact h
  | cons c cs ih => exact ih (ReachableBy.next s c h hcs.1) hcs.2

theorem reachable_run {s : FileSegment} (h : Reachable s) (cs : List Call) :
    Reachable (run s cs) := by
  induction cs generalizing s with
  | nil => exact h
  | cons c cs ih => exact ih (ReachableBy.next s c h trivial)

/-! ### What each operation leaves untouched -/

theorem thenNotifyAll_seg (o : Outcome Unit) : o.thenNotifyAll.seg = o.seg := by
  unfold Outcome.thenNotifyAll
  cases o.result <;> rfl


theorem isDownloader_eq_true_iff (s : FileSegment) (t : CurrentThread) :
    s.isDownloader t = .ok true ↔ FileSegment.getCallerId t = .ok s.downloader_id := by
  unfold FileSegment.isDownloader
  cases h : FileSegment.getCallerId t with
  | error e => simp
  | ok c => simp


theorem hasId_of_getCallerId {t : CurrentThread} {c : String}
    (h : FileSegment.getCallerId t = .ok c) : t.hasId ∧ c = t.queryId ∧ c ≠ "" := by
  obtain ⟨h1, h2⟩ := getCallerId_ok_iff.1 h
  exact ⟨h1, h2, h2 ▸ h1.2⟩

theorem getCallerId_ne_ok_empty (t : CurrentThread) : FileSegment.getCallerId t ≠ .ok "" :=
  fun h => (hasId_of_getCallerId h).2.2 rfl

theorem reserve_frame (s : FileSegment) (t : CurrentThread) (cache : FileCache) (n : Nat) :
    (s.reserve t cache n).seg.download_state = s.download_state
    ∧ (s.reserve t cache n).seg.downloader_id = s.downloader_id
    ∧ (s.reserve t cache n).seg.downloaded_size = s.downloaded_size
    ∧ (s.reserve t cache n).seg.segment_range = s.segment_range
    ∧ (s.reserve t cache n).seg.download_buffer = s.download_buffer
    ∧ (s.reserve t cache n).seg.file_key = s.file_key := by
  unfold FileSegment.reserve
  split_ifs
  · simp
  · simp
  · cases FileSegment.getCallerId t with
    | error e => simp
    | ok c =>
      dsimp only
      split_ifs <;> simp

theorem write_frame (s : FileSegment) (t : CurrentThread) (cache : FileCache) (n : Nat) :
    (s.write t cache n).seg.download_state = s.download_state
    ∧ (s.write t cache n).seg.downloader_id = s.downloader_id
    ∧ (s.write t cache n).seg.reserved_size = s.reserved_size
    ∧ (s.write t cache n).seg.segment_range = s.segment_range
    ∧ (s.write t cache n).seg.file_key = s.file_key := by
  unfold FileSegment.write
  split_ifs
  · simp
  · simp
  · cases s.isDownloader t with
    | error e => simp
    | ok b =>
      cases b with
      | false => simp
      | true => cases s.download_buffer <;> simp

theorem write_seg_of_not_downloader (s : FileSegment) (t : CurrentThread) (cache : FileCache)
    (n : Nat) (h : FileSegment.getCallerId t ≠ .ok s.downloader_id) :
    (s.write t cache n).seg = s := by
  have hd : s.isDownloader t ≠ .ok true := fun h2 => h ((isDownloader_eq_true_iff s t).1 h2)
  unfold FileSegment.write
  split_ifs
  · rfl
  · rfl
  · cases hr : s.isDownloader t with
    | error e => rfl
    | ok b =>
      cases b with
      | false => rfl
      | true => exact absurd hr hd

theorem reserve_seg_of_not_downloader (s : FileSegment) (t : CurrentThread) (cache : FileCache)
    (n : Nat) (h : FileSegment.getCallerId t ≠ .ok s.downloader_id) :
    (s.reserve t cache n).seg = s := by
  unfold FileSegment.reserve
  split_ifs
  · rfl
  · rfl
  · cases hr : FileSegment.getCallerId t with
    | error e => rfl
    | ok c =>
      dsimp only
      have hne : s.downloader_id ≠ c := fun h2 => h (by rw [hr, h2])
      rw [if_pos hne]

theorem wait_seg (s : FileSegment) : s.wait.seg = s := by
  unfold FileSegment.wait
  split_ifs <;> rfl

theorem finalizeWithCache_frame (s : FileSegment) (cache : FileCache) :
    (s.finalizeWithCache cache).1.downloader_id = s.downloader_id
    ∧ (s.finalizeWithCache cache).1.downloaded_size = s.downloaded_size
    ∧ (s.finalizeWithCache cache).1.reserved_size = s.reserved_size
    ∧ (s.finalizeWithCache cache).1.segment_range = s.segment_range
    ∧ (s.finalizeWithCache cache).1.download_buffer = s.download_buffer
    ∧ (s.finalizeWithCache cache).1.file_key = s.file_key := by
  unfold FileSegment.finalizeWithCache
  dsimp only
  split_ifs <;> simp

theorem finalizeWithCache_state (s : FileSegment) (cache : FileCache) :
    (s.finalizeWithCache cache).1.download_state = s.download_state
    ∨ ((s.download_state = State.PARTIALLY_DOWNLOADED
          ∨ s.download_state = State.PARTIALLY_DOWNLOADED_NO_CONTINUATION)
        ∧ s.downloaded_size = 0
        ∧ (s.finalizeWithCache cache).1.download_state = State.SKIP_CACHE) := by
  unfold FileSegment.finalizeWithCache
  dsimp only
  split_ifs with h1 h2 h3 h4
  · exact Or.inr ⟨h1, h3, rfl⟩
  · exact Or.inl rfl
  · exact Or.inl rfl
  · exact Or.inl rfl
  · exact Or.inl rfl

theorem finalizeWithCache_of_settled (s : FileSegment) (cache : FileCache)
    (h1 : s.download_state ≠ State.PARTIALLY_DOWNLOADED)
    (h2 : s.download_state ≠ State.PARTIALLY_DOWNLOADED_NO_CONTINUATION) :
    s.finalizeWithCache cache = (s, false, []) := by
  unfold FileSegment.finalizeWithCache
  rw [if_neg (by tauto)]

theorem completeImpl_frame (s : FileSegment) (t : CurrentThread) (cache : FileCache) :
    (s.completeImpl t cache).seg.downloaded_size = s.downloaded_size
    ∧ (s.completeImpl t cache).seg.reserved_size = s.reserved_size
    ∧ (s.completeImpl t cache).seg.segment_range = s.segment_range
    ∧ (s.completeImpl t cache).seg.file_key = s.file_key
    ∧ (s.completeImpl t cache).seg.download_state = (s.finalizeWithCache cache).1.download_state
    ∧ ((s.completeImpl t cache).seg.downloader_id = s.downloader_id
        ∨ (s.completeImpl t cache).seg.downloader_id = "")
    ∧ (FileSegment.getCallerId t = .ok s.downloader_id →
        (s.completeImpl t cache).seg.downloader_id = "") := by
  obtain ⟨f1, f2, f3, f4, _, f6⟩ := finalizeWithCache_frame s cache
  unfold FileSegment.completeImpl
  cases hc : FileSegment.getCallerId t with
  | error e => simp [f1, f2, f3, f4, f6]
  | ok c =>
    dsimp only
    split_ifs with h1 h2 h3
    · simp [f1, f2, f3, f4, f6]
    · simp [f1, f2, f3, f4, f6]
    · simp [f1, f2, f3, f4, f6]; intro h; exact absurd (f1.trans h.symm) h1
    · simp [f1, f2, f3, f4, f6]; intro h; exact absurd (f1.trans h.symm) h1

/-! ## C1: election of the downloader -/

/-- C1. For every segment and every caller `t` with a non-empty id: when `downloader_id` is
empty, `getOrSetDownloader` returns the caller's id and leaves the segment with
`downloader_id` equal to it and state `DOWNLOADING` (the other members untouched); when
`downloader_id` is a non-empty `d`, it returns `d` and leaves the segment as it was.
Consequently every call of a sequential run of `getOrSetDownloader` by `t` and then by
the callers `ts` on a segment without downloader returns the id of the first caller. -/
theorem getOrSetDownloader_contract (s : FileSegment) (t : CurrentThread)
    (ts : List CurrentThread) (ht : t.hasId) :
    (s.downloader_id = "" →
      (s.getOrSetDownloader t).result = .ok t.queryId
      ∧ (s.getOrSetDownloader t).seg.downloader_id = t.queryId
      ∧ (s.getOrSetDownloader t).seg.download_state = State.DOWNLOADING
      ∧ (s.getOrSetDownloader t).seg
          = { s with downloader_id := t.queryId, download_state := State.DOWNLOADING })
    ∧ (s.downloader_id ≠ "" →
      (s.getOrSetDownloader t).result = .ok s.downloader_id
      ∧ (s.getOrSetDownloader t).seg = s)
    ∧ (s.downloader_id = "" →
      getOrSetDownloaderSeq s (t :: ts)
        = List.replicate (ts.length + 1) (.ok t.queryId)) := by
  refine ⟨fun h => ?_, fun h => ?_, fun h => ?_⟩
  · rw [getOrSetDownloader_of_unset s t h ht]
    exact ⟨rfl, rfl, rfl, rfl⟩
  · rw [getOrSetDownloader_of_set s t h]
    exact ⟨rfl, rfl⟩
  · simp only [getOrSetDownloaderSeq, getOrSetDownloader_of_unset s t h ht]
    rw [getOrSetDownloaderSeq_of_set _ ts (by simpa using ht.2)]
    simp [List.replicate_succ]

/-- C1 at a concrete input: three clients claim a fresh segment one after the other. -/
theorem getOrSetDownloader_contract_witness :
    (client "A").hasId
    ∧ getOrSetDownloaderSeq emptySegment10 [client "A", client "B", client "C"]
        = [.ok "A", .ok "A", .ok "A"] :=
  ⟨by decide,
    (getOrSetDownloader_contract emptySegment10 (client "A") [client "B", client "C"]
      (by decide)).2.2 rfl⟩

/-! ## C6: construction -/

/-- C6. For every offset, size and key: constructing with `DOWNLOADED` succeeds with
`reserved_size = downloaded_size = size`; constructing with `EMPTY` succeeds with
`reserved_size = downloaded_size = 0` and an empty `downloader_id`; constructing with
`DOWNLOADING`, `PARTIALLY_DOWNLOADED`, `PARTIALLY_DOWNLOADED_NO_CONTINUATION` or
`SKIP_CACHE` throws `FILE_CACHE_ERROR`. -/
theorem construct_contract (offset_ size_ : Nat) (key_ : Key) :
    (∃ s, FileSegment.construct offset_ size_ key_ State.DOWNLOADED = .ok s
      ∧ s.download_state = State.DOWNLOADED
      ∧ s.reserved_size = size_ ∧ s.downloaded_size = size_)
    ∧ (∃ s, FileSegment.construct offset_ size_ key_ State.EMPTY = .ok s
      ∧ s.download_state = State.EMPTY
      ∧ s.reserved_size = 0 ∧ s.downloaded_size = 0 ∧ s.downloader_id = "")
    ∧ FileSegment.construct offset_ size_ key_ State.DOWNLOADING
        = .error ErrorCode.FILE_CACHE_ERROR
    ∧ FileSegment.construct offset_ size_ key_ State.PARTIALLY_DOWNLOADED
        = .error ErrorCode.FILE_CACHE_ERROR
    ∧ FileSegment.construct offset_ size_ key_ State.PARTIALLY_DOWNLOADED_NO_CONTINUATION
        = .error ErrorCode.FILE_CACHE_ERROR
    ∧ FileSegment.construct offset_ size_ key_ State.SKIP_CACHE
        = .error ErrorCode.FILE_CACHE_ERROR := by
  refine ⟨⟨_, rfl, rfl, rfl, rfl⟩, ⟨_, rfl, rfl, rfl, rfl, rfl⟩, rfl, rfl, rfl, rfl⟩

/-! ## C2: the size invariant -/

/-- C2 (evaluation at the failing input). On a fresh 10-byte segment client `A` claims the
download and is granted `reserve(5)` and then `reserve(10)`; both calls pass the guard
`downloaded_size + size > range().size()` because nothing has been written, the second
asks the cache manager for the 5 missing bytes only, yet `reserved_size += size` adds all
10: `reserved_size` is 15 on a segment of size 10, so `reserved_size ≤ size` is broken. -/
theorem reserve_twice_exceeds_size :
    FileSegment.construct 0 10 1 State.EMPTY = .ok emptySegment10
    ∧ Reachable (run emptySegment10 [callBy "A" .getOrSetDownloader, callBy "A" (.reserve 5),
        callBy "A" (.reserve 10)])
    ∧ ((run emptySegment10 [callBy "A" .getOrSetDownloader]).reserve
        (client "A") (grantingCache false) 5).result = .ok true
    ∧ ((run emptySegment10 [callBy "A" .getOrSetDownloader, callBy "A" (.reserve 5)]).reserve
        (client "A") (grantingCache false) 10).result = .ok true
    ∧ ((run emptySegment10 [callBy "A" .getOrSetDownloader, callBy "A" (.reserve 5)]).reserve
        (client "A") (grantingCache false) 10).effects = [Effect.tryReserve 1 0 5 true]
    ∧ (run emptySegment10 [callBy "A" .getOrSetDownloader, callBy "A" (.reserve 5),
        callBy "A" (.reserve 10)]).reserved_size = 15
    ∧ (run emptySegment10 [callBy "A" .getOrSetDownloader, callBy "A" (.reserve 5),
        callBy "A" (.reserve 10)]).range.size = 10
    ∧ ¬ (run emptySegment10 [callBy "A" .getOrSetDownloader, callBy "A" (.reserve 5),
        callBy "A" (.reserve 10)]).sizesOrdered :=
  ⟨rfl, reachable_run (reachable_of_construct 0 10 1 State.EMPTY emptySegment10
      (by decide) (by decide) rfl) _,
    rfl, rfl, by decide, by decide, by decide, by decide⟩

/-! ## C4: the `DOWNLOADING` invariant -/

/-- C4 (evaluation at the failing input). On a fresh 10-byte segment client `A` claims the
download and calls `completeBatch` before every byte is there: the call succeeds, clears
`downloader_id` and leaves the state `DOWNLOADING`. A later `wait()` finds the state
`DOWNLOADING` and goes to sleep on the condition variable, the very place where the source
asserts `!downloader_id.empty()`. -/
theorem completeBatch_leaves_downloading_without_downloader :
    FileSegment.construct 0 10 1 State.EMPTY = .ok emptySegment10
    ∧ Reachable (run emptySegment10 [callBy "A" .getOrSetDownloader, callBy "A" .completeBatch])
    ∧ ((run emptySegment10 [callBy "A" .getOrSetDownloader]).completeBatch (client "A")).result
        = .ok ()
    ∧ (run emptySegment10 [callBy "A" .getOrSetDownloader, callBy "A" .completeBatch]).download_state
        = State.DOWNLOADING
    ∧ (run emptySegment10 [callBy "A" .getOrSetDownloader, callBy "A" .completeBatch]).downloader_id
        = ""
    ∧ ¬ (run emptySegment10
        [callBy "A" .getOrSetDownloader, callBy "A" .completeBatch]).downloadingHasDownloader
    ∧ (run emptySegment10 [callBy "A" .getOrSetDownloader, callBy "A" .completeBatch]).wait.effects
        = [Effect.waitFor 60] :=
  ⟨rfl, reachable_run (reachable_of_construct 0 10 1 State.EMPTY emptySegment10
      (by decide) (by decide) rfl) _,
    rfl, by decide, by decide, by decide, by decide⟩

/-! ## C7: `reserve` -/

/-- C7 (evaluation at the failing input). Client `A` has claimed a 10-byte segment, reserved
one byte and written it. `reserve(2^64 - 1)` by `A` must fail, since
`downloaded_size + n` exceeds the size; but the sum wraps around to `0` in `size_t`, the
guard lets the call through, the cache manager is asked for `2^64 - 1` bytes, and on its
consent `reserved_size` wraps around to `0`, below `downloaded_size`. -/
theorem reserve_guard_wraps_around :
    Reachable (run emptySegment10 [callBy "A" .getOrSetDownloader, callBy "A" (.reserve 1),
        callBy "A" (.write 1)])
    ∧ (run emptySegment10 [callBy "A" .getOrSetDownloader, callBy "A" (.reserve 1),
        callBy "A" (.write 1)])
      = { emptySegment10 with
          download_state := State.DOWNLOADING
          downloader_id := "A"
          reserved_size := 1
          downloaded_size := 1
          download_buffer := some ⟨"segment", 1⟩ }
    ∧ 18446744073709551615 < sizeModulus
    ∧ (run emptySegment10 [callBy "A" .getOrSetDownloader, callBy "A" (.reserve 1),
        callBy "A" (.write 1)]).downloaded_size + 18446744073709551615
        > (run emptySegment10 [callBy "A" .getOrSetDownloader, callBy "A" (.reserve 1),
            callBy "A" (.write 1)]).range.size
    ∧ ((run emptySegment10 [callBy "A" .getOrSetDownloader, callBy "A" (.reserve 1),
        callBy "A" (.write 1)]).reserve (client "A") (grantingCache false)
          18446744073709551615).result = .ok true
    ∧ ((run emptySegment10 [callBy "A" .getOrSetDownloader, callBy "A" (.reserve 1),
        callBy "A" (.write 1)]).reserve (client "A") (grantingCache false)
          18446744073709551615).effects = [Effect.tryReserve 1 0 18446744073709551615 true]
    ∧ ((run emptySegment10 [callBy "A" .getOrSetDownloader, callBy "A" (.reserve 1),
        callBy "A" (.write 1)]).reserve (client "A") (grantingCache false)
          18446744073709551615).seg.reserved_size = 0 :=
  ⟨reachable_run (reachable_of_construct 0 10 1 State.EMPTY emptySegment10
      (by decide) (by decide) rfl) _,
    by decide, by decide, by decide, rfl, by decide, by decide⟩

/-- Away from wrap-around `reserve` behaves as the contract says: when neither
`downloaded_size + n` nor `reserved_size + n` leaves `size_t`, the call throws if and only
if `n == 0`, or `downloaded_size + n > size`, or the caller is not the downloader; a failing
call changes nothing; a call that returns hands back the answer of `tryReserve`, adds `n`
to `reserved_size` on `true` and changes nothing on `false`. -/
theorem reserve_contract_without_overflow (s : FileSegment) (t : CurrentThread)
    (cache : FileCache) (n : Nat) (h1 : s.downloaded_size + n < sizeModulus)
    (h2 : s.reserved_size + n < sizeModulus) :
    ((s.reserve t cache n).failed = true ↔
        n = 0 ∨ s.downloaded_size + n > s.range.size
          ∨ FileSegment.getCallerId t ≠ .ok s.downloader_id)
    ∧ ((s.reserve t cache n).failed = true →
        (s.reserve t cache n).result = .error ErrorCode.FILE_CACHE_ERROR
        ∧ (s.reserve t cache n).seg = s ∧ (s.reserve t cache n).effects = [])
    ∧ ((s.reserve t cache n).failed = false →
        (s.reserve t cache n).result = .ok (cache.tryReserve s.key s.offset
            (sizeSub n (sizeSub s.reserved_size s.downloaded_size)))
        ∧ (cache.tryReserve s.key s.offset
              (sizeSub n (sizeSub s.reserved_size s.downloaded_size)) = true →
            (s.reserve t cache n).seg = { s with reserved_size := s.reserved_size + n })
        ∧ (cache.tryReserve s.key s.offset
              (sizeSub n (sizeSub s.reserved_size s.downloaded_size)) = false →
            (s.reserve t cache n).seg = s)) := by
  have hadd1 : sizeAdd s.downloaded_size n = s.downloaded_size + n := by
    unfold sizeAdd; unfold sizeModulus at h1; omega
  have hadd2 : sizeAdd s.reserved_size n = s.reserved_size + n := by
    unfold sizeAdd; unfold sizeModulus at h2; omega
  by_cases hn : n = 0
  · simp [FileSegment.reserve, hn, Outcome.failed]
  by_cases hgt : s.downloaded_size + n > s.range.size
  · simp [FileSegment.reserve, hn, hadd1, hgt, Outcome.failed]
  cases hc : FileSegment.getCallerId t with
  | error e =>
    cases e
    simp [FileSegment.reserve, hn, hadd1, hgt, hc, Outcome.failed]
  | ok c =>
    by_cases heq : s.downloader_id = c
    · cases hr : cache.tryReserve s.key s.offset
          (sizeSub n (sizeSub s.reserved_size s.downloaded_size)) <;>
        simp [FileSegment.reserve, hn, hadd1, hadd2, hgt, hc, heq, hr, Outcome.failed]
    · have hne : ¬ c = s.downloader_id := fun h => heq h.symm
      simp [FileSegment.reserve, hn, hadd1, hgt, hc, heq, hne, Outcome.failed]

/-! ## C9: a granted reservation and the write that follows -/

/-- C9 (evaluation at the failing input). Client `A` has claimed a 10-byte segment, has been
granted `reserve(2)` and has written one byte; the segment is reachable and satisfies
`downloaded_size ≤ reserved_size ≤ size`. `reserve(2^64 - 1)` by `A` returns `true`
(the guard and `reserved_size += size` wrap around, leaving `reserved_size = 1`), and the
`write` of the same `2^64 - 1` bytes by `A` right after it fails the size precondition:
nothing is available. -/
theorem write_after_granted_reserve_fails :
    Reachable (run emptySegment10 [callBy "A" .getOrSetDownloader, callBy "A" (.reserve 2),
        callBy "A" (.write 1)])
    ∧ (run emptySegment10 [callBy "A" .getOrSetDownloader, callBy "A" (.reserve 2),
        callBy "A" (.write 1)]).sizesOrdered
    ∧ ((run emptySegment10 [callBy "A" .getOrSetDownloader, callBy "A" (.reserve 2),
        callBy "A" (.write 1)]).reserve (client "A") (grantingCache false)
          18446744073709551615).result = .ok true
    ∧ (run emptySegment10 [callBy "A" .getOrSetDownloader, callBy "A" (.reserve 2),
        callBy "A" (.write 1), callBy "A" (.reserve 18446744073709551615)]).availableSize = 0
    ∧ ((run emptySegment10 [callBy "A" .getOrSetDownloader, callBy "A" (.reserve 2),
        callBy "A" (.write 1), callBy "A" (.reserve 18446744073709551615)]).write
          (client "A") (grantingCache false) 18446744073709551615).result
        = .error ErrorCode.FILE_CACHE_ERROR :=
  ⟨reachable_run (reachable_of_construct 0 10 1 State.EMPTY emptySegment10 (by decide) (by decide) rfl) _,
    by decide, rfl, by decide, rfl⟩

/-! ## C8: `write` -/

theorem availableSize_eq_sub (s : FileSegment) (hle : s.downloaded_size ≤ s.reserved_size)
    (hres : s.reserved_size < sizeModulus) :
    s.availableSize = s.reserved_size - s.downloaded_size := by
  unfold FileSegment.availableSize sizeSub
  unfold sizeModulus at hres
  omega

/-- The behaviour of `write` on a segment with `downloaded_size ≤ reserved_size`: when it
throws, what a throw leaves, what a return leaves. -/
theorem write_behaviour (s : FileSegment) (t : CurrentThread) (cache : FileCache) (n : Nat)
    (hle : s.downloaded_size ≤ s.reserved_size) (hres : s.reserved_size < sizeModulus) :
    ((s.write t cache n).failed = true ↔
        n = 0 ∨ n > s.reserved_size - s.downloaded_size
          ∨ FileSegment.getCallerId t ≠ .ok s.downloader_id)
    ∧ ((s.write t cache n).failed = true →
        (s.write t cache n).result = .error ErrorCode.FILE_CACHE_ERROR
        ∧ (s.write t cache n).seg = s ∧ (s.write t cache n).effects = [])
    ∧ ((s.write t cache n).failed = false →
        (s.write t cache n).result = .ok ()
        ∧ (s.write t cache n).seg.downloaded_size = s.downloaded_size + n
        ∧ (s.write t cache n).seg.download_buffer.isSome = true
        ∧ (s.write t cache n).seg.download_state = s.download_state
        ∧ (s.write t cache n).seg.reserved_size = s.reserved_size
        ∧ (s.write t cache n).seg.downloader_id = s.downloader_id
        ∧ (s.write t cache n).seg.segment_range = s.segment_range
        ∧ (s.write t cache n).seg.file_key = s.file_key) := by
  have hav := availableSize_eq_sub s hle hres
  by_cases hn : n = 0
  · simp [FileSegment.write, hn, Outcome.failed]
  by_cases hlt : s.availableSize < n
  · have : n > s.reserved_size - s.downloaded_size := by omega
    simp [FileSegment.write, hn, hlt, Outcome.failed, this]
  have hfit : ¬ n > s.reserved_size - s.downloaded_size := by omega
  have hadd : sizeAdd s.downloaded_size n = s.downloaded_size + n := by
    unfold sizeAdd; unfold sizeModulus at hres; omega
  by_cases hid : FileSegment.getCallerId t = .ok s.downloader_id
  · have hd : s.isDownloader t = .ok true := (isDownloader_eq_true_iff s t).2 hid
    cases hb : s.download_buffer with
    | none => simp [FileSegment.write, hn, hlt, hd, hb, Outcome.failed, hid, hfit, hadd]
    | some b => simp [FileSegment.write, hn, hlt, hd, hb, Outcome.failed, hid, hfit, hadd]
  · have hd : s.isDownloader t ≠ .ok true := fun h => hid ((isDownloader_eq_true_iff s t).1 h)
    cases hr : s.isDownloader t with
    | error e =>
      cases e
      simp [FileSegment.write, hn, hlt, hr, Outcome.failed, hid]
    | ok b =>
      cases b with
      | false => simp [FileSegment.write, hn, hlt, hr, Outcome.failed, hid]
      | true => exact absurd hr hd

/-- Where `reserved_size < downloaded_size` and a downloader is registered, `write` is
outside its contract: the downloader's `write` of one byte returns, although no byte is
reserved and unwritten. -/
theorem write_beyond_reservation (s : FileSegment) (t : CurrentThread) (cache : FileCache)
    (h1 : s.reserved_size < s.downloaded_size) (h2 : s.downloaded_size < sizeModulus)
    (hd : FileSegment.getCallerId t = .ok s.downloader_id) :
    (s.write t cache 1).result = .ok ()
    ∧ ((1 : Nat) : Int) > (s.reserved_size : Int) - (s.downloaded_size : Int) := by
  have hav : ¬ s.availableSize < 1 := by
    unfold FileSegment.availableSize sizeSub
    unfold sizeModulus at h2
    omega
  have hdl : s.isDownloader t = .ok true := (isDownloader_eq_true_iff s t).2 hd
  refine ⟨?_, by omega⟩
  unfold FileSegment.write
  rw [if_neg (by decide), if_neg hav, hdl]
  cases s.download_buffer <;> rfl

theorem completeImpl_result_of_hasId (s : FileSegment) (t : CurrentThread) (cache : FileCache)
    (h : t.hasId) : (s.completeImpl t cache).result = .ok () := by
  unfold FileSegment.completeImpl
  rw [getCallerId_of_hasId h]
  dsimp only
  split_ifs <;> rfl

theorem complete_of_downloader (s : FileSegment) (t : CurrentThread) (cache : FileCache)
    (st : State) (hid : t.hasId) (heq : s.downloader_id = t.queryId) (hst : st.isCompletion) :
    s.complete t cache st
      = ⟨.ok (), (FileSegment.completeImpl { s with download_state := st } t cache).seg,
          (FileSegment.completeImpl { s with download_state := st } t cache).effects
            ++ [Effect.notifyAll]⟩ := by
  have himpl := completeImpl_result_of_hasId { s with download_state := st } t cache hid
  have hst2 : ¬ (st ≠ State.DOWNLOADED ∧ st ≠ State.PARTIALLY_DOWNLOADED
      ∧ st ≠ State.PARTIALLY_DOWNLOADED_NO_CONTINUATION) := by
    unfold State.isCompletion at hst; tauto
  unfold FileSegment.complete
  rw [getCallerId_of_hasId hid]
  dsimp only
  rw [if_neg (not_not.mpr heq), if_neg hst2]
  unfold Outcome.thenNotifyAll
  simp only [himpl]

theorem complete_of_bad_state (s : FileSegment) (t : CurrentThread) (cache : FileCache)
    (st : State) (hid : t.hasId) (heq : s.downloader_id = t.queryId) (hst : ¬ st.isCompletion) :
    s.complete t cache st = ⟨.error ErrorCode.FILE_CACHE_ERROR, s, [Effect.notifyAll]⟩ := by
  have hst2 : st ≠ State.DOWNLOADED ∧ st ≠ State.PARTIALLY_DOWNLOADED
      ∧ st ≠ State.PARTIALLY_DOWNLOADED_NO_CONTINUATION := by
    unfold State.isCompletion at hst; tauto
  unfold FileSegment.complete
  rw [getCallerId_of_hasId hid]
  dsimp only
  rw [if_neg (not_not.mpr heq), if_pos hst2]

theorem complete_of_other_id (s : FileSegment) (t : CurrentThread) (cache : FileCache)
    (st : State) (hid : t.hasId) (hne : s.downloader_id ≠ t.queryId) :
    s.complete t cache st = ⟨.error ErrorCode.FILE_CACHE_ERROR, s, [Effect.notifyAll]⟩ := by
  unfold FileSegment.complete
  rw [getCallerId_of_hasId hid]
  dsimp only
  rw [if_pos hne]

theorem complete_of_no_id (s : FileSegment) (t : CurrentThread) (cache : FileCache)
    (st : State) (hid : ¬ t.hasId) :
    s.complete t cache st = ⟨.error ErrorCode.FILE_CACHE_ERROR, s, []⟩ := by
  unfold FileSegment.complete
  rw [getCallerId_of_not_hasId hid]

theorem completeBatch_of_downloader (s : FileSegment) (t : CurrentThread)
    (hid : t.hasId) (heq : s.downloader_id = t.queryId) :
    s.completeBatch t
      = ⟨.ok (), { (if s.downloaded_size = s.range.size then
            { s with download_state := State.DOWNLOADED } else s) with downloader_id := "" },
          [Effect.notifyAll]⟩ := by
  unfold FileSegment.completeBatch
  rw [getCallerId_of_hasId hid]
  dsimp only
  rw [if_neg (not_not.mpr heq)]

theorem completeBatch_of_other_id (s : FileSegment) (t : CurrentThread)
    (hid : t.hasId) (hne : s.downloader_id ≠ t.queryId) :
    s.completeBatch t = ⟨.error ErrorCode.FILE_CACHE_ERROR, s, [Effect.notifyAll]⟩ := by
  unfold FileSegment.completeBatch
  rw [getCallerId_of_hasId hid]
  dsimp only
  rw [if_pos hne]

theorem completeBatch_of_no_id (s : FileSegment) (t : CurrentThread) (hid : ¬ t.hasId) :
    s.completeBatch t = ⟨.error ErrorCode.FILE_CACHE_ERROR, s, []⟩ := by
  unfold FileSegment.completeBatch
  rw [getCallerId_of_not_hasId hid]

theorem getCallerId_ne_iff (s : FileSegment) (t : CurrentThread) (hid : t.hasId) :
    FileSegment.getCallerId t ≠ .ok s.downloader_id ↔ t.queryId ≠ s.downloader_id := by
  rw [getCallerId_of_hasId hid]
  constructor
  · intro h h2; exact h (by rw [h2])
  · intro h h2; exact h (Except.ok.inj h2)

/-- C10. `complete(state)` throws if and only if the caller is not the downloader (it has no
id, or an id other than `downloader_id`) or `state` is none of `DOWNLOADED`,
`PARTIALLY_DOWNLOADED`, `PARTIALLY_DOWNLOADED_NO_CONTINUATION`; `completeBatch` throws if and
only if the caller is not the downloader. For a caller with an id, not being the downloader
is having an id different from `downloader_id`. Every failing call throws
`FILE_CACHE_ERROR`, leaves the whole segment (state, sizes, `downloader_id`, writer) as it
was, and calls nothing but `notify_all`: no cache-manager operation. -/
theorem completion_failure_contract (s : FileSegment) (t : CurrentThread) (cache : FileCache)
    (st : State) :
    ((s.complete t cache st).failed = true ↔
        FileSegment.getCallerId t ≠ .ok s.downloader_id ∨ ¬ st.isCompletion)
    ∧ ((s.completeBatch t).failed = true ↔ FileSegment.getCallerId t ≠ .ok s.downloader_id)
    ∧ (t.hasId →
        (FileSegment.getCallerId t ≠ .ok s.downloader_id ↔ t.queryId ≠ s.downloader_id))
    ∧ ((s.complete t cache st).failed = true →
        (s.complete t cache st).result = .error ErrorCode.FILE_CACHE_ERROR
        ∧ (s.complete t cache st).seg = s
        ∧ ∀ e ∈ (s.complete t cache st).effects, e = Effect.notifyAll)
    ∧ ((s.completeBatch t).failed = true →
        (s.completeBatch t).result = .error ErrorCode.FILE_CACHE_ERROR
        ∧ (s.completeBatch t).seg = s
        ∧ ∀ e ∈ (s.completeBatch t).effects, e = Effect.notifyAll) := by
  by_cases hid : t.hasId
  · have hne := getCallerId_ne_iff s t hid
    by_cases heq : s.downloader_id = t.queryId
    · have hq : ¬ (t.queryId ≠ s.downloader_id) := fun h => h heq.symm
      rw [completeBatch_of_downloader s t hid heq]
      by_cases hst : st.isCompletion
      · rw [complete_of_downloader s t cache st hid heq hst]
        simp [Outcome.failed, hne, hq, hst]
      · rw [complete_of_bad_state s t cache st hid heq hst]
        simp [Outcome.failed, hne, hq, hst]
    · have hq : t.queryId ≠ s.downloader_id := fun h => heq h.symm
      rw [completeBatch_of_other_id s t hid heq, complete_of_other_id s t cache st hid heq]
      simp [Outcome.failed, hne, hq]
  · have hc := getCallerId_of_not_hasId hid
    rw [completeBatch_of_no_id s t hid, complete_of_no_id s t cache st hid]
    simp [Outcome.failed, hc, hid]

/-! ## C3: the `DOWNLOADED` invariant -/

theorem range_size_construct (offset_ size_ : Nat) (ho : offset_ < sizeModulus)
    (hs : size_ < sizeModulus) :
    Range.size ⟨offset_, sizeSub (sizeAdd offset_ size_) 1⟩ = size_ := by
  unfold Range.size sizeSub sizeAdd
  unfold sizeModulus at ho hs
  dsimp only
  omega

theorem downloadedComplete_of_constructed (s : FileSegment) (h : Constructed s) :
    s.downloadedComplete := by
  obtain ⟨o, n, k, st, ho, hn, hc⟩ := h
  unfold FileSegment.construct at hc
  dsimp only at hc
  split_ifs at hc with h1 h2
  · cases hc
    intro _
    exact ⟨(range_size_construct o n ho hn).symm, rfl⟩
  · cases hc
    intro h3
    exact absurd h3 h1

theorem getOrSetDownloader_of_no_id (s : FileSegment) (t : CurrentThread)
    (h : s.downloader_id = "") (hid : ¬ t.hasId) :
    s.getOrSetDownloader t = ⟨.error ErrorCode.FILE_CACHE_ERROR, s, []⟩ := by
  simp [FileSegment.getOrSetDownloader, h, getCallerId_of_not_hasId hid]

theorem completeNoArg_of_skip (s : FileSegment) (t : CurrentThread) (cache : FileCache)
    (h : s.download_state = State.SKIP_CACHE) :
    s.completeNoArg t cache = ⟨.ok (), s, []⟩ := by
  unfold FileSegment.completeNoArg
  rw [if_pos h]

theorem completeNoArg_seg (s : FileSegment) (t : CurrentThread) (cache : FileCache)
    (h : s.download_state ≠ State.SKIP_CACHE) :
    ∃ st, (st = State.DOWNLOADED ↔
          (s.downloaded_size = s.range.size ∨ s.download_state = State.DOWNLOADED))
      ∧ (s.completeNoArg t cache).seg
          = (FileSegment.completeImpl { s with download_state := st } t cache).seg := by
  unfold FileSegment.completeNoArg
  rw [if_neg h]
  dsimp only
  rw [thenNotifyAll_seg]
  by_cases h1 : s.downloaded_size = s.range.size ∧ s.download_state ≠ State.DOWNLOADED
  · rw [if_pos h1]
    dsimp only
    rw [if_neg (by simp)]
    exact ⟨State.DOWNLOADED, by simp [h1.1], rfl⟩
  · rw [if_neg h1]
    by_cases h2 : s.download_state = State.DOWNLOADING ∨ s.download_state = State.EMPTY
    · rw [if_pos h2]
      refine ⟨State.PARTIALLY_DOWNLOADED, ?_, rfl⟩
      constructor
      · intro h3; cases h3
      · intro h3
        rcases h3 with h3 | h3
        · exact absurd ⟨h3, by rcases h2 with h2 | h2 <;> simp [h2]⟩ h1
        · rcases h2 with h2 | h2 <;> simp [h2] at h3
    · rw [if_neg h2]
      refine ⟨s.download_state, ?_, rfl⟩
      constructor
      · intro h3; exact Or.inr h3
      · intro h3
        rcases h3 with h3 | h3
        · by_contra h4
          exact h1 ⟨h3, h4⟩
        · exact h3

theorem getCallerId_eq_iff (s : FileSegment) (t : CurrentThread) :
    FileSegment.getCallerId t = .ok s.downloader_id ↔
      (t.hasId ∧ t.queryId = s.downloader_id) := by
  rw [getCallerId_ok_iff]
  constructor
  · rintro ⟨h1, h2⟩; exact ⟨h1, h2.symm⟩
  · rintro ⟨h1, h2⟩; exact ⟨h1, h2.symm⟩

theorem completeImpl_downloader_of_other (s : FileSegment) (t : CurrentThread)
    (cache : FileCache) (h : FileSegment.getCallerId t ≠ .ok s.downloader_id) :
    (s.completeImpl t cache).seg.downloader_id = s.downloader_id := by
  have f1 := (finalizeWithCache_frame s cache).1
  unfold FileSegment.completeImpl
  cases hc : FileSegment.getCallerId t with
  | error e => exact f1
  | ok c =>
    have hne : ¬ (s.finalizeWithCache cache).1.downloader_id = c := by
      intro h2
      apply h
      rw [hc, ← h2, f1]
    dsimp only
    rw [if_neg hne]
    split_ifs <;> exact f1

theorem completeImpl_state_of_settled (s : FileSegment) (t : CurrentThread)
    (cache : FileCache) (h1 : s.download_state ≠ State.PARTIALLY_DOWNLOADED)
    (h2 : s.download_state ≠ State.PARTIALLY_DOWNLOADED_NO_CONTINUATION) :
    (s.completeImpl t cache).seg.download_state = s.download_state := by
  rw [(completeImpl_frame s t cache).2.2.2.2.1, finalizeWithCache_of_settled s cache h1 h2]

theorem downloadedComplete_keep (s : FileSegment) (c : Call)
    (hinv : s.downloadedComplete) (hok : keepsDownloaded s c) :
    (step s c).downloadedComplete := by
  obtain ⟨t, cache, op⟩ := c
  cases op with
  | getOrSetDownloader =>
    show (s.getOrSetDownloader t).seg.downloadedComplete
    by_cases h : s.downloader_id = ""
    · by_cases hid : t.hasId
      · rw [getOrSetDownloader_of_unset s t h hid]
        intro hst
        cases hst
      · rw [getOrSetDownloader_of_no_id s t h hid]
        exact hinv
    · rw [getOrSetDownloader_of_set s t h]
      exact hinv
  | reserve n =>
    obtain ⟨f1, f2, f3, f4, _, _⟩ := reserve_frame s t cache n
    show (s.reserve t cache n).seg.downloadedComplete
    unfold FileSegment.downloadedComplete FileSegment.range at *
    rw [f1, f2, f3, f4]
    exact hinv
  | write n =>
    show (s.write t cache n).seg.downloadedComplete
    by_cases hd : FileSegment.getCallerId t = .ok s.downloader_id
    · have hne : s.downloader_id ≠ "" := (hasId_of_getCallerId hd).2.2
      intro h2
      rw [(write_frame s t cache n).1] at h2
      exact absurd (hinv h2).2 hne
    · rw [write_seg_of_not_downloader s t cache n hd]
      exact hinv
  | wait =>
    show s.wait.seg.downloadedComplete
    rw [wait_seg]
    exact hinv
  | completeBatch =>
    show (s.completeBatch t).seg.downloadedComplete
    by_cases hid : t.hasId
    · by_cases heq : s.downloader_id = t.queryId
      · rw [completeBatch_of_downloader s t hid heq]
        have hne : s.downloader_id ≠ "" := heq ▸ hid.2
        have hst : s.download_state ≠ State.DOWNLOADED := fun h => hne (hinv h).2
        unfold FileSegment.downloadedComplete FileSegment.range
        dsimp only
        split_ifs with h1
        · intro _
          exact ⟨h1, rfl⟩
        · intro h2
          exact absurd h2 hst
      · rw [completeBatch_of_other_id s t hid heq]
        exact hinv
    · rw [completeBatch_of_no_id s t hid]
      exact hinv
  | complete st =>
    show (s.complete t cache st).seg.downloadedComplete
    by_cases hid : t.hasId
    · by_cases heq : s.downloader_id = t.queryId
      · by_cases hst : st.isCompletion
        · rw [complete_of_downloader s t cache st hid heq hst]
          obtain ⟨f1, _, f3, _, f5, _, f7⟩ :=
            completeImpl_frame { s with download_state := st } t cache
          have hclear := f7 (by rw [getCallerId_of_hasId hid, heq])
          unfold FileSegment.downloadedComplete FileSegment.range
          dsimp only
          intro h2
          rw [f5] at h2
          rcases finalizeWithCache_state { s with download_state := st } cache with h3 | ⟨_, _, h3⟩
          · rw [h3] at h2
            have hst2 : st = State.DOWNLOADED := h2
            subst hst2
            have hk : s.downloaded_size = s.range.size := by
              by_contra hne
              exact hok ⟨⟨hid, heq.symm⟩, hne⟩
            rw [f1, f3]
            exact ⟨hk, hclear⟩
          · rw [h3] at h2
            cases h2
        · rw [complete_of_bad_state s t cache st hid heq hst]
          exact hinv
      · rw [complete_of_other_id s t cache st hid heq]
        exact hinv
    · rw [complete_of_no_id s t cache st hid]
      exact hinv
  | completeNoArg =>
    show (s.completeNoArg t cache).seg.downloadedComplete
    by_cases hskip : s.download_state = State.SKIP_CACHE
    · rw [completeNoArg_of_skip s t cache hskip]
      exact hinv
    · obtain ⟨st, hst, hseg⟩ := completeNoArg_seg s t cache hskip
      rw [hseg]
      obtain ⟨f1, _, f3, _, f5, f6, f7⟩ :=
        completeImpl_frame { s with download_state := st } t cache
      unfold FileSegment.downloadedComplete FileSegment.range
      intro h2
      rw [f5] at h2
      rcases finalizeWithCache_state { s with download_state := st } cache with h3 | ⟨_, _, h3⟩
      · rw [h3] at h2
        have hd := hst.1 h2
        rw [f1, f3]
        have hsize : s.downloaded_size = s.segment_range.size := by
          rcases hd with hd | hd
          · exact hd
          · exact (hinv hd).1
        refine ⟨hsize, ?_⟩
        have hk : s.downloader_id = "" ∨ FileSegment.getCallerId t = .ok s.downloader_id := by
          by_cases he : s.downloader_id = ""
          · exact Or.inl he
          · right
            rw [getCallerId_eq_iff]
            by_contra hno
            exact hok ⟨hskip, hsize, he, hno⟩
        rcases hk with hk | hk
        · rcases f6 with f6 | f6
          · exact f6.trans hk
          · exact f6
        · exact f7 hk
      · rw [h3] at h2
        cases h2

theorem downloadedComplete_break (s : FileSegment) (c : Call)
    (hb : breaksDownloaded s c) : ¬ (step s c).downloadedComplete := by
  obtain ⟨t, cache, op⟩ := c
  cases op with
  | getOrSetDownloader => exact absurd hb id
  | reserve n => exact absurd hb id
  | write n => exact absurd hb id
  | wait => exact absurd hb id
  | completeBatch => exact absurd hb id
  | complete st =>
    cases st with
    | DOWNLOADED =>
      obtain ⟨⟨hid, heq⟩, hne⟩ := hb
      show ¬ (s.complete t cache State.DOWNLOADED).seg.downloadedComplete
      rw [complete_of_downloader s t cache State.DOWNLOADED hid heq.symm (Or.inl rfl)]
      intro hinv
      have hstate := completeImpl_state_of_settled
        { s with download_state := State.DOWNLOADED } t cache (by simp) (by simp)
      obtain ⟨f1, _, f3, _⟩ := completeImpl_frame { s with download_state := State.DOWNLOADED } t cache
      have := (hinv hstate).1
      unfold FileSegment.range at this hne
      rw [f1, f3] at this
      exact hne this
    | EMPTY => exact absurd hb id
    | DOWNLOADING => exact absurd hb id
    | PARTIALLY_DOWNLOADED => exact absurd hb id
    | PARTIALLY_DOWNLOADED_NO_CONTINUATION => exact absurd hb id
    | SKIP_CACHE => exact absurd hb id
  | completeNoArg =>
    obtain ⟨hskip, hsize, hne, hno⟩ := hb
    show ¬ (s.completeNoArg t cache).seg.downloadedComplete
    obtain ⟨st, hst, hseg⟩ := completeNoArg_seg s t cache hskip
    have hst2 : st = State.DOWNLOADED := hst.2 (Or.inl hsize)
    subst hst2
    rw [hseg]
    intro hinv
    have hstate := completeImpl_state_of_settled
      { s with download_state := State.DOWNLOADED } t cache (by simp) (by simp)
    have hdl := completeImpl_downloader_of_other
      { s with download_state := State.DOWNLOADED } t cache
      (fun hg => hno ((getCallerId_eq_iff s t).1 hg))
    have := (hinv hstate).2
    rw [hdl] at this
    exact hne this

theorem downloadedComplete_step_iff (s : FileSegment) (c : Call) (hinv : s.downloadedComplete) :
    (step s c).downloadedComplete ↔ keepsDownloaded s c :=
  ⟨fun h hb => downloadedComplete_break s c hb h, downloadedComplete_keep s c hinv⟩

theorem run_take_succ (s : FileSegment) (c : Call) (cs : List Call) (k : Nat) :
    run s ((c :: cs).take (k + 1)) = run (step s c) (cs.take k) := rfl

theorem downloadedComplete_run_iff (s : FileSegment) (hinv : s.downloadedComplete)
    (cs : List Call) :
    (∀ k : Nat, (run s (cs.take k)).downloadedComplete) ↔ allowedAlong keepsDownloaded s cs := by
  induction cs generalizing s with
  | nil =>
    constructor
    · intro _; trivial
    · intro _ k
      rw [List.take_nil]
      exact hinv
  | cons c cs ih =>
    constructor
    · intro h
      have h1 : (step s c).downloadedComplete := h 1
      exact ⟨(downloadedComplete_step_iff s c hinv).1 h1,
        (ih (step s c) h1).1 (fun k => h (k + 1))⟩
    · rintro ⟨h1, h2⟩ k
      have h3 := (downloadedComplete_step_iff s c hinv).2 h1
      cases k with
      | zero => exact hinv
      | succ k => exact (ih (step s c) h3).2 h2 k

theorem downloadedComplete_reachable (s : FileSegment) (h : ReachableBy keepsDownloaded s) :
    s.downloadedComplete := by
  induction h with
  | init s hc => exact downloadedComplete_of_constructed s hc
  | next s c _ hok ih => exact downloadedComplete_keep s c ih hok

/-- C3 (counterexample). Two reachable segments in state `DOWNLOADED` that break the
invariant. First: client `A` claims a fresh 10-byte segment and calls
`complete(DOWNLOADED)` at once; the state is `DOWNLOADED` with `downloaded_size = 0`.
Second: `A` claims, reserves and writes all 10 bytes, then client `B` calls `complete()`;
the state is promoted to `DOWNLOADED` while `downloader_id` is still `A`. -/
theorem downloaded_invariant_counterexample :
    Reachable (run emptySegment10
        [callBy "A" .getOrSetDownloader, callBy "A" (.complete State.DOWNLOADED)])
    ∧ (run emptySegment10 [callBy "A" .getOrSetDownloader,
        callBy "A" (.complete State.DOWNLOADED)]).download_state = State.DOWNLOADED
    ∧ (run emptySegment10 [callBy "A" .getOrSetDownloader,
        callBy "A" (.complete State.DOWNLOADED)]).downloaded_size = 0
    ∧ (run emptySegment10 [callBy "A" .getOrSetDownloader,
        callBy "A" (.complete State.DOWNLOADED)]).range.size = 10
    ∧ ¬ (run emptySegment10 [callBy "A" .getOrSetDownloader,
        callBy "A" (.complete State.DOWNLOADED)]).downloadedComplete
    ∧ Reachable (run emptySegment10 [callBy "A" .getOrSetDownloader, callBy "A" (.reserve 10),
        callBy "A" (.write 10), callBy "B" .completeNoArg])
    ∧ (run emptySegment10 [callBy "A" .getOrSetDownloader, callBy "A" (.reserve 10),
        callBy "A" (.write 10), callBy "B" .completeNoArg]).download_state = State.DOWNLOADED
    ∧ (run emptySegment10 [callBy "A" .getOrSetDownloader, callBy "A" (.reserve 10),
        callBy "A" (.write 10), callBy "B" .completeNoArg]).downloader_id = "A"
    ∧ ¬ (run emptySegment10 [callBy "A" .getOrSetDownloader, callBy "A" (.reserve 10),
        callBy "A" (.write 10), callBy "B" .completeNoArg]).downloadedComplete :=
  ⟨reachable_run (reachable_of_construct 0 10 1 State.EMPTY emptySegment10
      (by decide) (by decide) rfl) _,
    by decide, by decide, by decide, by decide,
    reachable_run (reachable_of_construct 0 10 1 State.EMPTY emptySegment10
      (by decide) (by decide) rfl) _,
    by decide, by decide, by decide⟩

/-- C3 (as amended). On a segment reached from a valid construction through calls none of
which is a `complete(DOWNLOADED)` by the registered downloader while
`downloaded_size != size`, or a `complete()` by a caller other than the registered
downloader while the state is not `SKIP_CACHE`, `downloaded_size == size` and a downloader
is registered: `state == DOWNLOADED` implies `downloaded_size == size` and an empty
`downloader_id`. These two calls are exactly the ones to exclude: the next call keeps the
invariant if and only if it is not one of them, and the invariant holds after every call
of a sequence if and only if none of its calls is one of them. -/
theorem downloaded_invariant_exact (s : FileSegment) (h : ReachableBy keepsDownloaded s) :
    s.downloadedComplete
    ∧ (∀ c : Call, (step s c).downloadedComplete ↔ ¬ breaksDownloaded s c)
    ∧ (∀ cs : List Call, (∀ k : Nat, (run s (cs.take k)).downloadedComplete) ↔
        allowedAlong keepsDownloaded s cs) :=
  ⟨downloadedComplete_reachable s h,
    fun c => downloadedComplete_step_iff s c (downloadedComplete_reachable s h),
    fun cs => downloadedComplete_run_iff s (downloadedComplete_reachable s h) cs⟩

/-- C3 (as amended) at a concrete input: `A` claims a 10-byte segment and reserves it, a
reader `B` releases its handle through `complete()` while the download is under way, `A`
writes the 10 bytes, calls `complete(DOWNLOADED)` and releases through `complete()`. -/
theorem downloaded_invariant_exact_witness :
    ReachableBy keepsDownloaded (run emptySegment10 [callBy "A" .getOrSetDownloader,
        callBy "A" (.reserve 10), callBy "B" .completeNoArg, callBy "A" (.write 10),
        callBy "A" (.complete State.DOWNLOADED), callBy "A" .completeNoArg])
    ∧ (run emptySegment10 [callBy "A" .getOrSetDownloader,
        callBy "A" (.reserve 10), callBy "B" .completeNoArg, callBy "A" (.write 10),
        callBy "A" (.complete State.DOWNLOADED), callBy "A" .completeNoArg]).download_state
        = State.DOWNLOADED
    ∧ (run emptySegment10 [callBy "A" .getOrSetDownloader,
        callBy "A" (.reserve 10), callBy "B" .completeNoArg, callBy "A" (.write 10),
        callBy "A" (.complete State.DOWNLOADED), callBy "A" .completeNoArg]).downloadedComplete :=
  have hreach : ReachableBy keepsDownloaded (run emptySegment10
      [callBy "A" .getOrSetDownloader, callBy "A" (.reserve 10), callBy "B" .completeNoArg,
        callBy "A" (.write 10), callBy "A" (.complete State.DOWNLOADED),
        callBy "A" .completeNoArg]) :=
    reachableBy_run (ReachableBy.init _ ⟨0, 10, 1, State.EMPTY, by decide, by decide, rfl⟩) _
      ⟨id, id, fun hb => absurd hb.2.1 (by decide), id, fun hb => hb.2 (by decide),
        fun hb => hb.2.2.1 (by decide), trivial⟩
  ⟨hreach, by decide, (downloaded_invariant_exact _ hreach).1⟩

/-! ## C5: `DOWNLOADED` and `SKIP_CACHE` -/

theorem completeNoArg_state_of_terminal (s : FileSegment) (t : CurrentThread)
    (cache : FileCache) (hterm : s.download_state.isTerminal) :
    (s.completeNoArg t cache).seg.download_state = s.download_state
    ∧ (s.downloader_id = "" → (s.completeNoArg t cache).seg.downloader_id = "") := by
  by_cases hskip : s.download_state = State.SKIP_CACHE
  · rw [completeNoArg_of_skip s t cache hskip]
    exact ⟨rfl, fun h => h⟩
  · have hd : s.download_state = State.DOWNLOADED := by
      rcases hterm with h | h
      · exact h
      · exact absurd h hskip
    obtain ⟨st, hst, hseg⟩ := completeNoArg_seg s t cache hskip
    have hst2 : st = State.DOWNLOADED := hst.2 (Or.inr hd)
    subst hst2
    rw [hseg]
    obtain ⟨_, _, _, _, f5, f6, _⟩ :=
      completeImpl_frame { s with download_state := State.DOWNLOADED } t cache
    rw [f5, finalizeWithCache_of_settled _ cache (by simp) (by simp)]
    refine ⟨hd.symm, fun h => ?_⟩
    rcases f6 with f6 | f6
    · exact f6.trans h
    · exact f6

theorem terminal_step (s : FileSegment) (c : Call) (hterm : s.download_state.isTerminal)
    (hclaim : c.op.isClaim = false)
    (hdl : s.downloader_id = "" ∨ c.op.isDownloaderCompletion = false) :
    (step s c).download_state = s.download_state
    ∧ (s.downloader_id = "" → (step s c).downloader_id = "") := by
  obtain ⟨t, cache, op⟩ := c
  cases op with
  | getOrSetDownloader => cases hclaim
  | reserve n =>
    obtain ⟨f1, f2, _⟩ := reserve_frame s t cache n
    exact ⟨f1, fun h => f2.trans h⟩
  | write n =>
    obtain ⟨f1, f2, _⟩ := write_frame s t cache n
    exact ⟨f1, fun h => f2.trans h⟩
  | wait =>
    show s.wait.seg.download_state = _ ∧ (_ → s.wait.seg.downloader_id = _)
    rw [wait_seg]
    exact ⟨rfl, fun h => h⟩
  | completeNoArg => exact completeNoArg_state_of_terminal s t cache hterm
  | completeBatch =>
    have hempty : s.downloader_id = "" := by
      rcases hdl with h | h
      · exact h
      · cases h
    show (s.completeBatch t).seg.download_state = _ ∧ (_ → (s.completeBatch t).seg.downloader_id = _)
    by_cases hid : t.hasId
    · rw [completeBatch_of_other_id s t hid (by rw [hempty]; exact fun h => hid.2 h.symm)]
      exact ⟨rfl, fun h => h⟩
    · rw [completeBatch_of_no_id s t hid]
      exact ⟨rfl, fun h => h⟩
  | complete st =>
    have hempty : s.downloader_id = "" := by
      rcases hdl with h | h
      · exact h
      · cases h
    show (s.complete t cache st).seg.download_state = _
      ∧ (_ → (s.complete t cache st).seg.downloader_id = _)
    by_cases hid : t.hasId
    · rw [complete_of_other_id s t cache st hid (by rw [hempty]; exact fun h => hid.2 h.symm)]
      exact ⟨rfl, fun h => h⟩
    · rw [complete_of_no_id s t cache st hid]
      exact ⟨rfl, fun h => h⟩

theorem terminal_run (s : FileSegment) (cs : List Call) (hterm : s.download_state.isTerminal)
    (hempty : s.downloader_id = "") (hcs : ∀ c ∈ cs, c.op.isClaim = false) :
    (run s cs).download_state = s.download_state := by
  induction cs generalizing s with
  | nil => rfl
  | cons c cs ih =>
    obtain ⟨h1, h2⟩ := terminal_step s c hterm (hcs c (List.mem_cons_self c cs)) (Or.inl hempty)
    have h3 := ih (step s c) (h1 ▸ hterm) (h2 hempty)
      (fun d hd => hcs d (List.mem_cons_of_mem c hd))
    exact h3.trans h1

/-- C5 (counterexample). A segment constructed `DOWNLOADED` is moved to `DOWNLOADING` by the
first `getOrSetDownloader` of a client; so is a segment that reached `SKIP_CACHE` (client
`A` claimed it and gave up as last holder without a byte). -/
theorem terminal_state_counterexample :
    FileSegment.construct 0 10 1 State.DOWNLOADED = .ok downloadedSegment10
    ∧ downloadedSegment10.download_state = State.DOWNLOADED
    ∧ (downloadedSegment10.getOrSetDownloader (client "A")).result = .ok "A"
    ∧ (step downloadedSegment10 (callBy "A" .getOrSetDownloader)).download_state
        = State.DOWNLOADING
    ∧ (run emptySegment10 [callBy "A" .getOrSetDownloader,
        ⟨client "A", grantingCache true, .complete State.PARTIALLY_DOWNLOADED⟩]).download_state
        = State.SKIP_CACHE
    ∧ (run emptySegment10 [callBy "A" .getOrSetDownloader,
        ⟨client "A", grantingCache true, .complete State.PARTIALLY_DOWNLOADED⟩,
        callBy "B" .getOrSetDownloader]).download_state = State.DOWNLOADING :=
  ⟨rfl, rfl, rfl, by decide, by decide, by decide⟩

/-- C5 (as amended). Once the state of a segment is `DOWNLOADED` or `SKIP_CACHE`:
`reserve`, `write`, `wait` and `complete()` never change the state, whoever calls; while
`downloader_id` is empty, no sequence of public operations without `getOrSetDownloader`
changes the state (`completeBatch` and `complete(state)` fail); and `getOrSetDownloader`
changes nothing while a downloader is registered. -/
theorem terminal_state_stability (s : FileSegment) (hterm : s.download_state.isTerminal) :
    (∀ c : Call, c.op.isClaim = false → c.op.isDownloaderCompletion = false →
        (step s c).download_state = s.download_state)
    ∧ (s.downloader_id = "" → ∀ cs : List Call, (∀ c ∈ cs, c.op.isClaim = false) →
        (run s cs).download_state = s.download_state)
    ∧ (s.downloader_id ≠ "" → ∀ t : CurrentThread, (s.getOrSetDownloader t).seg = s) := by
  refine ⟨fun c h1 h2 => (terminal_step s c hterm h1 (Or.inr h2)).1,
    fun h cs hcs => terminal_run s cs hterm h hcs, fun h t => ?_⟩
  rw [getOrSetDownloader_of_set s t h]

/-- C5 (as amended) at a concrete input: every public operation but `getOrSetDownloader`,
by client `A`, on a segment constructed `DOWNLOADED`. -/
theorem terminal_state_stability_witness :
    downloadedSegment10.download_state.isTerminal
    ∧ (run downloadedSegment10 [callBy "A" (.reserve 1), callBy "A" (.write 1),
        callBy "A" .completeBatch, callBy "A" (.complete State.PARTIALLY_DOWNLOADED),
        ⟨client "A", grantingCache true, .completeNoArg⟩, callBy "A" .wait]).download_state
        = State.DOWNLOADED :=
  ⟨by decide,
    (terminal_state_stability downloadedSegment10 (by decide)).2.1 rfl _ (by decide)⟩

/-! ## A granted reservation, away from wrap-around -/

/-- Away from wrap-around a granted reservation does enable the write: on a segment with
`downloaded_size ≤ reserved_size`, when `reserved_size + n` stays inside `size_t`, a
`reserve(n)` that returns `true` is followed by a successful `write(buf, n)` of the same
caller. -/
theorem write_after_reserve_without_overflow (s : FileSegment) (t : CurrentThread)
    (cache cache2 : FileCache) (n : Nat) (hle : s.downloaded_size ≤ s.reserved_size)
    (h2 : s.reserved_size + n < sizeModulus)
    (hres : (s.reserve t cache n).result = .ok true) :
    ((s.reserve t cache n).seg.write t cache2 n).result = .ok () := by
  have h1 : s.downloaded_size + n < sizeModulus := by omega
  obtain ⟨hiff, _, hok⟩ := reserve_contract_without_overflow s t cache n h1 h2
  have hnf : (s.reserve t cache n).failed = false := by
    unfold Outcome.failed; rw [hres]
  have hcond : ¬ (n = 0 ∨ s.downloaded_size + n > s.range.size
      ∨ FileSegment.getCallerId t ≠ .ok s.downloader_id) := by
    intro h; have := hiff.2 h; rw [hnf] at this; cases this
  obtain ⟨hr, hseg, _⟩ := hok hnf
  have hans : cache.tryReserve s.key s.offset
      (sizeSub n (sizeSub s.reserved_size s.downloaded_size)) = true := by
    rw [hres] at hr; exact (Except.ok.inj hr).symm
  have hs := hseg hans
  have hw := write_behaviour (s.reserve t cache n).seg t cache2 n
    (by rw [hs]; show s.downloaded_size ≤ s.reserved_size + n; omega)
    (by rw [hs]; exact h2)
  have hnot : ¬ (n = 0 ∨ n > (s.reserve t cache n).seg.reserved_size
      - (s.reserve t cache n).seg.downloaded_size
      ∨ FileSegment.getCallerId t ≠ .ok (s.reserve t cache n).seg.downloader_id) := by
    rw [hs]
    show ¬ (n = 0 ∨ n > s.reserved_size + n - s.downloaded_size
      ∨ FileSegment.getCallerId t ≠ .ok s.downloader_id)
    rintro (h | h | h)
    · exact hcond (Or.inl h)
    · omega
    · exact hcond (Or.inr (Or.inr h))
  have hwf : ((s.reserve t cache n).seg.write t cache2 n).failed = false := by
    cases hf : ((s.reserve t cache n).seg.write t cache2 n).failed with
    | false => rfl
    | true => exact absurd (hw.1.1 hf) hnot
  exact (hw.2.2 hwf).1

/-! ## C11: `completeBatch` by the downloader -/

/-- C11. When the downloader calls `completeBatch`, the call returns, `downloader_id` is
empty afterwards, the state is `DOWNLOADED` if `downloaded_size == size` and otherwise
the state before the call, `downloaded_size`, `reserved_size`, the range and the key are
unchanged, the writer is kept as it was, and the only call made is `notify_all`: the
finalizer does not run, so none of `isLastFileSegmentHolder`, `remove` and
`reduceSizeToDownloaded` is invoked. -/
theorem completeBatch_contract (s : FileSegment) (t : CurrentThread) (hid : t.hasId)
    (hd : s.downloader_id = t.queryId) :
    (s.completeBatch t).result = .ok ()
    ∧ (s.completeBatch t).seg.downloader_id = ""
    ∧ (s.downloaded_size = s.range.size →
        (s.completeBatch t).seg.download_state = State.DOWNLOADED)
    ∧ (s.downloaded_size ≠ s.range.size →
        (s.completeBatch t).seg.download_state = s.download_state)
    ∧ (s.completeBatch t).seg.downloaded_size = s.downloaded_size
    ∧ (s.completeBatch t).seg.reserved_size = s.reserved_size
    ∧ (s.completeBatch t).seg.segment_range = s.segment_range
    ∧ (s.completeBatch t).seg.file_key = s.file_key
    ∧ (s.completeBatch t).seg.download_buffer = s.download_buffer
    ∧ (s.completeBatch t).effects = [Effect.notifyAll]
    ∧ (∀ e ∈ (s.completeBatch t).effects, e.isCacheCall = false) := by
  rw [completeBatch_of_downloader s t hid hd]
  by_cases h : s.downloaded_size = s.range.size
  · simp [h, Effect.isCacheCall]
  · simp [h, Effect.isCacheCall]

/-- C11 at a concrete input: `A` claims a 10-byte segment, reserves and writes 4 bytes and
calls `completeBatch`; the writer survives and the state stays `DOWNLOADING`. -/
theorem completeBatch_contract_witness :
    (client "A").hasId
    ∧ (run emptySegment10 [callBy "A" .getOrSetDownloader, callBy "A" (.reserve 4),
        callBy "A" (.write 4)]).downloader_id = (client "A").queryId
    ∧ ((run emptySegment10 [callBy "A" .getOrSetDownloader, callBy "A" (.reserve 4),
        callBy "A" (.write 4)]).completeBatch (client "A")).seg.download_buffer
        = some ⟨"segment", 4⟩ :=
  ⟨by decide, by decide,
    (completeBatch_contract (run emptySegment10 [callBy "A" .getOrSetDownloader,
      callBy "A" (.reserve 4), callBy "A" (.write 4)]) (client "A")
      (by decide) (by decide)).2.2.2.2.2.2.2.2.1⟩

/-! ## C12: `complete()` -/

theorem completeNoArg_eq (s : FileSegment) (t : CurrentThread) (cache : FileCache)
    (h : s.download_state ≠ State.SKIP_CACHE) :
    s.completeNoArg t cache
      = (FileSegment.completeImpl { s with download_state := stateBeforeFinalizer s }
          t cache).thenNotifyAll := by
  unfold FileSegment.completeNoArg
  rw [if_neg h]
  dsimp only
  congr 2
  obtain ⟨r, st, k, d, rs, id, b⟩ := s
  unfold stateBeforeFinalizer
  simp only [FileSegment.range]
  by_cases h1 : d = r.size <;> by_cases h2 : st = State.DOWNLOADED <;>
    by_cases h3 : st = State.DOWNLOADING <;> by_cases h4 : st = State.EMPTY <;> simp_all

theorem completeImpl_state (s : FileSegment) (t : CurrentThread) (cache : FileCache) :
    (s.completeImpl t cache).seg.download_state
      = if s.download_state.isPartial ∧ ¬ canContinue s cache ∧ s.downloaded_size = 0
        then State.SKIP_CACHE else s.download_state := by
  rw [(completeImpl_frame s t cache).2.2.2.2.1]
  unfold FileSegment.finalizeWithCache State.isPartial canContinue
  dsimp only
  rcases Bool.eq_false_or_eq_true (cache.isLastFileSegmentHolder s.key s.offset) with hl | hl <;>
    by_cases h1 : s.download_state = State.PARTIALLY_DOWNLOADED <;>
    by_cases h2 : s.download_state = State.PARTIALLY_DOWNLOADED_NO_CONTINUATION <;>
    by_cases h3 : s.downloaded_size = 0 <;>
    simp_all

/-- C12. `complete()` on a `SKIP_CACHE` segment returns at once: nothing changes, nothing is
called. On any other segment it runs the finalizer on the segment whose state has become
`DOWNLOADED` when `downloaded_size == size`, else `PARTIALLY_DOWNLOADED` when the state was
`DOWNLOADING` or `EMPTY`, else the state as it was. Hence a `DOWNLOADING` or `EMPTY` segment
with `downloaded_size < size` ends in `PARTIALLY_DOWNLOADED` when other holders exist or
`downloaded_size > 0`, and in `SKIP_CACHE` when the caller is the last holder and
`downloaded_size == 0`. -/
theorem completeNoArg_contract (s : FileSegment) (t : CurrentThread) (cache : FileCache) :
    (s.download_state = State.SKIP_CACHE → s.completeNoArg t cache = ⟨.ok (), s, []⟩)
    ∧ (s.download_state ≠ State.SKIP_CACHE →
        s.completeNoArg t cache
          = (FileSegment.completeImpl { s with download_state := stateBeforeFinalizer s }
              t cache).thenNotifyAll)
    ∧ (s.download_state = State.DOWNLOADING ∨ s.download_state = State.EMPTY →
        s.downloaded_size < s.range.size →
        (cache.isLastFileSegmentHolder s.key s.offset = false ∨ 0 < s.downloaded_size →
          (s.completeNoArg t cache).seg.download_state = State.PARTIALLY_DOWNLOADED)
        ∧ (cache.isLastFileSegmentHolder s.key s.offset = true ∧ s.downloaded_size = 0 →
          (s.completeNoArg t cache).seg.download_state = State.SKIP_CACHE)) := by
  refine ⟨fun h => completeNoArg_of_skip s t cache h, fun h => completeNoArg_eq s t cache h,
    fun hst hlt => ?_⟩
  have hskip : s.download_state ≠ State.SKIP_CACHE := by
    rcases hst with h | h <;> simp [h]
  have hpre : stateBeforeFinalizer s = State.PARTIALLY_DOWNLOADED := by
    unfold stateBeforeFinalizer
    rw [if_neg (by omega), if_pos hst]
  rw [completeNoArg_eq s t cache hskip, thenNotifyAll_seg, completeImpl_state, hpre]
  unfold State.isPartial canContinue FileSegment.key FileSegment.offset FileSegment.range
  dsimp only
  constructor
  · rintro (h | h)
    · simp [h]
    · have : s.downloaded_size ≠ 0 := by omega
      simp [this]
  · rintro ⟨h1, h2⟩
    simp [h1, h2]

/-! ## C13: what the finalizer asks of the cache manager -/

theorem completeImpl_cache_mutations (s : FileSegment) (t : CurrentThread)
    (cache : FileCache) :
    (s.completeImpl t cache).effects.filter Effect.isCacheMutation
      = if s.download_state.isPartial ∧ ¬ canContinue s cache ∧ s.downloaded_size = 0 then
          [Effect.remove s.key s.offset]
        else if s.download_state.isPartial ∧ ¬ canContinue s cache ∧ 0 < s.downloaded_size
            ∧ cache.isLastFileSegmentHolder s.key s.offset = true then
          [Effect.reduceSizeToDownloaded s.key s.offset]
        else [] := by
  have hcalls : (s.completeImpl t cache).effects.filter Effect.isCacheMutation
      = (s.finalizeWithCache cache).2.2.filter Effect.isCacheMutation := by
    unfold FileSegment.completeImpl
    cases FileSegment.getCallerId t with
    | error e => rfl
    | ok c =>
      dsimp only
      split_ifs <;> simp [Effect.isCacheMutation]
  rw [hcalls]
  unfold FileSegment.finalizeWithCache State.isPartial canContinue
  dsimp only
  rcases Bool.eq_false_or_eq_true (cache.isLastFileSegmentHolder s.key s.offset) with hl | hl <;>
    by_cases h1 : s.download_state = State.PARTIALLY_DOWNLOADED <;>
    by_cases h2 : s.download_state = State.PARTIALLY_DOWNLOADED_NO_CONTINUATION <;>
    by_cases h3 : s.downloaded_size = 0 <;>
    simp_all [Effect.isCacheMutation]
  all_goals rw [if_pos (Nat.pos_of_ne_zero h3)]

theorem thenNotifyAll_cache_mutations (o : Outcome Unit) :
    o.thenNotifyAll.effects.filter Effect.isCacheMutation
      = o.effects.filter Effect.isCacheMutation := by
  unfold Outcome.thenNotifyAll
  cases o.result <;> simp [Effect.isCacheMutation]

theorem mem_filter_of_eq_ite {p q : Prop} [Decidable p] [Decidable q] {l : List Effect}
    {a b : Effect} (hab : a ≠ b)
    (h : l = if p then [a] else if q then [b] else []) :
    (a ∈ l ↔ p) ∧ (b ∈ l ↔ ¬ p ∧ q) := by
  subst h
  by_cases hp : p <;> by_cases hq : q <;> simp [hp, hq, hab, hab.symm]

/-- C13. With `is_last` the answer of `isLastFileSegmentHolder` and
`can_continue = ¬is_last ∧ state == PARTIALLY_DOWNLOADED`, the finalizer calls `remove`
exactly when the state is one of the two partial states, `can_continue` is false and
`downloaded_size == 0`, and the state is then `SKIP_CACHE`; it calls
`reduceSizeToDownloaded` exactly when the state is one of the two, `can_continue` is false,
`downloaded_size > 0` and `is_last` is true, and the state is then unchanged; the
cache-manager mutations of the call are that single `remove`, or that single
`reduceSizeToDownloaded`, or none. In particular a `DOWNLOADING` segment with
`0 < downloaded_size < size` released through `complete()` by its last holder ends in
`PARTIALLY_DOWNLOADED` with exactly one `reduceSizeToDownloaded` and no `remove`. -/
theorem finalizer_cache_actions (s : FileSegment) (t : CurrentThread) (cache : FileCache) :
    ((s.completeImpl t cache).effects.filter Effect.isCacheMutation
      = if s.download_state.isPartial ∧ ¬ canContinue s cache ∧ s.downloaded_size = 0 then
          [Effect.remove s.key s.offset]
        else if s.download_state.isPartial ∧ ¬ canContinue s cache ∧ 0 < s.downloaded_size
            ∧ cache.isLastFileSegmentHolder s.key s.offset = true then
          [Effect.reduceSizeToDownloaded s.key s.offset]
        else [])
    ∧ (Effect.remove s.key s.offset ∈ (s.completeImpl t cache).effects ↔
        s.download_state.isPartial ∧ ¬ canContinue s cache ∧ s.downloaded_size = 0)
    ∧ (Effect.reduceSizeToDownloaded s.key s.offset ∈ (s.completeImpl t cache).effects ↔
        s.download_state.isPartial ∧ ¬ canContinue s cache ∧ 0 < s.downloaded_size
          ∧ cache.isLastFileSegmentHolder s.key s.offset = true)
    ∧ ((s.completeImpl t cache).seg.download_state
        = if s.download_state.isPartial ∧ ¬ canContinue s cache ∧ s.downloaded_size = 0
          then State.SKIP_CACHE else s.download_state)
    ∧ (s.download_state = State.DOWNLOADING → 0 < s.downloaded_size →
        s.downloaded_size < s.range.size →
        cache.isLastFileSegmentHolder s.key s.offset = true →
        (s.completeNoArg t cache).seg.download_state = State.PARTIALLY_DOWNLOADED
        ∧ (s.completeNoArg t cache).effects.filter Effect.isCacheMutation
            = [Effect.reduceSizeToDownloaded s.key s.offset]) := by
  have hf := completeImpl_cache_mutations s t cache
  have hm := mem_filter_of_eq_ite (by simp) hf
  refine ⟨hf, ?_, ?_, completeImpl_state s t cache, ?_⟩
  · rw [← hm.1, List.mem_filter]
    simp [Effect.isCacheMutation]
  · have hm2 := hm.2
    rw [List.mem_filter] at hm2
    constructor
    · intro h
      exact (hm2.1 ⟨h, rfl⟩).2
    · intro h
      refine (hm2.2 ⟨?_, h⟩).1
      rintro ⟨_, _, h0⟩
      omega
  · intro hst hpos hlt hlast
    have hskip : s.download_state ≠ State.SKIP_CACHE := by simp [hst]
    have hpre : stateBeforeFinalizer s = State.PARTIALLY_DOWNLOADED := by
      unfold stateBeforeFinalizer
      rw [if_neg (by omega), if_pos (Or.inl hst)]
    have hne : s.downloaded_size ≠ 0 := by omega
    rw [completeNoArg_eq s t cache hskip, thenNotifyAll_seg, thenNotifyAll_cache_mutations,
      completeImpl_state, completeImpl_cache_mutations, hpre]
    unfold State.isPartial canContinue FileSegment.key FileSegment.offset FileSegment.range
    unfold FileSegment.key FileSegment.offset FileSegment.range at hlast
    dsimp only
    simp [hne, hlast, hpos]

/-! ## C16: `wait` -/

/-- C16. `wait()` on an `EMPTY` segment throws `FILE_CACHE_ERROR`; on a segment in any state
other than `EMPTY` and `DOWNLOADING` it returns that state without waiting; in every case
the segment after the call is the segment before it. -/
theorem wait_contract (s : FileSegment) :
    (s.download_state = State.EMPTY →
        s.wait.result = .error ErrorCode.FILE_CACHE_ERROR ∧ s.wait.effects = [])
    ∧ (s.download_state ≠ State.EMPTY → s.download_state ≠ State.DOWNLOADING →
        s.wait.result = .ok s.download_state ∧ s.wait.effects = [])
    ∧ s.wait.seg = s := by
  refine ⟨fun h => ?_, fun h1 h2 => ?_, wait_seg s⟩
  · simp [FileSegment.wait, h]
  · simp [FileSegment.wait, h1, h2]

/-! ## C17: `downloadOffset` -/

/-- C17 (counterexample). A fresh segment at offset 0 is reachable and has
`downloaded_size == 0`; `downloadOffset()` returns `2^64 - 1`, not the integer
`0 + 0 - 1`. -/
theorem downloadOffset_counterexample :
    Reachable emptySegment10
    ∧ emptySegment10.offset = 0 ∧ emptySegment10.downloaded_size = 0
    ∧ emptySegment10.downloadOffset = 18446744073709551615
    ∧ (emptySegment10.downloadOffset : Int)
        ≠ (emptySegment10.offset : Int) + (emptySegment10.downloaded_size : Int) - 1 :=
  ⟨reachable_of_construct 0 10 1 State.EMPTY emptySegment10 (by decide) (by decide) rfl,
    by decide, by decide, by decide, by decide⟩

/-- C17 (as amended). For every segment with `1 ≤ offset + downloaded_size ≤ 2^64` (every
segment that is not at offset 0 with nothing downloaded, as long as the position fits a
`size_t`), `downloadOffset()` equals the integer `offset + downloaded_size - 1`: no
wrap-around takes place. -/
theorem downloadOffset_without_wrap (s : FileSegment) (h1 : 1 ≤ s.offset + s.downloaded_size)
    (h2 : s.offset + s.downloaded_size ≤ sizeModulus) :
    (s.downloadOffset : Int) = (s.offset : Int) + (s.downloaded_size : Int) - 1 := by
  unfold FileSegment.downloadOffset sizeSub sizeAdd
  unfold FileSegment.offset at h1 h2
  unfold sizeModulus at h2
  unfold FileSegment.offset
  omega

/-- C17 (as amended) at a concrete input: 4 bytes downloaded of a segment at offset 0. -/
theorem downloadOffset_without_wrap_witness :
    1 ≤ (run emptySegment10 [callBy "A" .getOrSetDownloader, callBy "A" (.reserve 4),
        callBy "A" (.write 4)]).offset
      + (run emptySegment10 [callBy "A" .getOrSetDownloader, callBy "A" (.reserve 4),
        callBy "A" (.write 4)]).downloaded_size
    ∧ ((run emptySegment10 [callBy "A" .getOrSetDownloader, callBy "A" (.reserve 4),
        callBy "A" (.write 4)]).downloadOffset : Int) = 0 + 4 - 1 :=
  ⟨by decide, downloadOffset_without_wrap _ (by decide) (by decide)⟩

/-! ## C18: a caller without id -/

/-- C18 (counterexample). Client `A` is the registered downloader of a segment; a thread
without query id calls `getOrSetDownloader` and gets `A` back instead of an exception. -/
theorem getOrSetDownloader_without_id_counterexample :
    ¬ (CurrentThread.mk false "").hasId
    ∧ ¬ (CurrentThread.mk true "").hasId
    ∧ (run emptySegment10 [callBy "A" .getOrSetDownloader]).downloader_id = "A"
    ∧ ((run emptySegment10 [callBy "A" .getOrSetDownloader]).getOrSetDownloader
        (CurrentThread.mk false "")).result = .ok "A"
    ∧ ((run emptySegment10 [callBy "A" .getOrSetDownloader]).getOrSetDownloader
        (CurrentThread.mk true "")).result = .ok "A" :=
  ⟨by decide, by decide, by decide, rfl, rfl⟩

theorem reserve_of_no_id (s : FileSegment) (t : CurrentThread) (cache : FileCache) (n : Nat)
    (hid : ¬ t.hasId) :
    s.reserve t cache n = ⟨.error ErrorCode.FILE_CACHE_ERROR, s, []⟩ := by
  unfold FileSegment.reserve
  rw [getCallerId_of_not_hasId hid]
  split_ifs <;> rfl

/-- C18 (as amended). For a caller without a client id and every segment:
`getOrSetDownloader` throws `FILE_CACHE_ERROR` when no downloader is registered and
returns the registered `downloader_id` when there is one; `reserve` throws
`FILE_CACHE_ERROR` in every state; neither call changes the segment or calls anything. -/
theorem calls_without_id (s : FileSegment) (t : CurrentThread) (cache : FileCache) (n : Nat)
    (hid : ¬ t.hasId) :
    (s.downloader_id = "" →
        s.getOrSetDownloader t = ⟨.error ErrorCode.FILE_CACHE_ERROR, s, []⟩)
    ∧ (s.downloader_id ≠ "" → s.getOrSetDownloader t = ⟨.ok s.downloader_id, s, []⟩)
    ∧ s.reserve t cache n = ⟨.error ErrorCode.FILE_CACHE_ERROR, s, []⟩ :=
  ⟨fun h => getOrSetDownloader_of_no_id s t h hid, fun h => getOrSetDownloader_of_set s t h,
    reserve_of_no_id s t cache n hid⟩

/-- C18 (as amended) at a concrete input: an uninitialised thread on a fresh segment. -/
theorem calls_without_id_witness :
    ¬ (CurrentThread.mk false "q").hasId
    ∧ emptySegment10.getOrSetDownloader (CurrentThread.mk false "q")
        = ⟨.error ErrorCode.FILE_CACHE_ERROR, emptySegment10, []⟩ :=
  ⟨by decide,
    (calls_without_id emptySegment10 (CurrentThread.mk false "q") (grantingCache false) 1
      (by decide)).1 rfl⟩

/-! ## Successful calls of the downloader -/

theorem construct_empty (offset_ size_ : Nat) (key_ : Key) :
    FileSegment.construct offset_ size_ key_ State.EMPTY
      = .ok ⟨⟨offset_, sizeSub (sizeAdd offset_ size_) 1⟩, State.EMPTY, key_, 0, 0, "", none⟩ :=
  rfl

theorem writer_of_constructed (s : FileSegment) (h : Constructed s) :
    s.downloader_id = "" ∧ s.download_buffer = none := by
  obtain ⟨o, n, k, st, _, _, hc⟩ := h
  unfold FileSegment.construct at hc
  dsimp only at hc
  split_ifs at hc with h1 h2
  · cases hc; exact ⟨rfl, rfl⟩
  · cases hc; exact ⟨rfl, rfl⟩

theorem completeBatch_buffer (s : FileSegment) (t : CurrentThread) :
    (s.completeBatch t).seg.download_buffer = s.download_buffer := by
  unfold FileSegment.completeBatch
  cases FileSegment.getCallerId t with
  | error e => rfl
  | ok c =>
    dsimp only
    split_ifs <;> rfl

theorem completeImpl_buffer (s : FileSegment) (t : CurrentThread) (cache : FileCache)
    (hid : t.hasId) :
    (s.completeImpl t cache).seg.download_buffer
      = if canContinue s cache then s.download_buffer else none := by
  have hfb := (finalizeWithCache_frame s cache).2.2.2.2.1
  have hcan : (s.finalizeWithCache cache).2.1 = decide (canContinue s cache) := by
    unfold FileSegment.finalizeWithCache canContinue
    dsimp only
    rcases Bool.eq_false_or_eq_true (cache.isLastFileSegmentHolder s.key s.offset) with hl | hl <;>
      by_cases h1 : s.download_state = State.PARTIALLY_DOWNLOADED <;>
      by_cases h2 : s.download_state = State.PARTIALLY_DOWNLOADED_NO_CONTINUATION <;>
      by_cases h3 : s.downloaded_size = 0 <;>
      simp_all
  unfold FileSegment.completeImpl
  rw [getCallerId_of_hasId hid]
  dsimp only
  rw [hcan]
  by_cases hc : canContinue s cache
  · simp [hc, hfb]
    split_ifs <;> simp [hfb]
  · simp only [hc, decide_False, if_false, true_and]
    split_ifs with h1 h2 h3
    · rfl
    · simp only [hfb] at h2 ⊢
      cases hb : s.download_buffer with
      | none => rfl
      | some b => rw [hb] at h2; simp at h2
    · rfl
    · cases hb : (s.finalizeWithCache cache).1.download_buffer with
      | none => rfl
      | some b => rw [hb] at h3; simp at h3

theorem write_returns (s : FileSegment) (t : CurrentThread) (cache : FileCache) (n : Nat)
    (hn : n ≠ 0) (hfit : n ≤ s.availableSize) (hid : t.hasId)
    (hd : t.queryId = s.downloader_id) :
    (s.write t cache n).seg.download_buffer.isSome = true
    ∧ (s.write t cache n).seg.download_state = s.download_state
    ∧ (s.write t cache n).seg.downloader_id = s.downloader_id
    ∧ s.downloader_id ≠ "" := by
  have hg : FileSegment.getCallerId t = .ok s.downloader_id :=
    (getCallerId_eq_iff s t).2 ⟨hid, hd⟩
  have hdl : s.isDownloader t = .ok true := (isDownloader_eq_true_iff s t).2 hg
  refine ⟨?_, (write_frame s t cache n).1, (write_frame s t cache n).2.1,
    (hasId_of_getCallerId hg).2.2⟩
  unfold FileSegment.write
  rw [if_neg hn, if_neg (by omega), hdl]
  cases s.download_buffer <;> rfl

theorem write_seg_of_throw (s : FileSegment) (t : CurrentThread) (cache : FileCache) (n : Nat)
    (h : ¬ (n ≠ 0 ∧ n ≤ s.availableSize ∧ t.hasId ∧ t.queryId = s.downloader_id)) :
    (s.write t cache n).seg = s := by
  by_cases hg : FileSegment.getCallerId t = .ok s.downloader_id
  · have hdl := (getCallerId_eq_iff s t).1 hg
    unfold FileSegment.write
    by_cases hn : n = 0
    · rw [if_pos hn]
    · rw [if_neg hn]
      by_cases hfit : s.availableSize < n
      · rw [if_pos hfit]
      · exact absurd ⟨hn, by omega, hdl.1, hdl.2⟩ h
  · exact write_seg_of_not_downloader s t cache n hg

theorem completeImpl_buffer_of_no_id (s : FileSegment) (t : CurrentThread) (cache : FileCache)
    (hid : ¬ t.hasId) :
    (s.completeImpl t cache).seg.download_buffer = s.download_buffer := by
  unfold FileSegment.completeImpl
  rw [getCallerId_of_not_hasId hid]
  exact (finalizeWithCache_frame s cache).2.2.2.2.1

theorem completeImpl_buffer_of_none (s : FileSegment) (t : CurrentThread) (cache : FileCache)
    (h : s.download_buffer = none) :
    (s.completeImpl t cache).seg.download_buffer = none := by
  by_cases hid : t.hasId
  · rw [completeImpl_buffer s t cache hid, h]
    split_ifs <;> rfl
  · rw [completeImpl_buffer_of_no_id s t cache hid, h]

theorem completeImpl_state_ne_downloading (s : FileSegment) (t : CurrentThread)
    (cache : FileCache) (h : s.download_state ≠ State.DOWNLOADING) :
    (s.completeImpl t cache).seg.download_state ≠ State.DOWNLOADING := by
  rw [completeImpl_state]
  split_ifs
  · simp
  · exact h

theorem stateBeforeFinalizer_ne_downloading (s : FileSegment) :
    stateBeforeFinalizer s ≠ State.DOWNLOADING := by
  unfold stateBeforeFinalizer
  split_ifs with h1 h2
  · simp
  · simp
  · intro h3
    exact h2 (Or.inl h3)

theorem isSome_of_ne_none {β : Type} (o : Option β) (h : ¬ o.isSome = true) : o = none := by
  cases o with
  | none => rfl
  | some b => exact absurd rfl h

theorem writer_step_iff (s : FileSegment) (c : Call) (hinv : s.writerWhileDownloading) :
    (step s c).writerWhileDownloading ↔ keepsWriter s c := by
  obtain ⟨t, cache, op⟩ := c
  cases op with
  | getOrSetDownloader =>
    refine ⟨fun _ hb => hb, fun _ => ?_⟩
    show (s.getOrSetDownloader t).seg.writerWhileDownloading
    by_cases h : s.downloader_id = ""
    · by_cases hid : t.hasId
      · rw [getOrSetDownloader_of_unset s t h hid]
        intro _
        exact ⟨rfl, hid.2⟩
      · rw [getOrSetDownloader_of_no_id s t h hid]
        exact hinv
    · rw [getOrSetDownloader_of_set s t h]
      exact hinv
  | reserve n =>
    refine ⟨fun _ hb => hb, fun _ => ?_⟩
    obtain ⟨f1, f2, _, _, f5, _⟩ := reserve_frame s t cache n
    show (s.reserve t cache n).seg.writerWhileDownloading
    unfold FileSegment.writerWhileDownloading at *
    rw [f1, f2, f5]
    exact hinv
  | wait =>
    refine ⟨fun _ hb => hb, fun _ => ?_⟩
    show s.wait.seg.writerWhileDownloading
    rw [wait_seg]
    exact hinv
  | write n =>
    show (s.write t cache n).seg.writerWhileDownloading ↔ _
    by_cases hw : n ≠ 0 ∧ n ≤ s.availableSize ∧ t.hasId ∧ t.queryId = s.downloader_id
    · obtain ⟨w1, w2, w3, w4⟩ := write_returns s t cache n hw.1 hw.2.1 hw.2.2.1 hw.2.2.2
      constructor
      · intro h hb
        have := (h w1).1
        rw [w2] at this
        exact hb.2 this
      · intro hk _
        rw [w2, w3]
        refine ⟨?_, w4⟩
        by_contra hne
        exact hk ⟨hw, hne⟩
    · rw [write_seg_of_throw s t cache n hw]
      exact ⟨fun _ hb => hw hb.1, fun _ => hinv⟩
  | completeBatch =>
    show (s.completeBatch t).seg.writerWhileDownloading ↔ _
    by_cases hid : t.hasId
    · by_cases heq : s.downloader_id = t.queryId
      · have hb := completeBatch_buffer s t
        have hdl : (s.completeBatch t).seg.downloader_id = "" := by
          rw [completeBatch_of_downloader s t hid heq]
        constructor
        · intro h hbr
          have hs2 : (s.completeBatch t).seg.download_buffer.isSome = true := by
            rw [hb]
            exact hbr.2
          exact (h hs2).2 hdl
        · intro hk hsome
          rw [hb] at hsome
          exact absurd ⟨⟨hid, heq.symm⟩, hsome⟩ hk
      · rw [completeBatch_of_other_id s t hid heq]
        exact ⟨fun _ hb => heq hb.1.2.symm, fun _ => hinv⟩
    · rw [completeBatch_of_no_id s t hid]
      exact ⟨fun _ hb => hid hb.1.1, fun _ => hinv⟩
  | complete st =>
    show (s.complete t cache st).seg.writerWhileDownloading ↔ _
    by_cases hid : t.hasId
    · by_cases heq : s.downloader_id = t.queryId
      · by_cases hst : st.isCompletion
        · rw [complete_of_downloader s t cache st hid heq hst]
          have hbuf := completeImpl_buffer { s with download_state := st } t cache hid
          have hdl : (FileSegment.completeImpl { s with download_state := st } t cache).seg.downloader_id
              = "" :=
            (completeImpl_frame { s with download_state := st } t cache).2.2.2.2.2.2
              (by rw [getCallerId_of_hasId hid, heq])
          have hcan : canContinue { s with download_state := st } cache ↔
              (cache.isLastFileSegmentHolder s.key s.offset = false
                ∧ st = State.PARTIALLY_DOWNLOADED) := Iff.rfl
          constructor
          · intro h hbr
            obtain ⟨_, h1, h2, h3⟩ := hbr
            have hsome : (FileSegment.completeImpl { s with download_state := st } t
                cache).seg.download_buffer.isSome = true := by
              rw [hbuf, if_pos (hcan.2 ⟨h3, h2⟩)]
              exact h1
            exact (h hsome).2 hdl
          · intro hk hsome
            exfalso
            dsimp only at hsome
            rw [hbuf] at hsome
            by_cases hc : canContinue { s with download_state := st } cache
            · rw [if_pos hc] at hsome
              exact hk ⟨⟨hid, heq.symm⟩, hsome, (hcan.1 hc).2, (hcan.1 hc).1⟩
            · rw [if_neg hc] at hsome
              cases hsome
        · rw [complete_of_bad_state s t cache st hid heq hst]
          refine ⟨fun _ hb => hst ?_, fun _ => hinv⟩
          exact Or.inr (Or.inl hb.2.2.1)
      · rw [complete_of_other_id s t cache st hid heq]
        exact ⟨fun _ hb => heq hb.1.2.symm, fun _ => hinv⟩
    · rw [complete_of_no_id s t cache st hid]
      exact ⟨fun _ hb => hid hb.1.1, fun _ => hinv⟩
  | completeNoArg =>
    show (s.completeNoArg t cache).seg.writerWhileDownloading ↔ _
    by_cases hsome : s.download_buffer.isSome = true
    · obtain ⟨hdown, hdl⟩ := hinv hsome
      have hskip : s.download_state ≠ State.SKIP_CACHE := by rw [hdown]; simp
      rw [completeNoArg_eq s t cache hskip, thenNotifyAll_seg]
      have hstate := completeImpl_state_ne_downloading
        { s with download_state := stateBeforeFinalizer s } t cache
        (stateBeforeFinalizer_ne_downloading s)
      have hcan : canContinue { s with download_state := stateBeforeFinalizer s } cache ↔
          (s.downloaded_size ≠ s.range.size
            ∧ cache.isLastFileSegmentHolder s.key s.offset = false) := by
        have e : stateBeforeFinalizer s = State.PARTIALLY_DOWNLOADED ↔
            s.downloaded_size ≠ s.range.size := by
          unfold stateBeforeFinalizer
          split_ifs with h1 h2
          · simp [h1]
          · simp [h1]
          · exact absurd (Or.inl hdown) h2
        show (cache.isLastFileSegmentHolder s.key s.offset = false
          ∧ stateBeforeFinalizer s = State.PARTIALLY_DOWNLOADED) ↔ _
        rw [e]
        exact and_comm
      by_cases hid : t.hasId
      · have hbuf := completeImpl_buffer
          { s with download_state := stateBeforeFinalizer s } t cache hid
        constructor
        · intro h hbr
          rcases hbr.2 with h1 | h1
          · exact h1 hid
          · have hs2 : (FileSegment.completeImpl
                { s with download_state := stateBeforeFinalizer s } t
                cache).seg.download_buffer.isSome = true := by
              rw [hbuf, if_pos (hcan.2 h1)]
              exact hsome
            exact hstate (h hs2).1
        · intro hk hs2
          exfalso
          rw [hbuf] at hs2
          by_cases hc : canContinue { s with download_state := stateBeforeFinalizer s } cache
          · exact hk ⟨hsome, Or.inr (hcan.1 hc)⟩
          · rw [if_neg hc] at hs2
            cases hs2
      · have hbuf := completeImpl_buffer_of_no_id
          { s with download_state := stateBeforeFinalizer s } t cache hid
        constructor
        · intro h _
          have hs2 : (FileSegment.completeImpl
              { s with download_state := stateBeforeFinalizer s } t
              cache).seg.download_buffer.isSome = true := by
            rw [hbuf]
            exact hsome
          exact hstate (h hs2).1
        · intro hk
          exact absurd ⟨hsome, Or.inl hid⟩ hk
    · have hnone := isSome_of_ne_none _ hsome
      refine ⟨fun _ hb => hsome hb.1, fun _ => ?_⟩
      by_cases hskip : s.download_state = State.SKIP_CACHE
      · rw [completeNoArg_of_skip s t cache hskip]
        exact hinv
      · rw [completeNoArg_eq s t cache hskip, thenNotifyAll_seg]
        intro hs2
        have hn2 := completeImpl_buffer_of_none
          { s with download_state := stateBeforeFinalizer s } t cache hnone
        rw [hn2] at hs2
        cases hs2

theorem writer_run_iff (s : FileSegment) (hinv : s.writerWhileDownloading)
    (cs : List Call) :
    (∀ k : Nat, (run s (cs.take k)).writerWhileDownloading) ↔ allowedAlong keepsWriter s cs := by
  induction cs generalizing s with
  | nil =>
    constructor
    · intro _; trivial
    · intro _ k
      rw [List.take_nil]
      exact hinv
  | cons c cs ih =>
    constructor
    · intro h
      have h1 : (step s c).writerWhileDownloading := h 1
      exact ⟨(writer_step_iff s c hinv).1 h1, (ih (step s c) h1).1 (fun k => h (k + 1))⟩
    · rintro ⟨h1, h2⟩ k
      have h3 := (writer_step_iff s c hinv).2 h1
      cases k with
      | zero => exact hinv
      | succ k => exact (ih (step s c) h3).2 h2 k

theorem writer_kept (s : FileSegment) (h : ReachableBy keepsWriter s) :
    s.writerWhileDownloading := by
  induction h with
  | init s hc =>
    intro hb
    rw [(writer_of_constructed s hc).2] at hb
    cases hb
  | next s c _ hok ih => exact (writer_step_iff s c ih).2 hok

/-- C21 (counterexample). Reachable segments with a writer that break the invariant. Client
`A` claims a fresh 10-byte segment, reserves and writes 5 bytes and calls `completeBatch`:
the writer is present, the state is `DOWNLOADING` and `downloader_id` is empty. Or `A` ends
with `complete(PARTIALLY_DOWNLOADED)` while another holder exists: the writer is present,
the state is `PARTIALLY_DOWNLOADED` and `downloader_id` is empty. Or a reader `B` releases
through `complete()` after the 5 bytes of `A`: the writer is present in state
`PARTIALLY_DOWNLOADED`. Or `B` releases through `complete()` right after the claim of `A`,
and `A` then reserves and writes 5 bytes: the `write` returns and leaves a writer in state
`PARTIALLY_DOWNLOADED`. -/
theorem writer_invariant_counterexample :
    Reachable (run emptySegment10 [callBy "A" .getOrSetDownloader, callBy "A" (.reserve 5),
        callBy "A" (.write 5), callBy "A" .completeBatch])
    ∧ (run emptySegment10 [callBy "A" .getOrSetDownloader, callBy "A" (.reserve 5),
        callBy "A" (.write 5), callBy "A" .completeBatch]).download_buffer
        = some ⟨"segment", 5⟩
    ∧ (run emptySegment10 [callBy "A" .getOrSetDownloader, callBy "A" (.reserve 5),
        callBy "A" (.write 5), callBy "A" .completeBatch]).download_state
        = State.DOWNLOADING
    ∧ (run emptySegment10 [callBy "A" .getOrSetDownloader, callBy "A" (.reserve 5),
        callBy "A" (.write 5), callBy "A" .completeBatch]).downloader_id = ""
    ∧ ¬ (run emptySegment10 [callBy "A" .getOrSetDownloader, callBy "A" (.reserve 5),
        callBy "A" (.write 5), callBy "A" .completeBatch]).writerWhileDownloading
    ∧ Reachable (run emptySegment10 [callBy "A" .getOrSetDownloader, callBy "A" (.reserve 5),
        callBy "A" (.write 5), callBy "A" (.complete State.PARTIALLY_DOWNLOADED)])
    ∧ (run emptySegment10 [callBy "A" .getOrSetDownloader, callBy "A" (.reserve 5),
        callBy "A" (.write 5),
        callBy "A" (.complete State.PARTIALLY_DOWNLOADED)]).download_buffer
        = some ⟨"segment", 5⟩
    ∧ (run emptySegment10 [callBy "A" .getOrSetDownloader, callBy "A" (.reserve 5),
        callBy "A" (.write 5),
        callBy "A" (.complete State.PARTIALLY_DOWNLOADED)]).download_state
        = State.PARTIALLY_DOWNLOADED
    ∧ ¬ (run emptySegment10 [callBy "A" .getOrSetDownloader, callBy "A" (.reserve 5),
        callBy "A" (.write 5),
        callBy "A" (.complete State.PARTIALLY_DOWNLOADED)]).writerWhileDownloading
    ∧ Reachable (run emptySegment10 [callBy "A" .getOrSetDownloader, callBy "A" (.reserve 5),
        callBy "A" (.write 5), callBy "B" .completeNoArg])
    ∧ (run emptySegment10 [callBy "A" .getOrSetDownloader, callBy "A" (.reserve 5),
        callBy "A" (.write 5), callBy "B" .completeNoArg]).download_buffer
        = some ⟨"segment", 5⟩
    ∧ (run emptySegment10 [callBy "A" .getOrSetDownloader, callBy "A" (.reserve 5),
        callBy "A" (.write 5), callBy "B" .completeNoArg]).download_state
        = State.PARTIALLY_DOWNLOADED
    ∧ ¬ (run emptySegment10 [callBy "A" .getOrSetDownloader, callBy "A" (.reserve 5),
        callBy "A" (.write 5), callBy "B" .completeNoArg]).writerWhileDownloading
    ∧ Reachable (run emptySegment10 [callBy "A" .getOrSetDownloader, callBy "B" .completeNoArg,
        callBy "A" (.reserve 5)])
    ∧ (run emptySegment10 [callBy "A" .getOrSetDownloader, callBy "B" .completeNoArg,
        callBy "A" (.reserve 5)]).writerWhileDownloading
    ∧ ((run emptySegment10 [callBy "A" .getOrSetDownloader, callBy "B" .completeNoArg,
        callBy "A" (.reserve 5)]).write (client "A") (grantingCache false) 5).result = .ok ()
    ∧ ((run emptySegment10 [callBy "A" .getOrSetDownloader, callBy "B" .completeNoArg,
        callBy "A" (.reserve 5)]).write (client "A")
          (grantingCache false) 5).seg.download_buffer = some ⟨"segment", 5⟩
    ∧ ((run emptySegment10 [callBy "A" .getOrSetDownloader, callBy "B" .completeNoArg,
        callBy "A" (.reserve 5)]).write (client "A")
          (grantingCache false) 5).seg.download_state = State.PARTIALLY_DOWNLOADED
    ∧ ¬ ((run emptySegment10 [callBy "A" .getOrSetDownloader, callBy "B" .completeNoArg,
        callBy "A" (.reserve 5)]).write (client "A")
          (grantingCache false) 5).seg.writerWhileDownloading :=
  ⟨reachable_run (reachable_of_construct 0 10 1 State.EMPTY emptySegment10
      (by decide) (by decide) rfl) _,
    by decide, by decide, by decide, by decide,
    reachable_run (reachable_of_construct 0 10 1 State.EMPTY emptySegment10
      (by decide) (by decide) rfl) _,
    by decide, by decide, by decide,
    reachable_run (reachable_of_construct 0 10 1 State.EMPTY emptySegment10
      (by decide) (by decide) rfl) _,
    by decide, by decide, by decide,
    reachable_run (reachable_of_construct 0 10 1 State.EMPTY emptySegment10
      (by decide) (by decide) rfl) _,
    by decide, rfl, by decide, by decide, by decide⟩

/-- C21 (as amended). On a segment reached from a valid construction through calls none of
which is (a) a `write` that returns while the state is not `DOWNLOADING`, (b)
`completeBatch` by the downloader while the writer is present, (c)
`complete(PARTIALLY_DOWNLOADED)` by the downloader while the writer is present and another
holder exists, (d) `complete()` while the writer is present, by a caller without id, or by
any caller when `downloaded_size != size` and another holder exists: a writer that is
present implies state `DOWNLOADING` and a non-empty `downloader_id`. These calls are
exactly the ones to exclude: the next call keeps the invariant if and only if it is not
one of them, and the invariant holds after every call of a sequence if and only if none of
its calls is one of them. -/
theorem writer_invariant_exact (s : FileSegment) (h : ReachableBy keepsWriter s) :
    s.writerWhileDownloading
    ∧ (∀ c : Call, (step s c).writerWhileDownloading ↔ ¬ breaksWriter s c)
    ∧ (∀ cs : List Call, (∀ k : Nat, (run s (cs.take k)).writerWhileDownloading) ↔
        allowedAlong keepsWriter s cs) :=
  ⟨writer_kept s h, fun c => writer_step_iff s c (writer_kept s h),
    fun cs => writer_run_iff s (writer_kept s h) cs⟩

/-- C21 (as amended) at a concrete input: client `A` claims a fresh 10-byte segment,
reserves 5 bytes and writes them (the writer is present, the state is `DOWNLOADING`), then
gives up with `complete(PARTIALLY_DOWNLOADED_NO_CONTINUATION)`, which drops the writer. -/
theorem writer_invariant_exact_witness :
    ReachableBy keepsWriter (run emptySegment10 [callBy "A" .getOrSetDownloader,
        callBy "A" (.reserve 5), callBy "A" (.write 5),
        callBy "A" (.complete State.PARTIALLY_DOWNLOADED_NO_CONTINUATION)])
    ∧ (run emptySegment10 [callBy "A" .getOrSetDownloader,
        callBy "A" (.reserve 5), callBy "A" (.write 5)]).download_buffer
        = some ⟨"segment", 5⟩
    ∧ (run emptySegment10 [callBy "A" .getOrSetDownloader,
        callBy "A" (.reserve 5), callBy "A" (.write 5),
        callBy "A" (.complete State.PARTIALLY_DOWNLOADED_NO_CONTINUATION)]).download_buffer
        = none
    ∧ (run emptySegment10 [callBy "A" .getOrSetDownloader,
        callBy "A" (.reserve 5), callBy "A" (.write 5),
        callBy "A" (.complete
          State.PARTIALLY_DOWNLOADED_NO_CONTINUATION)]).writerWhileDownloading :=
  have hreach : ReachableBy keepsWriter (run emptySegment10
      [callBy "A" .getOrSetDownloader, callBy "A" (.reserve 5), callBy "A" (.write 5),
        callBy "A" (.complete State.PARTIALLY_DOWNLOADED_NO_CONTINUATION)]) :=
    reachableBy_run (ReachableBy.init _ ⟨0, 10, 1, State.EMPTY, by decide, by decide, rfl⟩) _
      ⟨id, id, fun hb => hb.2 (by decide), fun hb => absurd hb.2.2.1 (by decide), trivial⟩
  ⟨hreach, by decide, by decide, (writer_invariant_exact _ hreach).1⟩

/-! ## C22: the `EMPTY` invariant -/

theorem completeBatch_state (s : FileSegment) (t : CurrentThread) :
    (s.completeBatch t).seg.download_state = s.download_state
      ∨ (s.completeBatch t).seg.download_state = State.DOWNLOADED := by
  unfold FileSegment.completeBatch
  cases FileSegment.getCallerId t with
  | error e => exact Or.inl rfl
  | ok c =>
    dsimp only
    split_ifs
    · exact Or.inl rfl
    · exact Or.inr rfl
    · exact Or.inl rfl

theorem complete_state (s : FileSegment) (t : CurrentThread) (cache : FileCache)
    (st : State) :
    (s.complete t cache st).seg = s
      ∨ (s.complete t cache st).seg.download_state ≠ State.EMPTY := by
  by_cases hid : t.hasId
  · by_cases hd : s.downloader_id = t.queryId
    · by_cases hst : st.isCompletion
      · right
        rw [complete_of_downloader s t cache st hid hd hst]
        show (FileSegment.completeImpl { s with download_state := st } t cache).seg.download_state
          ≠ State.EMPTY
        rw [completeImpl_state]
        dsimp only
        unfold State.isCompletion at hst
        split_ifs
        · simp
        · rcases hst with h | h | h <;> simp [h]
      · left; rw [complete_of_bad_state s t cache st hid hd hst]
    · left; rw [complete_of_other_id s t cache st hid hd]
  · left; rw [complete_of_no_id s t cache st hid]

theorem stateBeforeFinalizer_ne_empty (s : FileSegment) :
    stateBeforeFinalizer s ≠ State.EMPTY := by
  unfold stateBeforeFinalizer
  split_ifs with h1 h2
  · simp
  · simp
  · intro h
    exact h2 (Or.inr h)

theorem completeNoArg_state (s : FileSegment) (t : CurrentThread) (cache : FileCache) :
    (s.completeNoArg t cache).seg = s
      ∨ (s.completeNoArg t cache).seg.download_state ≠ State.EMPTY := by
  by_cases hs : s.download_state = State.SKIP_CACHE
  · left; rw [completeNoArg_of_skip s t cache hs]
  · right
    rw [completeNoArg_eq s t cache hs, thenNotifyAll_seg, completeImpl_state]
    dsimp only
    split_ifs
    · simp
    · exact stateBeforeFinalizer_ne_empty s

theorem empty_step (s : FileSegment) (c : Call) (hinv : s.emptyIsUntouched)
    (hst : (step s c).download_state = State.EMPTY) : step s c = s := by
  obtain ⟨t, cache, op⟩ := c
  cases op with
  | getOrSetDownloader =>
    show (s.getOrSetDownloader t).seg = s
    change (s.getOrSetDownloader t).seg.download_state = State.EMPTY at hst
    by_cases h : s.downloader_id = ""
    · by_cases hid : t.hasId
      · rw [getOrSetDownloader_of_unset s t h hid] at hst
        cases hst
      · rw [getOrSetDownloader_of_no_id s t h hid]
    · rw [getOrSetDownloader_of_set s t h]
  | reserve n =>
    show (s.reserve t cache n).seg = s
    change (s.reserve t cache n).seg.download_state = State.EMPTY at hst
    rw [(reserve_frame s t cache n).1] at hst
    apply reserve_seg_of_not_downloader
    rw [(hinv hst).2.2]
    exact getCallerId_ne_ok_empty t
  | write n =>
    show (s.write t cache n).seg = s
    change (s.write t cache n).seg.download_state = State.EMPTY at hst
    rw [(write_frame s t cache n).1] at hst
    apply write_seg_of_not_downloader
    rw [(hinv hst).2.2]
    exact getCallerId_ne_ok_empty t
  | completeBatch =>
    show (s.completeBatch t).seg = s
    change (s.completeBatch t).seg.download_state = State.EMPTY at hst
    have hs : s.download_state = State.EMPTY := by
      rcases completeBatch_state s t with h | h
      · rw [← h]; exact hst
      · rw [h] at hst; cases hst
    have hd := (hinv hs).2.2
    by_cases hid : t.hasId
    · rw [completeBatch_of_other_id s t hid (by rw [hd]; exact fun h => hid.2 h.symm)]
    · rw [completeBatch_of_no_id s t hid]
  | complete st =>
    show (s.complete t cache st).seg = s
    change (s.complete t cache st).seg.download_state = State.EMPTY at hst
    rcases complete_state s t cache st with h | h
    · exact h
    · exact absurd hst h
  | completeNoArg =>
    show (s.completeNoArg t cache).seg = s
    change (s.completeNoArg t cache).seg.download_state = State.EMPTY at hst
    rcases completeNoArg_state s t cache with h | h
    · exact h
    · exact absurd hst h
  | wait => exact wait_seg s

theorem empty_run (s : FileSegment) (cs : List Call) (hinv : s.emptyIsUntouched) :
    (run s cs).emptyIsUntouched := by
  induction cs generalizing s with
  | nil => exact hinv
  | cons c cs ih =>
    apply ih
    intro hst
    rw [empty_step s c hinv hst]
    rw [empty_step s c hinv hst] at hst
    exact hinv hst

theorem empty_of_construct (offset_ size_ : Nat) (key_ : Key) (s0 : FileSegment)
    (hc : FileSegment.construct offset_ size_ key_ State.EMPTY = .ok s0) :
    s0.emptyIsUntouched := by
  rw [construct_empty] at hc
  cases hc
  intro _
  exact ⟨rfl, rfl, rfl⟩

theorem write_of_nothing_reserved (s : FileSegment) (t : CurrentThread) (cache : FileCache)
    (n : Nat) (h1 : s.downloaded_size = 0) (h2 : s.reserved_size = 0) :
    s.write t cache n = ⟨.error ErrorCode.FILE_CACHE_ERROR, s, []⟩ := by
  unfold FileSegment.write FileSegment.availableSize sizeSub
  rw [h1, h2]
  by_cases hn : n = 0
  · rw [if_pos hn]
  · rw [if_neg hn, if_pos (by norm_num; omega)]

theorem reserve_of_no_downloader (s : FileSegment) (t : CurrentThread) (cache : FileCache)
    (n : Nat) (h : s.downloader_id = "") :
    (s.reserve t cache n).result = .error ErrorCode.FILE_CACHE_ERROR
      ∧ (s.reserve t cache n).seg = s ∧ (s.reserve t cache n).effects = [] := by
  unfold FileSegment.reserve
  split_ifs
  · exact ⟨rfl, rfl, rfl⟩
  · exact ⟨rfl, rfl, rfl⟩
  · cases hr : FileSegment.getCallerId t with
    | error e => cases e; exact ⟨rfl, rfl, rfl⟩
    | ok c =>
      dsimp only
      have hne : s.downloader_id ≠ c := by
        rw [h]
        exact fun e => (hasId_of_getCallerId hr).2.2 e.symm
      rw [if_pos hne]
      exact ⟨rfl, rfl, rfl⟩

/-- C22. For every segment constructed `EMPTY` and every sequence of public operations,
whoever the callers are: whenever the state is `EMPTY` after the sequence,
`downloaded_size` and `reserved_size` are 0 and `downloader_id` is empty; in that state
every `reserve` and every `write` throws `FILE_CACHE_ERROR` and leaves the segment as it
is, without a call on the cache manager or the writer. -/
theorem empty_invariant (offset_ size_ : Nat) (key_ : Key) (s0 : FileSegment)
    (hc : FileSegment.construct offset_ size_ key_ State.EMPTY = .ok s0) (cs : List Call)
    (hst : (run s0 cs).download_state = State.EMPTY) :
    (run s0 cs).downloaded_size = 0 ∧ (run s0 cs).reserved_size = 0
    ∧ (run s0 cs).downloader_id = ""
    ∧ (∀ (t : CurrentThread) (cache : FileCache) (n : Nat),
        ((run s0 cs).reserve t cache n).result = .error ErrorCode.FILE_CACHE_ERROR
        ∧ ((run s0 cs).reserve t cache n).seg = run s0 cs
        ∧ ((run s0 cs).reserve t cache n).effects = [])
    ∧ (∀ (t : CurrentThread) (cache : FileCache) (n : Nat),
        (run s0 cs).write t cache n = ⟨.error ErrorCode.FILE_CACHE_ERROR, run s0 cs, []⟩) := by
  obtain ⟨h1, h2, h3⟩ := empty_run s0 cs (empty_of_construct offset_ size_ key_ s0 hc) hst
  exact ⟨h1, h2, h3, fun t cache n => reserve_of_no_downloader _ t cache n h3,
    fun t cache n => write_of_nothing_reserved _ t cache n h1 h2⟩

/-- C22 at a concrete input: on a fresh 10-byte segment client `A` calls `reserve(5)`,
`write(5)`, `completeBatch`, `complete(DOWNLOADED)` and `wait` without having claimed it;
every call fails and the state is still `EMPTY`. -/
theorem empty_invariant_witness :
    FileSegment.construct 0 10 1 State.EMPTY = .ok emptySegment10
    ∧ (run emptySegment10 [callBy "A" (.reserve 5), callBy "A" (.write 5),
        callBy "A" .completeBatch, callBy "A" (.complete State.DOWNLOADED),
        callBy "A" .wait]).download_state = State.EMPTY
    ∧ (run emptySegment10 [callBy "A" (.reserve 5), callBy "A" (.write 5),
        callBy "A" .completeBatch, callBy "A" (.complete State.DOWNLOADED),
        callBy "A" .wait]).reserved_size = 0 :=
  ⟨rfl, by decide,
    (empty_invariant 0 10 1 emptySegment10 rfl
      [callBy "A" (.reserve 5), callBy "A" (.write 5), callBy "A" .completeBatch,
        callBy "A" (.complete State.DOWNLOADED), callBy "A" .wait] (by decide)).2.1⟩

/-! ## C23: the amount asked of the cache manager -/

/-- The amount `reserve` asks of the cache manager is the part of the request not yet
reserved whenever that part is not negative: on a segment with
`downloaded_size ≤ reserved_size`, for a request `n` of the downloader that is at least
the space reserved and not yet written. -/
theorem reserve_amount_without_wrap (s : FileSegment) (t : CurrentThread) (cache : FileCache)
    (n : Nat) (hid : t.hasId) (hd : s.downloader_id = t.queryId) (hn : n ≠ 0)
    (hle : s.downloaded_size ≤ s.reserved_size) (hres : s.reserved_size < sizeModulus)
    (hfit : s.downloaded_size + n ≤ s.range.size) (hn2 : s.downloaded_size + n < sizeModulus)
    (hfree : s.reserved_size - s.downloaded_size ≤ n) :
    (s.reserve t cache n).effects
      = [Effect.tryReserve s.key s.offset (n - (s.reserved_size - s.downloaded_size))
          (cache.tryReserve s.key s.offset (n - (s.reserved_size - s.downloaded_size)))] := by
  have hadd1 : sizeAdd s.downloaded_size n = s.downloaded_size + n := by
    unfold sizeAdd; unfold sizeModulus at hn2; omega
  have hfs : sizeSub s.reserved_size s.downloaded_size
      = s.reserved_size - s.downloaded_size := by
    unfold sizeSub; unfold sizeModulus at hres; omega
  have hsub : sizeSub n (s.reserved_size - s.downloaded_size)
      = n - (s.reserved_size - s.downloaded_size) := by
    unfold sizeSub; unfold sizeModulus at hn2 hres; omega
  unfold FileSegment.reserve
  rw [if_neg hn, hadd1, if_neg (by omega), getCallerId_of_hasId hid]
  dsimp only
  rw [if_neg (not_not.mpr hd), hfs, hsub]

/-- C23. Client `A` claims a fresh 10-byte segment and reserves all 10 bytes; the segment
is reachable, with `downloaded_size = 0` and `reserved_size = 10`. Then `A` calls
`reserve(3)`, which passes every precondition (`3 > 0`, `A` is the downloader,
`0 + 3 ≤ 10`): the cache manager is asked for `3 - 10` in `size_t`, that is
`2 ^ 64 - 7` bytes, and `reserved_size` becomes 13. -/
theorem reserve_amount_wraps_around :
    Reachable (run emptySegment10 [callBy "A" .getOrSetDownloader, callBy "A" (.reserve 10)])
    ∧ (run emptySegment10 [callBy "A" .getOrSetDownloader,
        callBy "A" (.reserve 10)]).downloaded_size = 0
    ∧ (run emptySegment10 [callBy "A" .getOrSetDownloader,
        callBy "A" (.reserve 10)]).reserved_size = 10
    ∧ (run emptySegment10 [callBy "A" .getOrSetDownloader,
        callBy "A" (.reserve 10)]).range.size = 10
    ∧ (run emptySegment10 [callBy "A" .getOrSetDownloader,
        callBy "A" (.reserve 10)]).isDownloader (client "A") = .ok true
    ∧ ((run emptySegment10 [callBy "A" .getOrSetDownloader,
        callBy "A" (.reserve 10)]).reserve (client "A") (grantingCache false) 3).result
        = .ok true
    ∧ ((run emptySegment10 [callBy "A" .getOrSetDownloader,
        callBy "A" (.reserve 10)]).reserve (client "A") (grantingCache false) 3).effects
        = [Effect.tryReserve 1 0 18446744073709551609 true]
    ∧ (18446744073709551609 : Nat) = 2 ^ 64 - 7
    ∧ ((run emptySegment10 [callBy "A" .getOrSetDownloader,
        callBy "A" (.reserve 10)]).reserve (client "A") (grantingCache false) 3).seg.reserved_size
        = 13 :=
  ⟨reachable_run (reachable_of_construct 0 10 1 State.EMPTY emptySegment10
      (by decide) (by decide) rfl) _,
    by decide, by decide, by decide, rfl, rfl, by decide, by decide, by decide⟩

/-! ## C24: `SKIP_CACHE` and removal -/

theorem getOrSetDownloader_of_failed (s : FileSegment) (t : CurrentThread)
    (h : (s.getOrSetDownloader t).failed = true) :
    s.getOrSetDownloader t = ⟨.error ErrorCode.FILE_CACHE_ERROR, s, []⟩ := by
  unfold FileSegment.getOrSetDownloader at h ⊢
  split_ifs at h ⊢ with h1
  · cases hc : FileSegment.getCallerId t with
    | error e => cases e; rfl
    | ok c => rw [hc] at h; simp [Outcome.failed] at h
  · simp [Outcome.failed] at h

theorem reserve_of_failed (s : FileSegment) (t : CurrentThread) (cache : FileCache) (n : Nat)
    (h : (s.reserve t cache n).failed = true) :
    s.reserve t cache n = ⟨.error ErrorCode.FILE_CACHE_ERROR, s, []⟩ := by
  unfold FileSegment.reserve at h ⊢
  split_ifs at h ⊢ with h1 h2
  · rfl
  · rfl
  · cases hc : FileSegment.getCallerId t with
    | error e => cases e; rfl
    | ok c =>
      rw [hc] at h
      dsimp only at h ⊢
      split_ifs at h ⊢
      all_goals first | rfl | (simp [Outcome.failed] at h)

theorem write_of_failed (s : FileSegment) (t : CurrentThread) (cache : FileCache) (n : Nat)
    (h : (s.write t cache n).failed = true) :
    s.write t cache n = ⟨.error ErrorCode.FILE_CACHE_ERROR, s, []⟩ := by
  unfold FileSegment.write at h ⊢
  split_ifs at h ⊢ with h1 h2
  · rfl
  · rfl
  · cases hc : s.isDownloader t with
    | error e => cases e; rfl
    | ok b =>
      rw [hc] at h
      cases b with
      | false => rfl
      | true => cases hb : s.download_buffer <;> rw [hb] at h <;> simp [Outcome.failed] at h

theorem wait_of_failed (s : FileSegment) (h : s.wait.failed = true) :
    s.wait = ⟨.error ErrorCode.FILE_CACHE_ERROR, s, []⟩ := by
  unfold FileSegment.wait at h ⊢
  split_ifs at h ⊢
  · rfl
  · simp [Outcome.failed] at h
  · simp [Outcome.failed] at h

theorem completeBatch_of_failed (s : FileSegment) (t : CurrentThread)
    (h : (s.completeBatch t).failed = true) :
    (s.completeBatch t).result = .error ErrorCode.FILE_CACHE_ERROR
      ∧ (s.completeBatch t).seg = s
      ∧ (s.completeBatch t).effects.filter Effect.isCacheMutation = [] := by
  unfold FileSegment.completeBatch at h ⊢
  cases hc : FileSegment.getCallerId t with
  | error e => cases e; exact ⟨rfl, rfl, rfl⟩
  | ok c =>
    rw [hc] at h
    dsimp only at h ⊢
    split_ifs at h ⊢
    all_goals first | exact ⟨rfl, rfl, rfl⟩ | (simp [Outcome.failed] at h)

theorem complete_of_failed (s : FileSegment) (t : CurrentThread) (cache : FileCache)
    (st : State) (h : (s.complete t cache st).failed = true) :
    (s.complete t cache st).result = .error ErrorCode.FILE_CACHE_ERROR
      ∧ (s.complete t cache st).seg = s
      ∧ (s.complete t cache st).effects.filter Effect.isCacheMutation = [] := by
  by_cases hid : t.hasId
  · by_cases hd : s.downloader_id = t.queryId
    · by_cases hst : st.isCompletion
      · rw [complete_of_downloader s t cache st hid hd hst] at h
        simp [Outcome.failed] at h
      · rw [complete_of_bad_state s t cache st hid hd hst]
        exact ⟨rfl, rfl, rfl⟩
    · rw [complete_of_other_id s t cache st hid hd]
      exact ⟨rfl, rfl, rfl⟩
  · rw [complete_of_no_id s t cache st hid]
    exact ⟨rfl, rfl, rfl⟩

theorem completeNoArg_of_hasId (s : FileSegment) (t : CurrentThread) (cache : FileCache)
    (hid : t.hasId) : (s.completeNoArg t cache).failed = false := by
  by_cases hs : s.download_state = State.SKIP_CACHE
  · rw [completeNoArg_of_skip s t cache hs]
    rfl
  · rw [completeNoArg_eq s t cache hs]
    have := completeImpl_result_of_hasId
      { s with download_state := stateBeforeFinalizer s } t cache hid
    unfold Outcome.thenNotifyAll Outcome.failed
    simp only [this]

/-- Every operation but `complete()` fails without a trace: when `getOrSetDownloader`,
`reserve`, `write`, `completeBatch`, `complete(state)` or `wait` throws, it throws
`FILE_CACHE_ERROR`, the segment is as it was and no `remove` or `reduceSizeToDownloaded`
was called; `complete()` never throws for a caller with an id. -/
theorem failure_leaves_segment (s : FileSegment) (t : CurrentThread) (cache : FileCache)
    (n : Nat) (st : State) :
    ((s.getOrSetDownloader t).failed = true →
        s.getOrSetDownloader t = ⟨.error ErrorCode.FILE_CACHE_ERROR, s, []⟩)
    ∧ ((s.reserve t cache n).failed = true →
        s.reserve t cache n = ⟨.error ErrorCode.FILE_CACHE_ERROR, s, []⟩)
    ∧ ((s.write t cache n).failed = true →
        s.write t cache n = ⟨.error ErrorCode.FILE_CACHE_ERROR, s, []⟩)
    ∧ (s.wait.failed = true → s.wait = ⟨.error ErrorCode.FILE_CACHE_ERROR, s, []⟩)
    ∧ ((s.completeBatch t).failed = true →
        (s.completeBatch t).result = .error ErrorCode.FILE_CACHE_ERROR
        ∧ (s.completeBatch t).seg = s
        ∧ (s.completeBatch t).effects.filter Effect.isCacheMutation = [])
    ∧ ((s.complete t cache st).failed = true →
        (s.complete t cache st).result = .error ErrorCode.FILE_CACHE_ERROR
        ∧ (s.complete t cache st).seg = s
        ∧ (s.complete t cache st).effects.filter Effect.isCacheMutation = [])
    ∧ (t.hasId → (s.completeNoArg t cache).failed = false) :=
  ⟨getOrSetDownloader_of_failed s t, reserve_of_failed s t cache n, write_of_failed s t cache n,
    wait_of_failed s, completeBatch_of_failed s t, complete_of_failed s t cache st,
    completeNoArg_of_hasId s t cache⟩

/-- C25. `complete()` by a caller without a client id fails with `FILE_CACHE_ERROR` after
it has changed the segment and called the cache manager. On a fresh 10-byte segment, with
the caller reported as last holder: the state is `SKIP_CACHE` instead of `EMPTY` and
`remove` has been called. On a segment on which client `A` has claimed, reserved and
written 5 bytes: the state is `PARTIALLY_DOWNLOADED` instead of `DOWNLOADING`,
`reduceSizeToDownloaded` has been called, and the writer and `downloader_id` are left as
they were. -/
theorem complete_without_id_fails_midway :
    FileSegment.getCallerId noThread = .error ErrorCode.FILE_CACHE_ERROR
    ∧ emptySegment10.download_state = State.EMPTY
    ∧ (emptySegment10.completeNoArg noThread (grantingCache true)).result
        = .error ErrorCode.FILE_CACHE_ERROR
    ∧ (emptySegment10.completeNoArg noThread (grantingCache true)).seg.download_state
        = State.SKIP_CACHE
    ∧ (emptySegment10.completeNoArg noThread (grantingCache true)).effects
        = [Effect.isLastFileSegmentHolder 1 0 true, Effect.remove 1 0]
    ∧ (run emptySegment10 [callBy "A" .getOrSetDownloader, callBy "A" (.reserve 5),
        callBy "A" (.write 5)]).download_state = State.DOWNLOADING
    ∧ ((run emptySegment10 [callBy "A" .getOrSetDownloader, callBy "A" (.reserve 5),
        callBy "A" (.write 5)]).completeNoArg noThread (grantingCache true)).result
        = .error ErrorCode.FILE_CACHE_ERROR
    ∧ ((run emptySegment10 [callBy "A" .getOrSetDownloader, callBy "A" (.reserve 5),
        callBy "A" (.write 5)]).completeNoArg noThread
        (grantingCache true)).seg.download_state = State.PARTIALLY_DOWNLOADED
    ∧ ((run emptySegment10 [callBy "A" .getOrSetDownloader, callBy "A" (.reserve 5),
        callBy "A" (.write 5)]).completeNoArg noThread (grantingCache true)).effects
        = [Effect.isLastFileSegmentHolder 1 0 true, Effect.reduceSizeToDownloaded 1 0]
    ∧ ((run emptySegment10 [callBy "A" .getOrSetDownloader, callBy "A" (.reserve 5),
        callBy "A" (.write 5)]).completeNoArg noThread
        (grantingCache true)).seg.download_buffer = some ⟨"segment", 5⟩
    ∧ ((run emptySegment10 [callBy "A" .getOrSetDownloader, callBy "A" (.reserve 5),
        callBy "A" (.write 5)]).completeNoArg noThread
        (grantingCache true)).seg.downloader_id = "A" :=
  ⟨rfl, rfl, rfl, by decide, by decide, by decide, rfl, by decide, by decide, by decide,
    by decide⟩

end DB

namespace stdext

open __bitsetsort

section Order

variable {α : Type}

/-! ## Strict weak orderings -/

theorem StrictWeakOrder.asymm {comp : α → α → Bool} (h : StrictWeakOrder comp) (a b : α)
    (hab : comp a b = true) : comp b a = false := by
  cases hba : comp b a with
  | false => rfl
  | true =>
    have := h.trans a b a hab hba
    rw [h.irrefl] at this
    cases this

/-- Negative transitivity: `a ≤ b` and `b ≤ c` give `a ≤ c`, where `x ≤ y` is
`comp y x = false`. -/
theorem StrictWeakOrder.le_trans {comp : α → α → Bool} (h : StrictWeakOrder comp) (a b c : α)
    (hab : comp b a = false) (hbc : comp c b = false) : comp c a = false := by
  cases hca : comp c a with
  | false => rfl
  | true =>
    exfalso
    -- `c < a`
    have h1 : comp a b = false := by
      cases hx : comp a b with
      | false => rfl
      | true =>
        have := h.trans c a b hca hx
        rw [hbc] at this
        cases this
    have h2 : comp b c = false := by
      cases hx : comp b c with
      | false => rfl
      | true =>
        have := h.trans b c a hx hca
        rw [hab] at this
        cases this
    have := (h.incomp_trans a b c h1 hab h2 hbc).2
    rw [hca] at this
    cases this

theorem StrictWeakOrder.lt_of_lt_of_le {comp : α → α → Bool} (h : StrictWeakOrder comp)
    (a b c : α) (hab : comp a b = true) (hbc : comp c b = false) : comp a c = true := by
  cases hac : comp a c with
  | true => rfl
  | false =>
    have := h.le_trans b c a hbc hac
    rw [hab] at this
    cases this

theorem StrictWeakOrder.lt_of_le_of_lt {comp : α → α → Bool} (h : StrictWeakOrder comp)
    (a b c : α) (hab : comp b a = false) (hbc : comp b c = true) : comp a c = true := by
  cases hac : comp a c with
  | true => rfl
  | false =>
    have := h.le_trans c a b hac hab
    rw [hbc] at this
    cases this

end Order

variable {α : Type} [Inhabited α]

/-! ## Reading and writing a range -/

theorem rd_eq_getElem (a : List α) (i : Nat) (h : i < a.length) : rd a i = a[i] := by
  unfold rd
  exact List.getD_eq_getElem a default h

theorem rd_set_self (a : List α) (i : Nat) (v : α) (h : i < a.length) :
    rd (a.set i v) i = v := by
  rw [rd_eq_getElem _ _ (by simpa using h)]
  simp

theorem rd_set_of_ne (a : List α) (i j : Nat) (v : α) (h : i ≠ j) :
    rd (a.set i v) j = rd a j := by
  unfold rd
  simp [List.getD_eq_getElem?_getD, List.getElem?_set_ne h]

theorem rd_of_length_le (a : List α) (i : Nat) (h : a.length ≤ i) : rd a i = default := by
  unfold rd
  simp [List.getD_eq_getElem?_getD, List.getElem?_eq_none h]

theorem ext_rd {a b : List α} (hl : a.length = b.length)
    (h : ∀ i, i < a.length → rd a i = rd b i) : a = b := by
  apply List.ext_getElem hl
  intro i h1 h2
  have := h i h1
  rwa [rd_eq_getElem a i h1, rd_eq_getElem b i h2] at this

theorem rd_append_left (a b : List α) (i : Nat) (h : i < a.length) :
    rd (a ++ b) i = rd a i := by
  rw [rd_eq_getElem _ _ (by simp; omega), rd_eq_getElem _ _ h]
  exact List.getElem_append_left h

theorem rd_append_right (a b : List α) (i : Nat) (h : a.length ≤ i) :
    rd (a ++ b) i = rd b (i - a.length) := by
  unfold rd
  simp [List.getD_eq_getElem?_getD, List.getElem?_append_right h]

theorem rd_take (a : List α) (n i : Nat) (h : i < n) : rd (a.take n) i = rd a i := by
  unfold rd
  simp [List.getD_eq_getElem?_getD, List.getElem?_take, h]

theorem rd_drop (a : List α) (n i : Nat) : rd (a.drop n) i = rd a (n + i) := by
  unfold rd
  simp [List.getD_eq_getElem?_getD]

theorem rd_mem (a : List α) (i : Nat) (h : i < a.length) : rd a i ∈ a := by
  rw [rd_eq_getElem a i h]
  exact List.getElem_mem h

theorem exists_rd_of_mem {a : List α} {x : α} (h : x ∈ a) :
    ∃ i, i < a.length ∧ rd a i = x := by
  obtain ⟨i, hi, rfl⟩ := List.getElem_of_mem h
  exact ⟨i, hi, rd_eq_getElem a i hi⟩

/-! ## Single writes keep the multiset when paired -/

theorem set_set_perm (a : List α) (i j : Nat) (hi : i < a.length) (hj : j < a.length) :
    ((a.set i (rd a j)).set j (rd a i)).Perm a := by
  classical
  rw [List.perm_iff_count]
  intro b
  have h3 : ∀ p : j < (a.set i (rd a j)).length, (a.set i (rd a j))[j] = rd a j := by
    intro p
    by_cases hij : i = j
    · subst hij; simp
    · rw [List.getElem_set_ne hij]
      exact (rd_eq_getElem a j hj).symm
  have h1 := List.count_set (rd a i) b (a.set i (rd a j)) j (by simpa using hj)
  have h2 := List.count_set (rd a j) b a i hi
  have h4 : (if a[i] == b then 1 else 0) ≤ a.count b := by
    have := List.boole_getElem_le_countP (fun x => x == b) a i hi
    simpa [List.count_eq_countP] using this
  rw [h3] at h1
  rw [← rd_eq_getElem a i hi] at h2 h4
  rw [h1, h2]
  split_ifs at h4 ⊢ <;> omega

theorem length_iter_swap (a : List α) (i j : Nat) : (iter_swap a i j).length = a.length := by
  simp [iter_swap]

theorem iter_swap_perm (a : List α) (i j : Nat) (hi : i < a.length) (hj : j < a.length) :
    (iter_swap a i j).Perm a :=
  set_set_perm a i j hi hj

theorem rd_iter_swap_left (a : List α) (i j : Nat) (hi : i < a.length) (hj : j < a.length) :
    rd (iter_swap a i j) i = rd a j := by
  unfold iter_swap
  by_cases h : i = j
  · subst h
    rw [rd_set_self _ _ _ (by simpa using hi)]
  · rw [rd_set_of_ne _ _ _ _ (Ne.symm h), rd_set_self _ _ _ hi]

theorem rd_iter_swap_right (a : List α) (i j : Nat) (hj : j < a.length) :
    rd (iter_swap a i j) j = rd a i := by
  unfold iter_swap
  rw [rd_set_self _ _ _ (by simpa using hj)]

theorem rd_iter_swap_of_ne (a : List α) (i j k : Nat) (hi : k ≠ i) (hj : k ≠ j) :
    rd (iter_swap a i j) k = rd a k := by
  unfold iter_swap
  rw [rd_set_of_ne _ _ _ _ (Ne.symm hj), rd_set_of_ne _ _ _ _ (Ne.symm hi)]

theorem iter_swap_self (a : List α) (i : Nat) : iter_swap a i i = a := by
  apply ext_rd (length_iter_swap a i i)
  intro k hk
  rw [length_iter_swap] at hk
  by_cases h : k = i
  · subst h; exact rd_iter_swap_right a k k hk
  · exact rd_iter_swap_of_ne a i i k h h

/-! ## Sorted ranges -/

theorem sortedBy_iff_pairwise (comp : α → α → Bool) (a : List α) :
    SortedBy comp a ↔ a.Pairwise (fun x y => comp y x = false) := by
  rw [List.pairwise_iff_getElem]
  constructor
  · intro h i j hi hj hij
    have := h i j hij hj
    rwa [rd_eq_getElem a j hj, rd_eq_getElem a i hi] at this
  · intro h i j hij hj
    have := h i j (by omega) hj hij
    rwa [rd_eq_getElem a j hj, rd_eq_getElem a i (by omega)]

/-! ## The conditional swaps -/

theorem set_rd_self (a : List α) (i : Nat) : a.set i (rd a i) = a := by
  by_cases h : i < a.length
  · apply ext_rd (by simp)
    intro k hk
    by_cases hki : i = k
    · subst hki; exact rd_set_self a i _ h
    · exact rd_set_of_ne a i k _ hki
  · exact List.set_eq_of_length_le (by omega)

theorem conditional_swap_eq (trivially : Bool) (comp : α → α → Bool) (a : List α)
    (x y : Nat) (hx : x < a.length) (hy : y < a.length) :
    __sorting_network.__conditional_swap trivially comp a x y = cswap comp a x y := by
  unfold __sorting_network.__conditional_swap cswap
  cases trivially with
  | false => simp
  | true =>
    simp only [if_true]
    cases comp (rd a y) (rd a x) with
    | false =>
      simp only [Bool.false_eq_true, if_false]
      rw [set_rd_self, set_rd_self]
    | true =>
      simp only [if_true]
      unfold iter_swap
      by_cases hxy : x = y
      · subst hxy
        simp
      · rw [List.set_comm _ _ _ (Ne.symm hxy)]

theorem reverse_conditional_swap_eq (trivially : Bool) (comp : α → α → Bool) (a : List α)
    (x y : Nat) (hx : x < a.length) (hy : y < a.length) :
    __sorting_network.__reverse_conditional_swap trivially comp a x y
      = cswap (flipComp comp) a x y := by
  unfold __sorting_network.__reverse_conditional_swap cswap flipComp
  cases trivially with
  | false =>
    cases comp (rd a x) (rd a y) <;> simp
  | true =>
    simp only [if_true]
    cases comp (rd a x) (rd a y) with
    | false =>
      simp only [Bool.not_false, if_true, Bool.false_eq_true, if_false]
      rw [set_rd_self, set_rd_self]
    | true =>
      simp only [Bool.not_true, Bool.false_eq_true, if_false, if_true]
      unfold iter_swap
      by_cases hxy : x = y
      · subst hxy
        simp
      · rw [List.set_comm _ _ _ (Ne.symm hxy)]

theorem length_cswap (lt : α → α → Bool) (a : List α) (x y : Nat) :
    (cswap lt a x y).length = a.length := by
  unfold cswap
  split_ifs
  · exact length_iter_swap a x y
  · rfl

theorem cswap_perm (lt : α → α → Bool) (a : List α) (x y : Nat) (hx : x < a.length)
    (hy : y < a.length) : (cswap lt a x y).Perm a := by
  unfold cswap
  split_ifs
  · exact iter_swap_perm a x y hx hy
  · exact List.Perm.refl a

theorem flipComp_strictWeakOrder {comp : α → α → Bool} (h : StrictWeakOrder comp) :
    StrictWeakOrder (flipComp comp) where
  irrefl := fun a => h.irrefl a
  trans := fun a b c hab hbc => h.trans c b a hbc hab
  incomp_trans := fun a b c h1 h2 h3 h4 =>
    ⟨(h.incomp_trans a b c h2 h1 h4 h3).2, (h.incomp_trans a b c h2 h1 h4 h3).1⟩

/-! ## Networks of conditional swaps -/

theorem applySwaps_congr (f g : List α → Nat → Nat → List α) (n : Nat)
    (hlen : ∀ a x y, (g a x y).length = a.length)
    (hfg : ∀ a x y, x < a.length → y < a.length → f a x y = g a x y) :
    ∀ (net : List (Nat × Nat)) (a : List α), NetBelow n net → n ≤ a.length →
      __sorting_network.applySwaps f a net = __sorting_network.applySwaps g a net := by
  intro net
  induction net with
  | nil => intro a _ _; rfl
  | cons p rest ih =>
    intro a hnet hn
    obtain ⟨x, y⟩ := p
    have hp := hnet (x, y) (List.mem_cons_self _ _)
    have hrest : NetBelow n rest := fun q hq => hnet q (List.mem_cons_of_mem _ hq)
    simp only [__sorting_network.applySwaps]
    rw [hfg a x y (by omega) (by omega)]
    exact ih _ hrest (by rw [hlen]; exact hn)

theorem length_applySwaps_cswap (lt : α → α → Bool) (net : List (Nat × Nat)) (a : List α) :
    (__sorting_network.applySwaps (cswap lt) a net).length = a.length := by
  induction net generalizing a with
  | nil => rfl
  | cons p rest ih =>
    obtain ⟨x, y⟩ := p
    simp only [__sorting_network.applySwaps]
    rw [ih, length_cswap]

theorem applySwaps_cswap_perm (lt : α → α → Bool) (n : Nat) (net : List (Nat × Nat))
    (a : List α) (hnet : NetBelow n net) (hn : n ≤ a.length) :
    (__sorting_network.applySwaps (cswap lt) a net).Perm a := by
  induction net generalizing a with
  | nil => exact List.Perm.refl a
  | cons p rest ih =>
    obtain ⟨x, y⟩ := p
    have hp := hnet (x, y) (List.mem_cons_self _ _)
    have hrest : NetBelow n rest := fun q hq => hnet q (List.mem_cons_of_mem _ hq)
    simp only [__sorting_network.applySwaps]
    exact (ih _ hrest (by rw [length_cswap]; exact hn)).trans
      (cswap_perm lt a x y (by omega) (by omega))

/-! ### A network works on the front of the storage only -/

theorem iter_swap_append (p s : List α) (x y : Nat) (hx : x < p.length) (hy : y < p.length) :
    iter_swap (p ++ s) x y = iter_swap p x y ++ s := by
  unfold iter_swap
  rw [rd_append_left p s x hx, rd_append_left p s y hy,
    List.set_append_left _ _ hx, List.set_append_left _ _ (by simpa using hy)]

theorem cswap_append (lt : α → α → Bool) (p s : List α) (x y : Nat) (hx : x < p.length)
    (hy : y < p.length) : cswap lt (p ++ s) x y = cswap lt p x y ++ s := by
  unfold cswap
  rw [rd_append_left p s x hx, rd_append_left p s y hy]
  split_ifs
  · exact iter_swap_append p s x y hx hy
  · rfl

theorem applySwaps_cswap_append (lt : α → α → Bool) (n : Nat) (net : List (Nat × Nat))
    (p s : List α) (hnet : NetBelow n net) (hn : n ≤ p.length) :
    __sorting_network.applySwaps (cswap lt) (p ++ s) net
      = __sorting_network.applySwaps (cswap lt) p net ++ s := by
  induction net generalizing p with
  | nil => rfl
  | cons q rest ih =>
    obtain ⟨x, y⟩ := q
    have hq := hnet (x, y) (List.mem_cons_self _ _)
    have hrest : NetBelow n rest := fun r hr => hnet r (List.mem_cons_of_mem _ hr)
    simp only [__sorting_network.applySwaps]
    rw [cswap_append lt p s x y (by omega) (by omega)]
    exact ih _ hrest (by rw [length_cswap]; exact hn)

/-! ### The zero-one principle -/

theorem rd_map (f : α → Bool) (a : List α) (i : Nat) (hi : i < a.length) :
    rd (a.map f) i = f (rd a i) := by
  rw [rd_eq_getElem _ _ (by simpa using hi), rd_eq_getElem _ _ hi]
  simp

theorem iter_swap_map (f : α → Bool) (a : List α) (x y : Nat) (hx : x < a.length)
    (hy : y < a.length) : (iter_swap a x y).map f = iter_swap (a.map f) x y := by
  unfold iter_swap
  rw [rd_map f a x hx, rd_map f a y hy]
  simp [List.map_set]

theorem cswap_map {lt : α → α → Bool} (h : StrictWeakOrder lt) (t : α) (a : List α)
    (x y : Nat) (hx : x < a.length) (hy : y < a.length) :
    (cswap lt a x y).map (aboveOrAt lt t) = cswap ltBool (a.map (aboveOrAt lt t)) x y := by
  unfold cswap
  rw [rd_map _ a x hx, rd_map _ a y hy]
  by_cases hlt : lt (rd a y) (rd a x) = true
  · rw [if_pos hlt, iter_swap_map _ a x y hx hy]
    by_cases hb : ltBool (aboveOrAt lt t (rd a y)) (aboveOrAt lt t (rd a x)) = true
    · rw [if_pos hb]
    · rw [if_neg hb]
      -- both tests agree, so the exchange changes nothing
      have heq : aboveOrAt lt t (rd a y) = aboveOrAt lt t (rd a x) := by
        unfold ltBool aboveOrAt at hb
        unfold aboveOrAt
        cases hy1 : lt (rd a y) t <;> cases hx1 : lt (rd a x) t <;> simp_all
        -- lt y t = false, lt x t = true: then lt y t by transitivity
        have := h.trans _ _ _ hlt hx1
        simp_all
      apply ext_rd
      · simp [length_iter_swap]
      · intro k hk
        have hk2 : k < (a.map (aboveOrAt lt t)).length := by
          simpa [length_iter_swap] using hk
        have hx2 : x < (a.map (aboveOrAt lt t)).length := by simpa using hx
        have hy2 : y < (a.map (aboveOrAt lt t)).length := by simpa using hy
        by_cases hkx : k = x
        · subst hkx
          rw [rd_iter_swap_left _ _ _ hx2 hy2, rd_map _ a y hy, rd_map _ a k hx, heq]
        · by_cases hky : k = y
          · subst hky
            rw [rd_iter_swap_right _ _ _ hy2, rd_map _ a x hx, rd_map _ a k hy, heq]
          · rw [rd_iter_swap_of_ne _ _ _ _ hkx hky]
  · rw [if_neg hlt]
    have hb : ¬ ltBool (aboveOrAt lt t (rd a y)) (aboveOrAt lt t (rd a x)) = true := by
      unfold ltBool aboveOrAt
      have hlt2 : lt (rd a y) (rd a x) = false := by simpa using hlt
      cases hx1 : lt (rd a x) t
      · have := h.le_trans t (rd a x) (rd a y) hx1 hlt2
        simp [this]
      · simp
    rw [if_neg hb]

theorem applySwaps_cswap_map {lt : α → α → Bool} (h : StrictWeakOrder lt) (t : α) (n : Nat)
    (net : List (Nat × Nat)) (a : List α) (hnet : NetBelow n net) (hn : n ≤ a.length) :
    (__sorting_network.applySwaps (cswap lt) a net).map (aboveOrAt lt t)
      = __sorting_network.applySwaps (cswap ltBool) (a.map (aboveOrAt lt t)) net := by
  induction net generalizing a with
  | nil => rfl
  | cons q rest ih =>
    obtain ⟨x, y⟩ := q
    have hq := hnet (x, y) (List.mem_cons_self _ _)
    have hrest : NetBelow n rest := fun r hr => hnet r (List.mem_cons_of_mem _ hr)
    simp only [__sorting_network.applySwaps]
    rw [ih _ hrest (by rw [length_cswap]; exact hn), cswap_map h t a x y (by omega) (by omega)]

theorem mem_allBools (l : List Bool) : l ∈ allBools l.length := by
  induction l with
  | nil => simp [allBools]
  | cons b l ih =>
    simp only [List.length_cons, allBools, List.mem_append, List.mem_map]
    cases b
    · exact Or.inl ⟨l, ih, rfl⟩
    · exact Or.inr ⟨l, ih, rfl⟩

theorem sortedBools_spec (l : List Bool) (h : sortedBools l = true) (i j : Nat) (hij : i < j)
    (hj : j < l.length) : rd l i = true → rd l j = true := by
  induction l generalizing i j with
  | nil => simp at hj
  | cons x rest ih =>
    simp only [sortedBools, Bool.and_eq_true, Bool.or_eq_true, Bool.not_eq_true',
      List.all_eq_true, id] at h
    obtain ⟨j, rfl⟩ : ∃ k, j = k + 1 := ⟨j - 1, by omega⟩
    have hj2 : j < rest.length := by simpa using hj
    cases i with
    | zero =>
      intro h0
      have hx : x = true := by simpa [rd] using h0
      rcases h.1 with h1 | h1
      · simp [hx] at h1
      · have := h1 (rd rest j) (rd_mem rest j hj2)
        simpa [rd] using this
    | succ i =>
      intro hi
      have := ih h.2 i j (by omega) hj2 (by simpa [rd] using hi)
      simpa [rd] using this

/-- The zero-one principle: a network that sorts the truth values sorts by every strict
weak ordering. -/
theorem sortedBy_of_sortsBools {lt : α → α → Bool} (h : StrictWeakOrder lt) (n : Nat)
    (net : List (Nat × Nat)) (hnet : NetBelow n net) (hb : SortsBools n net) (a : List α)
    (hn : a.length = n) : SortedBy lt (__sorting_network.applySwaps (cswap lt) a net) := by
  intro i j hij hj
  rw [length_applySwaps_cswap] at hj
  have hlen := length_applySwaps_cswap lt net a
  have hmap := applySwaps_cswap_map h (rd (__sorting_network.applySwaps (cswap lt) a net) i)
    n net a hnet (by omega)
  have hs := hb (a.map (aboveOrAt lt
    (rd (__sorting_network.applySwaps (cswap lt) a net) i))) (by
      have := mem_allBools (a.map (aboveOrAt lt
        (rd (__sorting_network.applySwaps (cswap lt) a net) i)))
      simpa [hn] using this)
  rw [← hmap] at hs
  have := sortedBools_spec _ hs i j hij (by simpa [hlen] using hj)
  rw [rd_map _ _ i (by omega), rd_map _ _ j (by omega)] at this
  unfold aboveOrAt at this
  simpa [h.irrefl] using this

/-! ### The networks of the source -/

theorem sortsFront_applySwaps {lt : α → α → Bool} (h : StrictWeakOrder lt) (n : Nat)
    (net : List (Nat × Nat)) (hnet : NetBelow n net) (hb : SortsBools n net) :
    SortsFront lt n (fun a => __sorting_network.applySwaps (cswap lt) a net) := by
  intro a hn
  refine ⟨__sorting_network.applySwaps (cswap lt) (a.take n) net, ?_, ?_, ?_⟩
  · have := applySwaps_cswap_append lt n net (a.take n) (a.drop n) hnet
      (by rw [List.length_take]; omega)
    rw [List.take_append_drop] at this
    exact this
  · exact applySwaps_cswap_perm lt n net _ hnet (by rw [List.length_take]; omega)
  · exact sortedBy_of_sortsBools h n net hnet hb _ (by rw [List.length_take]; omega)

set_option maxRecDepth 100000 in
theorem sortsBools_2 : SortsBools 2 [(0, 1)] := by decide

set_option maxRecDepth 100000 in
theorem sortsBools_3 : SortsBools 3 [(1, 2), (0, 1), (1, 2)] := by decide

set_option maxRecDepth 100000 in
theorem sortsBools_4 : SortsBools 4 [(0, 1), (2, 3), (0, 2), (1, 3), (1, 2)] := by decide

set_option maxRecDepth 100000 in
theorem sortsBools_5 :
    SortsBools 5 [(0, 1), (3, 4), (2, 3), (3, 4), (0, 3), (1, 4), (0, 2), (1, 3), (1, 2)] := by
  decide

set_option maxRecDepth 100000 in
theorem sortsBools_6 :
    SortsBools 6 [(1, 2), (4, 5), (0, 1), (3, 4), (1, 2), (4, 5), (0, 3), (1, 4),
      (2, 5), (2, 4), (1, 3), (2, 3)] := by
  decide

set_option maxRecDepth 100000 in
theorem sortsBools_7 :
    SortsBools 7 [(1, 2), (3, 4), (5, 6), (0, 1), (3, 5), (4, 6), (1, 2), (4, 5),
      (0, 4), (1, 5), (2, 6), (0, 3), (2, 5), (1, 3), (2, 4), (2, 3)] := by
  decide

set_option maxRecDepth 100000 in
theorem sortsBools_8 :
    SortsBools 8 [(0, 1), (2, 3), (4, 5), (6, 7), (0, 2), (1, 3), (4, 6), (5, 7),
      (1, 2), (5, 6), (0, 4), (1, 5), (2, 6), (3, 7), (1, 4), (3, 6), (2, 4), (3, 5),
      (3, 4)] := by
  decide

theorem isCondSwap_conditional_swap (trivially : Bool) (comp : α → α → Bool) :
    IsCondSwap comp (__sorting_network.__conditional_swap trivially comp) :=
  fun a x y hx hy => conditional_swap_eq trivially comp a x y hx hy

theorem isCondSwap_reverse_conditional_swap (trivially : Bool) (comp : α → α → Bool) :
    IsCondSwap (flipComp comp) (__sorting_network.__reverse_conditional_swap trivially comp) :=
  fun a x y hx hy => reverse_conditional_swap_eq trivially comp a x y hx hy

theorem sortsFront_net {lt : α → α → Bool} (h : StrictWeakOrder lt)
    {cs : List α → Nat → Nat → List α} (hcs : IsCondSwap lt cs) (n : Nat)
    (net : List (Nat × Nat)) (hnet : NetBelow n net) (hb : SortsBools n net) :
    SortsFront lt n (fun a => __sorting_network.applySwaps cs a net) := by
  intro a hn
  have := sortsFront_applySwaps h n net hnet hb a hn
  simp only at this ⊢
  rw [applySwaps_congr cs (cswap lt) n (length_cswap lt) hcs net a hnet hn]
  exact this

theorem sortsFront_sort2 {lt : α → α → Bool} (h : StrictWeakOrder lt)
    {cs : List α → Nat → Nat → List α} (hcs : IsCondSwap lt cs) :
    SortsFront lt 2 (__sorting_network.__sort2 cs) :=
  sortsFront_net h hcs 2 _ (by decide) sortsBools_2

theorem sortsFront_sort3 {lt : α → α → Bool} (h : StrictWeakOrder lt)
    {cs : List α → Nat → Nat → List α} (hcs : IsCondSwap lt cs) :
    SortsFront lt 3 (__sorting_network.__sort3 cs) :=
  sortsFront_net h hcs 3 _ (by decide) sortsBools_3

theorem sortsFront_sort4 {lt : α → α → Bool} (h : StrictWeakOrder lt)
    {cs : List α → Nat → Nat → List α} (hcs : IsCondSwap lt cs) :
    SortsFront lt 4 (__sorting_network.__sort4 cs) :=
  sortsFront_net h hcs 4 _ (by decide) sortsBools_4

theorem sortsFront_sort5 {lt : α → α → Bool} (h : StrictWeakOrder lt)
    {cs : List α → Nat → Nat → List α} (hcs : IsCondSwap lt cs) :
    SortsFront lt 5 (__sorting_network.__sort5 cs) :=
  sortsFront_net h hcs 5 _ (by decide) sortsBools_5

theorem sortsFront_sort6 {lt : α → α → Bool} (h : StrictWeakOrder lt)
    {cs : List α → Nat → Nat → List α} (hcs : IsCondSwap lt cs) :
    SortsFront lt 6 (__sorting_network.__sort6 cs) :=
  sortsFront_net h hcs 6 _ (by decide) sortsBools_6

theorem sortsFront_sort7 {lt : α → α → Bool} (h : StrictWeakOrder lt)
    {cs : List α → Nat → Nat → List α} (hcs : IsCondSwap lt cs) :
    SortsFront lt 7 (__sorting_network.__sort7 cs) :=
  sortsFront_net h hcs 7 _ (by decide) sortsBools_7

theorem sortsFront_sort8 {lt : α → α → Bool} (h : StrictWeakOrder lt)
    {cs : List α → Nat → Nat → List α} (hcs : IsCondSwap lt cs) :
    SortsFront lt 8 (__sorting_network.__sort8 cs) :=
  sortsFront_net h hcs 8 _ (by decide) sortsBools_8

theorem sortedBy_of_length_le_one (lt : α → α → Bool) (a : List α) (h : a.length ≤ 1) :
    SortedBy lt a := by
  intro i j hij hj
  omega

theorem sortsFront_whole {lt : α → α → Bool} {n : Nat} {f : List α → List α}
    (hf : SortsFront lt n f) (a : List α) (hn : a.length = n) :
    (f a).Perm a ∧ SortedBy lt (f a) := by
  obtain ⟨s, h1, h2, h3⟩ := hf a (by omega)
  rw [List.drop_of_length_le (by omega), List.append_nil] at h1
  rw [List.take_of_length_le (by omega)] at h2
  rw [h1]
  exact ⟨h2, h3⟩

/-- The function `__sort1to8` sorts a range of at most eight values. -/
theorem sort1to8_sorts {lt : α → α → Bool} (h : StrictWeakOrder lt)
    {cs : List α → Nat → Nat → List α} (hcs : IsCondSwap lt cs) (a : List α)
    (hlen : a.length ≤ 8) :
    (__sorting_network.__sort1to8 cs a (a.length : Int)).Perm a
      ∧ SortedBy lt (__sorting_network.__sort1to8 cs a (a.length : Int)) := by
  unfold __sorting_network.__sort1to8
  have h8 : a.length = 0 ∨ a.length = 1 ∨ a.length = 2 ∨ a.length = 3 ∨ a.length = 4
      ∨ a.length = 5 ∨ a.length = 6 ∨ a.length = 7 ∨ a.length = 8 := by omega
  rcases h8 with h0 | h0 | h0 | h0 | h0 | h0 | h0 | h0 | h0 <;> rw [h0] <;> norm_num
  · exact sortedBy_of_length_le_one lt a (by omega)
  · exact sortedBy_of_length_le_one lt a (by omega)
  · exact sortsFront_whole (sortsFront_sort2 h hcs) a h0
  · exact sortsFront_whole (sortsFront_sort3 h hcs) a h0
  · exact sortsFront_whole (sortsFront_sort4 h hcs) a h0
  · exact sortsFront_whole (sortsFront_sort5 h hcs) a h0
  · exact sortsFront_whole (sortsFront_sort6 h hcs) a h0
  · exact sortsFront_whole (sortsFront_sort7 h hcs) a h0
  · exact sortsFront_whole (sortsFront_sort8 h hcs) a h0

/-- The three-iterator `__sort3` permutes the range and keeps its length. -/
theorem sort3_at_perm {lt : α → α → Bool} {cs : List α → Nat → Nat → List α}
    (hcs : IsCondSwap lt cs) (a : List α) (a0 a1 a2 : Nat) (h0 : a0 < a.length)
    (h1 : a1 < a.length) (h2 : a2 < a.length) :
    (__sorting_network.__sort3_at cs a a0 a1 a2).Perm a := by
  unfold __sorting_network.__sort3_at
  have e1 := hcs a a1 a2 h1 h2
  have l1 : (cs a a1 a2).length = a.length := by rw [e1, length_cswap]
  have e2 := hcs (cs a a1 a2) a0 a2 (by omega) (by omega)
  have l2 : (cs (cs a a1 a2) a0 a2).length = a.length := by rw [e2, length_cswap, l1]
  have e3 := hcs (cs (cs a a1 a2) a0 a2) a0 a1 (by omega) (by omega)
  rw [e3]
  refine (cswap_perm lt _ a0 a1 (by omega) (by omega)).trans ?_
  rw [e2]
  refine (cswap_perm lt _ a0 a2 (by omega) (by omega)).trans ?_
  rw [e1]
  exact cswap_perm lt _ a1 a2 h1 h2

/-! ## The merges of a bitonic run -/

theorem noValley_append {lt : α → α → Bool} {A D : List α} (hA : SortedBy lt A)
    (hD : SortedBy (flipComp lt) D) : NoValley lt (A ++ D) := by
  intro i j k hij hjk hk
  rintro ⟨h1, h2⟩
  by_cases hj : j < A.length
  · rw [rd_append_left _ _ j hj, rd_append_left _ _ i (by omega)] at h1
    have := hA i j hij hj
    rw [this] at h1
    exact Bool.false_ne_true h1
  · rw [rd_append_right _ _ j (by omega), rd_append_right _ _ k (by omega)] at h2
    rw [List.length_append] at hk
    have := hD (j - A.length) (k - A.length) (by omega) (by omega)
    unfold flipComp at this
    rw [this] at h2
    exact Bool.false_ne_true h2

theorem noValley_of_sortedBy {lt : α → α → Bool} {A : List α} (hA : SortedBy lt A) :
    NoValley lt A := by
  have := noValley_append (D := []) hA (fun i j _ hj => by simp at hj)
  simpa using this

theorem noValley_nil (lt : α → α → Bool) : NoValley lt ([] : List α) := by
  intro i j k _ _ hk
  simp at hk

theorem drop_take_succ (src : List α) (first n : Nat) (h : first < src.length) :
    (src.drop first).take (n + 1) = rd src first :: (src.drop (first + 1)).take n := by
  rw [List.drop_eq_getElem_cons h, List.take_succ_cons, rd_eq_getElem src first h]

theorem drop_take_succ_right (src : List α) (first n : Nat) (h : first + n < src.length) :
    (src.drop first).take (n + 1) = (src.drop first).take n ++ [rd src (first + n)] := by
  rw [List.take_succ]
  congr 1
  have : n < (src.drop first).length := by rw [List.length_drop]; omega
  rw [List.getElem?_eq_getElem this, rd_eq_getElem src _ h]
  simp

theorem mem_drop_take {src : List α} {first n : Nat} {y : α}
    (h : y ∈ (src.drop first).take n) :
    ∃ j, first ≤ j ∧ j < first + n ∧ j < src.length ∧ rd src j = y := by
  obtain ⟨i, hi, rfl⟩ := exists_rd_of_mem h
  rw [List.length_take, List.length_drop] at hi
  refine ⟨first + i, by omega, by omega, by omega, ?_⟩
  rw [rd_take _ _ _ (by omega), rd_drop]

theorem forward_merge_loop_out (comp : α → α → Bool) (src : List α) :
    ∀ (len first last : Nat) (out : List α),
      __bitonic.forward_merge_loop comp src len first last out
        = out ++ __bitonic.forward_merge_loop comp src len first last [] := by
  intro len
  induction len with
  | zero => intro first last out; simp [__bitonic.forward_merge_loop]
  | succ len ih =>
    intro first last out
    simp only [__bitonic.forward_merge_loop]
    split_ifs
    · rw [ih _ _ (out ++ _), ih _ _ ([] ++ _)]; simp
    · rw [ih _ _ (out ++ _), ih _ _ ([] ++ _)]; simp

theorem backward_merge_loop_out (comp : α → α → Bool) (src : List α) :
    ∀ (len first last : Nat) (out : List α),
      __bitonic.backward_merge_loop comp src len first last out
        = __bitonic.backward_merge_loop comp src len first last [] ++ out := by
  intro len
  induction len with
  | zero => intro first last out; simp [__bitonic.backward_merge_loop]
  | succ len ih =>
    intro first last out
    simp only [__bitonic.backward_merge_loop]
    split_ifs
    · rw [ih _ _ (_ :: out), ih _ _ [_]]; simp
    · rw [ih _ _ (_ :: out), ih _ _ [_]]; simp

theorem forward_merge_loop_spec {comp : α → α → Bool} (h : StrictWeakOrder comp)
    (src : List α) (hv : NoValley comp src) :
    ∀ (len first : Nat), first + len < src.length →
      (__bitonic.forward_merge_loop comp src len first (first + len) []).Perm
          ((src.drop first).take (len + 1))
        ∧ (__bitonic.forward_merge_loop comp src len first (first + len) []).Pairwise
          (fun x y => comp y x = false) := by
  intro len
  induction len with
  | zero =>
    intro first hf
    simp only [__bitonic.forward_merge_loop, List.nil_append]
    rw [drop_take_succ src first 0 (by omega)]
    simp
  | succ len ih =>
    intro first hf
    simp only [__bitonic.forward_merge_loop, List.nil_append]
    by_cases hc : comp (rd src (first + (len + 1))) (rd src first) = true
    · rw [if_pos hc, forward_merge_loop_out]
      have e : first + (len + 1) - 1 = first + len := by omega
      rw [e]
      obtain ⟨ih1, ih2⟩ := ih first (by omega)
      constructor
      · rw [drop_take_succ_right src first (len + 1) hf]
        exact (List.perm_append_comm).trans (List.Perm.append_right _ ih1)
      · rw [List.singleton_append, List.pairwise_cons]
        refine ⟨?_, ih2⟩
        intro y hy
        obtain ⟨j, hj1, hj2, hj3, rfl⟩ := mem_drop_take (ih1.subset hy)
        by_cases hjf : j = first
        · subst hjf
          exact h.asymm _ _ hc
        · cases hlt : comp (rd src j) (rd src (first + (len + 1))) with
          | false => rfl
          | true =>
            exfalso
            exact hv first j (first + (len + 1)) (by omega) (by omega) hf
              ⟨h.trans _ _ _ hlt hc, hlt⟩
    · rw [if_neg hc, forward_merge_loop_out]
      have hc2 : comp (rd src (first + (len + 1))) (rd src first) = false := by
        simpa using hc
      have e : first + (len + 1) = first + 1 + len := by omega
      obtain ⟨ih1, ih2⟩ := ih (first + 1) (by omega)
      rw [e]
      constructor
      · rw [drop_take_succ src first (len + 1) (by omega)]
        exact List.Perm.cons _ ih1
      · rw [List.singleton_append, List.pairwise_cons]
        refine ⟨?_, ih2⟩
        intro y hy
        obtain ⟨j, hj1, hj2, hj3, rfl⟩ := mem_drop_take (ih1.subset hy)
        by_cases hjl : j = first + 1 + len
        · subst hjl
          rw [← e]; exact hc2
        · cases hlt : comp (rd src j) (rd src first) with
          | false => rfl
          | true =>
            exfalso
            exact hv first j (first + (len + 1)) (by omega) (by omega) hf
              ⟨hlt, h.lt_of_lt_of_le _ _ _ hlt hc2⟩

theorem backward_merge_loop_spec {comp : α → α → Bool} (h : StrictWeakOrder comp)
    (src : List α) (hv : NoValley comp src) :
    ∀ (len first : Nat), first + len < src.length →
      (__bitonic.backward_merge_loop comp src len first (first + len) []).Perm
          ((src.drop first).take (len + 1))
        ∧ (__bitonic.backward_merge_loop comp src len first (first + len) []).Pairwise
          (fun x y => comp x y = false) := by
  intro len
  induction len with
  | zero =>
    intro first hf
    simp only [__bitonic.backward_merge_loop]
    rw [drop_take_succ src first 0 (by omega)]
    simp
  | succ len ih =>
    intro first hf
    simp only [__bitonic.backward_merge_loop]
    by_cases hc : comp (rd src first) (rd src (first + (len + 1))) = true
    · rw [if_pos hc, backward_merge_loop_out]
      have e : first + (len + 1) = first + 1 + len := by omega
      obtain ⟨ih1, ih2⟩ := ih (first + 1) (by omega)
      rw [e]
      constructor
      · rw [drop_take_succ src first (len + 1) (by omega)]
        exact (List.perm_append_comm).trans (List.Perm.cons _ ih1)
      · rw [List.pairwise_append]
        refine ⟨ih2, List.pairwise_singleton _ _, ?_⟩
        intro y hy z hz
        rw [List.mem_singleton] at hz
        subst hz
        obtain ⟨j, hj1, hj2, hj3, rfl⟩ := mem_drop_take (ih1.subset hy)
        by_cases hjl : j = first + 1 + len
        · subst hjl
          rw [← e]; exact h.asymm _ _ hc
        · cases hlt : comp (rd src j) (rd src first) with
          | false => rfl
          | true =>
            exfalso
            exact hv first j (first + (len + 1)) (by omega) (by omega) hf
              ⟨hlt, h.trans _ _ _ hlt hc⟩
    · rw [if_neg hc, backward_merge_loop_out]
      have hc2 : comp (rd src first) (rd src (first + (len + 1))) = false := by
        simpa using hc
      have e : first + (len + 1) - 1 = first + len := by omega
      rw [e]
      obtain ⟨ih1, ih2⟩ := ih first (by omega)
      constructor
      · rw [drop_take_succ_right src first (len + 1) hf]
        exact List.Perm.append_right _ ih1
      · rw [List.pairwise_append]
        refine ⟨ih2, List.pairwise_singleton _ _, ?_⟩
        intro y hy z hz
        rw [List.mem_singleton] at hz
        subst hz
        obtain ⟨j, hj1, hj2, hj3, rfl⟩ := mem_drop_take (ih1.subset hy)
        by_cases hjf : j = first
        · subst hjf
          exact hc2
        · cases hlt : comp (rd src j) (rd src (first + (len + 1))) with
          | false => rfl
          | true =>
            exfalso
            exact hv first j (first + (len + 1)) (by omega) (by omega) hf
              ⟨h.lt_of_lt_of_le _ _ _ hlt hc2, hlt⟩

/-- The function `__forward_merge` turns a non-empty range that rises and then falls into
a sorted permutation of it. -/
theorem forward_merge_sorts {comp : α → α → Bool} (h : StrictWeakOrder comp) (src : List α)
    (hv : NoValley comp src) (hne : 0 < src.length) :
    (__bitonic.__forward_merge comp src).Perm src
      ∧ SortedBy comp (__bitonic.__forward_merge comp src) := by
  unfold __bitonic.__forward_merge
  have := forward_merge_loop_spec h src hv (src.length - 1) 0 (by omega)
  rw [Nat.zero_add, List.drop_zero, List.take_of_length_le (by omega)] at this
  exact ⟨this.1, (sortedBy_iff_pairwise _ _).2 this.2⟩

/-- The function `__backward_merge` turns a non-empty range that rises and then falls into
a permutation of it in descending order. -/
theorem backward_merge_sorts {comp : α → α → Bool} (h : StrictWeakOrder comp) (src : List α)
    (hv : NoValley comp src) (hne : 0 < src.length) :
    (__bitonic.__backward_merge comp src).Perm src
      ∧ SortedBy (flipComp comp) (__bitonic.__backward_merge comp src) := by
  unfold __bitonic.__backward_merge
  have := backward_merge_loop_spec h src hv (src.length - 1) 0 (by omega)
  rw [Nat.zero_add, List.drop_zero, List.take_of_length_le (by omega)] at this
  exact ⟨this.1, (sortedBy_iff_pairwise _ _).2 this.2⟩

/-! ## The function `__enforce_order` -/

theorem onSuffix_append (f : List α → List α) (p s : List α) (n : Nat) (hn : p.length = n) :
    onSuffix n f (p ++ s) = p ++ f s := by
  unfold onSuffix
  subst hn
  rw [List.take_left, List.drop_left]

theorem onSuffix_zero (f : List α → List α) (a : List α) : onSuffix 0 f a = f a := by
  simp [onSuffix]

/-- The two networks on a block of at least eight values: eight values rising, then
the values after them falling. -/
theorem rise_fall {lt : α → α → Bool} (h : StrictWeakOrder lt)
    {cs rcs : List α → Nat → Nat → List α} (hcs : IsCondSwap lt cs)
    (hrcs : IsCondSwap (flipComp lt) rcs) (s : List α) (h8 : 8 ≤ s.length)
    (h16 : s.length ≤ 16) :
    (onSuffix 8 (fun u => __sorting_network.__sort1to8 rcs u (u.length : Int))
        (__sorting_network.__sort8 cs s)).Perm s
      ∧ NoValley lt (onSuffix 8 (fun u => __sorting_network.__sort1to8 rcs u (u.length : Int))
        (__sorting_network.__sort8 cs s))
      ∧ (s.length ≤ 8 → SortedBy lt (onSuffix 8
        (fun u => __sorting_network.__sort1to8 rcs u (u.length : Int))
        (__sorting_network.__sort8 cs s))) := by
  obtain ⟨A, hA1, hA2, hA3⟩ := sortsFront_sort8 h hcs s h8
  have hAl : A.length = 8 := by
    have := hA2.length_eq
    rw [List.length_take] at this
    omega
  rw [hA1, onSuffix_append _ A _ 8 hAl]
  have hD := sort1to8_sorts (flipComp_strictWeakOrder h) hrcs (s.drop 8)
    (by rw [List.length_drop]; omega)
  refine ⟨?_, noValley_append hA3 hD.2, ?_⟩
  · have := List.Perm.append hA2 hD.1
    rwa [List.take_append_drop] at this
  · intro hs
    have hnil : s.drop 8 = [] := List.drop_of_length_le hs
    rw [hnil]
    have : __sorting_network.__sort1to8 rcs ([] : List α) (([] : List α).length : Int) = [] := by
      simp [__sorting_network.__sort1to8]
    rw [this, List.append_nil]
    exact hA3

/-- The two networks on a block of sixteen values at the front of a longer range. -/
theorem rise_fall_front {lt : α → α → Bool} (h : StrictWeakOrder lt)
    {cs rcs : List α → Nat → Nat → List α} (hcs : IsCondSwap lt cs)
    (hrcs : IsCondSwap (flipComp lt) rcs) (a : List α) (h16 : 16 ≤ a.length) :
    ∃ X : List α, onSuffix 8 (__sorting_network.__sort8 rcs) (__sorting_network.__sort8 cs a)
        = X ++ a.drop 16
      ∧ X.length = 16 ∧ X.Perm (a.take 16) ∧ NoValley lt X := by
  obtain ⟨A, hA1, hA2, hA3⟩ := sortsFront_sort8 h hcs a (by omega)
  have hAl : A.length = 8 := by
    have := hA2.length_eq
    rw [List.length_take] at this
    omega
  obtain ⟨D, hD1, hD2, hD3⟩ := sortsFront_sort8 (flipComp_strictWeakOrder h) hrcs (a.drop 8)
    (by rw [List.length_drop]; omega)
  have hDl : D.length = 8 := by
    have := hD2.length_eq
    rw [List.length_take, List.length_drop] at this
    omega
  refine ⟨A ++ D, ?_, by simp [hAl, hDl], ?_, noValley_append hA3 hD3⟩
  · rw [hA1, onSuffix_append _ A _ 8 hAl, hD1, List.drop_drop, List.append_assoc]
  · have e : a.take 16 = a.take 8 ++ (a.drop 8).take 8 := by
      rw [← List.take_append_drop 8 (a.take 16), List.take_take, List.drop_take]
      norm_num
    rw [e]
    exact List.Perm.append hA2 hD2

theorem enforce_rest_spec {lt : α → α → Bool} (h : StrictWeakOrder lt)
    {cs rcs : List α → Nat → Nat → List α} (hcs : IsCondSwap lt cs)
    (hrcs : IsCondSwap (flipComp lt) rcs) (s : List α) (h16 : s.length < 16) :
    (enforce_rest cs rcs s).Perm s ∧ NoValley lt (enforce_rest cs rcs s)
      ∧ (s.length ≤ 8 → SortedBy lt (enforce_rest cs rcs s)) := by
  unfold enforce_rest
  have hb : __bitonic.__batch = 8 := rfl
  rw [hb]
  by_cases h8 : 8 ≤ s.length
  · rw [if_pos h8]
    exact rise_fall h hcs hrcs s h8 (by omega)
  · rw [if_neg h8]
    have := sort1to8_sorts h hcs s (by omega)
    exact ⟨this.1, noValley_of_sortedBy this.2, fun _ => this.2⟩

theorem bitonic16_of_short {lt : α → α → Bool} {e : List α} (hv : NoValley lt e)
    (hl : e.length ≤ 16) : Bitonic16 lt e := by
  intro k
  cases k with
  | zero =>
    rw [Nat.mul_zero, List.drop_zero, List.take_of_length_le hl]
    exact hv
  | succ k =>
    rw [List.drop_of_length_le (by omega), List.take_nil]
    exact noValley_nil lt

theorem bitonic16_append {lt : α → α → Bool} {X e : List α} (hX : NoValley lt X)
    (hl : X.length = 16) (he : Bitonic16 lt e) : Bitonic16 lt (X ++ e) := by
  intro k
  cases k with
  | zero =>
    rw [Nat.mul_zero, List.drop_zero]
    have : (X ++ e).take 16 = X := by rw [← hl, List.take_left]
    rw [this]
    exact hX
  | succ k =>
    have : (X ++ e).drop (16 * (k + 1)) = e.drop (16 * k) := by
      have e1 : 16 * (k + 1) = X.length + 16 * k := by omega
      rw [e1, List.drop_append]
    rw [this]
    exact he k

theorem enforce_order_loop_spec {lt : α → α → Bool} (h : StrictWeakOrder lt)
    {cs rcs : List α → Nat → Nat → List α} (hcs : IsCondSwap lt cs)
    (hrcs : IsCondSwap (flipComp lt) rcs) :
    ∀ (fuel : Nat) (a : List α), a.length ≤ fuel →
      (onSuffix (__bitonic.enforce_order_loop cs rcs fuel a).2 (enforce_rest cs rcs)
          (__bitonic.enforce_order_loop cs rcs fuel a).1).Perm a
        ∧ Bitonic16 lt (onSuffix (__bitonic.enforce_order_loop cs rcs fuel a).2
          (enforce_rest cs rcs) (__bitonic.enforce_order_loop cs rcs fuel a).1)
        ∧ (a.length ≤ 8 → SortedBy lt (onSuffix (__bitonic.enforce_order_loop cs rcs fuel a).2
          (enforce_rest cs rcs) (__bitonic.enforce_order_loop cs rcs fuel a).1)) := by
  intro fuel
  induction fuel with
  | zero =>
    intro a ha
    simp only [__bitonic.enforce_order_loop, onSuffix_zero]
    have := enforce_rest_spec h hcs hrcs a (by omega)
    exact ⟨this.1, bitonic16_of_short this.2.1 (by rw [this.1.length_eq]; omega), this.2.2⟩
  | succ fuel ih =>
    intro a ha
    have hbb : __bitonic.__bitonic_batch = 16 := rfl
    have hb : __bitonic.__batch = 8 := rfl
    simp only [__bitonic.enforce_order_loop, hbb, hb]
    by_cases h16 : 16 ≤ a.length
    · rw [if_pos h16]
      obtain ⟨X, hX1, hX2, hX3, hX4⟩ := rise_fall_front h hcs hrcs a h16
      simp only [hX1]
      have e1 : (X ++ a.drop 16).take 16 = X := by rw [← hX2, List.take_left]
      have e2 : (X ++ a.drop 16).drop 16 = a.drop 16 := by rw [← hX2, List.drop_left]
      rw [e1, e2]
      obtain ⟨i1, i2, _⟩ := ih (a.drop 16) (by rw [List.length_drop]; omega)
      have e3 : onSuffix (16 + (__bitonic.enforce_order_loop cs rcs fuel (a.drop 16)).2)
          (enforce_rest cs rcs)
          (X ++ (__bitonic.enforce_order_loop cs rcs fuel (a.drop 16)).1)
          = X ++ onSuffix (__bitonic.enforce_order_loop cs rcs fuel (a.drop 16)).2
            (enforce_rest cs rcs) (__bitonic.enforce_order_loop cs rcs fuel (a.drop 16)).1 := by
        unfold onSuffix
        rw [← hX2, List.take_append, List.drop_append, List.append_assoc]
      rw [e3]
      refine ⟨?_, bitonic16_append hX4 hX2 i2, fun h8 => by omega⟩
      have := List.Perm.append hX3 i1
      rwa [List.take_append_drop] at this
    · rw [if_neg h16]
      simp only [onSuffix_zero]
      have := enforce_rest_spec h hcs hrcs a (by omega)
      exact ⟨this.1, bitonic16_of_short this.2.1 (by rw [this.1.length_eq]; omega), this.2.2⟩

/-- The function `__enforce_order` leaves a permutation of the range in blocks of sixteen
values that rise and then fall; a range of at most eight values is sorted. -/
theorem enforce_order_spec {lt : α → α → Bool} (h : StrictWeakOrder lt)
    {cs rcs : List α → Nat → Nat → List α} (hcs : IsCondSwap lt cs)
    (hrcs : IsCondSwap (flipComp lt) rcs) (a : List α) :
    (__bitonic.__enforce_order cs rcs a).Perm a
      ∧ Bitonic16 lt (__bitonic.__enforce_order cs rcs a)
      ∧ (a.length ≤ 8 → SortedBy lt (__bitonic.__enforce_order cs rcs a)) :=
  enforce_order_loop_spec h hcs hrcs a.length a (Nat.le_refl _)

/-! ## The function `__small_sort` -/

theorem small_sort_of_long (trivially : Bool) (comp : α → α → Bool) (a : List α)
    (h : 32 < a.length) : __bitonic.__small_sort trivially comp a = (false, a) := by
  unfold __bitonic.__small_sort
  have : __bitonic.__small_sort_max = 32 := rfl
  simp only [this]
  rw [if_pos h]

/-- The function `__small_sort` sorts a range of at most thirty-two values. -/
theorem small_sort_sorts (trivially : Bool) {comp : α → α → Bool} (h : StrictWeakOrder comp)
    (a : List α) (hlen : a.length ≤ 32) :
    (__bitonic.__small_sort trivially comp a).1 = true
      ∧ (__bitonic.__small_sort trivially comp a).2.Perm a
      ∧ SortedBy comp (__bitonic.__small_sort trivially comp a).2 := by
  unfold __bitonic.__small_sort
  have hm : __bitonic.__small_sort_max = 32 := rfl
  have hbb : __bitonic.__bitonic_batch = 16 := rfl
  have hb : __bitonic.__batch = 8 := rfl
  simp only [hm, hbb, hb]
  rw [if_neg (by omega)]
  obtain ⟨e1, e2, e3⟩ := enforce_order_spec h (isCondSwap_conditional_swap trivially comp)
    (isCondSwap_reverse_conditional_swap trivially comp) a
  have el := e1.length_eq
  by_cases h8 : a.length ≤ 8
  · rw [if_pos h8]
    exact ⟨rfl, e1, e3 h8⟩
  · rw [if_neg h8]
    by_cases h16 : a.length ≤ 16
    · rw [if_pos h16]
      have hv := e2 0
      rw [Nat.mul_zero, List.drop_zero, List.take_of_length_le (by omega)] at hv
      have := forward_merge_sorts h _ hv (by omega)
      exact ⟨rfl, this.1.trans e1, this.2⟩
    · rw [if_neg h16]
      have hv0 := e2 0
      rw [Nat.mul_zero, List.drop_zero] at hv0
      have hv1 := e2 1
      rw [Nat.mul_one, List.take_of_length_le (by rw [List.length_drop]; omega)] at hv1
      have f1 := forward_merge_sorts h _ hv0 (by rw [List.length_take]; omega)
      have f2 := backward_merge_sorts h _ hv1 (by rw [List.length_drop]; omega)
      have hv := noValley_append f1.2 f2.2
      have f3 := forward_merge_sorts h _ hv (by
        rw [List.length_append, f1.1.length_eq, List.length_take]; omega)
      refine ⟨rfl, ?_, f3.2⟩
      refine f3.1.trans (((List.Perm.append f1.1 f2.1).trans ?_).trans e1)
      rw [List.take_append_drop]

/-! ## The function `__partial_insertion_sort` -/

theorem sortedBy_iff_sortedPrefix (comp : α → α → Bool) (a : List α) :
    SortedBy comp a ↔ SortedPrefix comp a a.length := Iff.rfl

theorem set_set_eq_iter_swap (a : List α) (j k : Nat) (t : α) (hj : j < a.length)
    (hk : k < a.length) (hjk : k ≠ j) :
    (a.set j (rd a k)).set k t = iter_swap (a.set j t) j k := by
  unfold iter_swap
  rw [rd_set_of_ne a j k t (Ne.symm hjk), rd_set_self a j t hj, List.set_set]

theorem insertInv_step {comp : α → α → Bool} (t : α) (b : List α) (j i : Nat)
    (hj : 1 ≤ j) (hji : j ≤ i) (hi : i < b.length) (hinv : InsertInv comp t b j i)
    (hc : comp t (rd b (j - 1)) = true) :
    InsertInv comp t (iter_swap b j (j - 1)) (j - 1) i := by
  obtain ⟨h1, h2, h3⟩ := hinv
  have rj : rd (iter_swap b j (j - 1)) j = rd b (j - 1) :=
    rd_iter_swap_left b j (j - 1) (by omega) (by omega)
  have rk : rd (iter_swap b j (j - 1)) (j - 1) = rd b j :=
    rd_iter_swap_right b j (j - 1) (by omega)
  have ro : ∀ m, m ≠ j → m ≠ j - 1 → rd (iter_swap b j (j - 1)) m = rd b m :=
    fun m m1 m2 => rd_iter_swap_of_ne b j (j - 1) m m1 m2
  refine ⟨by rw [rk, h1], ?_, ?_⟩
  · intro p q hpq hq hp1 hq1
    by_cases hqj : q = j
    · subst hqj
      rw [rj, ro p (by omega) hp1]
      exact h2 p (q - 1) (by omega) (by omega) (by omega) (by omega)
    · by_cases hpj : p = j
      · subst hpj
        rw [rj, ro q hqj hq1]
        exact h2 (p - 1) q (by omega) hq (by omega) hqj
      · rw [ro q hqj hq1, ro p hpj hp1]
        exact h2 p q hpq hq hpj hqj
  · intro q hq1 hq2
    by_cases hqj : q = j
    · subst hqj
      rw [rj]; exact hc
    · rw [ro q hqj (by omega)]
      exact h3 q (by omega) hq2

theorem insertInv_done {comp : α → α → Bool} (h : StrictWeakOrder comp) (t : α) (b : List α)
    (j i : Nat) (hji : j ≤ i) (hinv : InsertInv comp t b j i)
    (hstop : j = 0 ∨ comp t (rd b (j - 1)) = false) : SortedPrefix comp b (i + 1) := by
  obtain ⟨h1, h2, h3⟩ := hinv
  intro p q hpq hq
  by_cases hpj : p = j
  · subst hpj
    rw [h1]
    exact h.asymm _ _ (h3 q hpq (by omega))
  · by_cases hqj : q = j
    · subst hqj
      rw [h1]
      rcases hstop with h0 | h0
      · omega
      · by_cases hp1 : p = q - 1
        · subst hp1; exact h0
        · have := h2 p (q - 1) (by omega) (by omega) hpj (by omega)
          exact h.le_trans _ _ _ this h0
    · exact h2 p q hpq (by omega) hpj hqj

theorem shift_loop_spec {comp : α → α → Bool} (h : StrictWeakOrder comp) (t : α) (i : Nat) :
    ∀ (fuel : Nat) (a : List α) (j : Nat), 1 ≤ j → j ≤ i → i < a.length → j ≤ fuel →
      InsertInv comp t (a.set j t) j i → comp t (rd a (j - 1)) = true →
      (((__bitsetsort.shift_loop comp t fuel a j (j - 1)).1.set
          (__bitsetsort.shift_loop comp t fuel a j (j - 1)).2 t).Perm (a.set j t)
        ∧ SortedPrefix comp ((__bitsetsort.shift_loop comp t fuel a j (j - 1)).1.set
          (__bitsetsort.shift_loop comp t fuel a j (j - 1)).2 t) (i + 1)) := by
  intro fuel
  induction fuel with
  | zero => intro a j hj _ _ hf; omega
  | succ fuel ih =>
    intro a j hj hji hi hf hinv hc
    have hc2 : comp t (rd (a.set j t) (j - 1)) = true := by
      rw [rd_set_of_ne _ _ _ _ (by omega)]; exact hc
    have hstep := insertInv_step t (a.set j t) j i hj hji (by simpa using hi) hinv hc2
    have e := set_set_eq_iter_swap a j (j - 1) t (by omega) (by omega) (by omega)
    rw [← e] at hstep
    have hperm : ((a.set j (rd a (j - 1))).set (j - 1) t).Perm (a.set j t) := by
      rw [e]
      exact iter_swap_perm _ _ _ (by simp; omega) (by simp; omega)
    simp only [__bitsetsort.shift_loop]
    by_cases hgo : j - 1 ≠ 0 ∧ comp t (rd (a.set j (rd a (j - 1))) (j - 1 - 1)) = true
    · rw [if_pos hgo]
      have := ih (a.set j (rd a (j - 1))) (j - 1) (by omega) (by omega)
        (by simpa using hi) (by omega) hstep hgo.2
      exact ⟨this.1.trans hperm, this.2⟩
    · rw [if_neg hgo]
      refine ⟨hperm, insertInv_done h t _ (j - 1) i (by omega) hstep ?_⟩
      by_cases h0 : j - 1 = 0
      · exact Or.inl h0
      · right
        rw [rd_set_of_ne _ _ _ _ (by omega)]
        have : ¬ comp t (rd (a.set j (rd a (j - 1))) (j - 1 - 1)) = true :=
          fun hh => hgo ⟨h0, hh⟩
        simpa using this

theorem sortedPrefix_succ {comp : α → α → Bool} (h : StrictWeakOrder comp) (a : List α)
    (i : Nat) (hi : 1 ≤ i) (hs : SortedPrefix comp a i)
    (hc : comp (rd a i) (rd a (i - 1)) = false) : SortedPrefix comp a (i + 1) := by
  intro p q hpq hq
  by_cases hqi : q = i
  · subst hqi
    by_cases hp : p = q - 1
    · subst hp; exact hc
    · have := hs p (q - 1) (by omega) (by omega)
      exact h.le_trans _ _ _ this hc
  · exact hs p q hpq (by omega)

theorem insertion_loop_spec {comp : α → α → Bool} (h : StrictWeakOrder comp) :
    ∀ (fuel : Nat) (a : List α) (i count : Nat), 1 ≤ i → i ≤ a.length →
      a.length - i ≤ fuel → SortedPrefix comp a i →
      ((__bitsetsort.insertion_loop comp fuel a i (i - 1) count).2.Perm a
        ∧ ((__bitsetsort.insertion_loop comp fuel a i (i - 1) count).1 = true →
          SortedBy comp (__bitsetsort.insertion_loop comp fuel a i (i - 1) count).2)) := by
  intro fuel
  induction fuel with
  | zero =>
    intro a i count _ hi hf hs
    simp only [__bitsetsort.insertion_loop]
    have : i = a.length := by omega
    subst this
    exact ⟨List.Perm.refl _, fun _ => hs⟩
  | succ fuel ih =>
    intro a i count h1 hi hf hs
    simp only [__bitsetsort.insertion_loop]
    by_cases hil : i = a.length
    · rw [if_neg (by simpa using hil)]
      subst hil
      exact ⟨List.Perm.refl _, fun _ => hs⟩
    · rw [if_pos hil]
      by_cases hc : comp (rd a i) (rd a (i - 1)) = true
      · rw [if_pos hc]
        have hinv : InsertInv comp (rd a i) (a.set i (rd a i)) i i := by
          rw [set_rd_self]
          exact ⟨rfl, fun p q hpq hq _ hqi => hs p q hpq (by omega), fun q h1 h2 => by omega⟩
        have hsh := shift_loop_spec h (rd a i) i a.length a i h1 (Nat.le_refl _) (by omega)
          hi hinv hc
        rw [set_rd_self] at hsh
        have hlen := hsh.1.length_eq
        by_cases h8 : count + 1 = 8
        · rw [if_pos h8]
          refine ⟨hsh.1, ?_⟩
          intro hret
          have : i + 1 = a.length := by
            rw [hlen] at hret
            simpa using hret
          intro p q hpq hq
          have hq2 : q < a.length := by simpa [hlen] using hq
          exact hsh.2 p q hpq (by omega)
        · rw [if_neg h8]
          have := ih _ (i + 1) (count + 1) (by omega) (by omega) (by omega) hsh.2
          rw [Nat.add_sub_cancel] at this
          exact ⟨this.1.trans hsh.1, this.2⟩
      · rw [if_neg hc]
        have hc2 : comp (rd a i) (rd a (i - 1)) = false := by simpa using hc
        have := ih a (i + 1) count (by omega) (by omega) (by omega)
          (sortedPrefix_succ h a i h1 hs hc2)
        rw [Nat.add_sub_cancel] at this
        exact this

/-- The function `__partial_insertion_sort` permutes the range, and the range is sorted
when it returns `true`. -/
theorem partial_insertion_sort_spec {comp : α → α → Bool} (h : StrictWeakOrder comp)
    (a : List α) :
    (__bitsetsort.__partial_insertion_sort comp a).2.Perm a
      ∧ ((__bitsetsort.__partial_insertion_sort comp a).1 = true →
        SortedBy comp (__bitsetsort.__partial_insertion_sort comp a).2) := by
  unfold __bitsetsort.__partial_insertion_sort
  by_cases h0 : a.length = 0
  · rw [if_pos h0]
    exact ⟨List.Perm.refl _, fun _ => sortedBy_of_length_le_one comp a (by omega)⟩
  · rw [if_neg h0]
    exact insertion_loop_spec h a.length a 1 0 (by omega) (by omega) (by omega)
      (fun p q hpq hq => by omega)

/-! ## The bit sets -/

theorem setBit_testBit (b : Nat) (c : Bool) (j m : Nat) :
    (setBit b c j).testBit m = (b.testBit m || (c && decide (m = j) && decide (m < 64))) := by
  unfold setBit
  rw [Nat.testBit_or, Nat.testBit_mod_two_pow]
  cases c
  · simp
  · simp only [if_true, Nat.shiftLeft_eq, Nat.one_mul, Nat.testBit_two_pow, Bool.true_and]
    congr 1
    by_cases h1 : m < 64 <;> by_cases h2 : j = m <;> simp [h1, h2, eq_comm]

theorem setBit_lt (b : Nat) (c : Bool) (j : Nat) (hb : b < 2 ^ 64) : setBit b c j < 2 ^ 64 := by
  unfold setBit
  exact Nat.or_lt_two_pow hb (Nat.mod_lt _ (by norm_num))

theorem countTrailingZeros_spec :
    ∀ (w x : Nat), 0 < x → x < 2 ^ w →
      countTrailingZeros w x < w ∧ x.testBit (countTrailingZeros w x) = true
        ∧ ∀ m, m < countTrailingZeros w x → x.testBit m = false := by
  intro w
  induction w with
  | zero => intro x h0 h1; omega
  | succ w ih =>
    intro x h0 h1
    simp only [countTrailingZeros]
    by_cases hodd : x % 2 = 1
    · rw [if_pos hodd]
      refine ⟨by omega, ?_, fun m hm => by omega⟩
      rw [Nat.testBit_zero]
      simpa using hodd
    · rw [if_neg hodd]
      have hx2 : 0 < x / 2 := by omega
      have hlt : x / 2 < 2 ^ w := by
        rw [Nat.pow_succ] at h1; omega
      obtain ⟨i1, i2, i3⟩ := ih (x / 2) hx2 hlt
      refine ⟨by omega, ?_, ?_⟩
      · rw [Nat.add_comm, Nat.testBit_succ]; exact i2
      · intro m hm
        cases m with
        | zero => rw [Nat.testBit_zero]; simp; omega
        | succ m => rw [Nat.testBit_succ]; exact i3 m (by omega)

theorem and_neg_eq_two_pow :
    ∀ (w x : Nat), 0 < x → x < 2 ^ w → x &&& (2 ^ w - x) = 2 ^ countTrailingZeros w x := by
  intro w
  induction w with
  | zero => intro x h0 h1; omega
  | succ w ih =>
    intro x h0 h1
    simp only [countTrailingZeros]
    by_cases hodd : x % 2 = 1
    · rw [if_pos hodd]
      apply Nat.eq_of_testBit_eq
      intro i
      obtain ⟨y, rfl⟩ : ∃ y, x = y + 1 := ⟨x - 1, by omega⟩
      rw [Nat.testBit_and, Nat.testBit_two_pow_sub_succ (by omega)]
      cases i with
      | zero =>
        simp only [Nat.testBit_zero, Nat.pow_zero]
        have : y % 2 = 0 := by omega
        simp [hodd, this]
      | succ i =>
        rw [Nat.testBit_succ, Nat.testBit_succ]
        have : (y + 1) / 2 = y / 2 := by omega
        rw [this]
        have h1 : Nat.testBit (2 ^ 0) (i + 1) = false := by
          rw [Nat.testBit_two_pow]; simp
        rw [h1]
        cases (y / 2).testBit i <;> simp
    · rw [if_neg hodd]
      have hx2 : 0 < x / 2 := by omega
      have hlt : x / 2 < 2 ^ w := by
        rw [Nat.pow_succ] at h1; omega
      have := ih (x / 2) hx2 hlt
      apply Nat.eq_of_testBit_eq
      intro i
      cases i with
      | zero =>
        rw [Nat.testBit_and, Nat.testBit_zero, Nat.testBit_two_pow]
        have : x % 2 = 0 := by omega
        simp [this]
      | succ i =>
        rw [Nat.testBit_succ, Nat.testBit_two_pow]
        have e : (x &&& (2 ^ (w + 1) - x)) / 2 = x / 2 &&& (2 ^ w - x / 2) := by
          apply Nat.eq_of_testBit_eq
          intro k
          rw [← Nat.testBit_succ, Nat.testBit_and, Nat.testBit_and, Nat.testBit_succ,
            Nat.testBit_succ]
          have : (2 ^ (w + 1) - x) / 2 = 2 ^ w - x / 2 := by
            rw [Nat.pow_succ]; omega
          rw [this]
        rw [e, this, Nat.testBit_two_pow]
        by_cases hk : countTrailingZeros w (x / 2) = i
        · simp [hk, Nat.add_comm]
        · have : ¬ (1 + countTrailingZeros w (x / 2) = i + 1) := by omega
          simp [hk, this]

theorem ctz_spec (x : Nat) (h0 : x ≠ 0) (h1 : x < 2 ^ 64) :
    __ctz x < 64 ∧ x.testBit (__ctz x) = true ∧ ∀ m, m < __ctz x → x.testBit m = false :=
  countTrailingZeros_spec 64 x (Nat.pos_of_ne_zero h0) h1

theorem neg64_eq (x : Nat) (h0 : x ≠ 0) (h1 : x < 2 ^ 64) : neg64 x = 2 ^ 64 - x := by
  unfold neg64
  rw [Nat.mod_eq_of_lt h1, Nat.mod_eq_of_lt (by omega)]

theorem blsr_testBit (x : Nat) (h0 : x ≠ 0) (h1 : x < 2 ^ 64) (m : Nat) :
    (__blsr x).testBit m = (x.testBit m && decide (m ≠ __ctz x)) := by
  unfold __blsr
  rw [neg64_eq x h0 h1, and_neg_eq_two_pow 64 x (Nat.pos_of_ne_zero h0) h1, Nat.testBit_xor,
    Nat.testBit_two_pow]
  have := (ctz_spec x h0 h1).2.1
  unfold __ctz at this ⊢
  by_cases hm : countTrailingZeros 64 x = m
  · subst hm
    simp [this]
  · have : ¬ m = countTrailingZeros 64 x := fun e => hm e.symm
    simp [hm, this]

theorem blsr_lt (x : Nat) (h0 : x ≠ 0) (h1 : x < 2 ^ 64) : __blsr x < 2 ^ 64 := by
  apply Nat.lt_pow_two_of_testBit
  intro i hi
  rw [blsr_testBit x h0 h1, Nat.testBit_lt_two_pow (Nat.lt_of_lt_of_le h1
    (Nat.pow_le_pow_right (by norm_num) hi))]
  rfl

theorem testBit_false_of_ge (x : Nat) (h1 : x < 2 ^ 64) (m : Nat) (hm : 64 ≤ m) :
    x.testBit m = false :=
  Nat.testBit_lt_two_pow (Nat.lt_of_lt_of_le h1 (Nat.pow_le_pow_right (by norm_num) hm))

theorem eq_zero_of_testBit (x : Nat) (h : ∀ m, x.testBit m = false) : x = 0 := by
  apply Nat.eq_of_testBit_eq
  intro i
  rw [h i, Nat.zero_testBit]

/-- The highest set bit of a non-zero 64-bit value, as the source computes it. -/
theorem clz_spec (x : Nat) (h0 : x ≠ 0) (h1 : x < 2 ^ 64) :
    ((__block_size : Int) - 1 - (__clz x : Int)).toNat = Nat.log2 x
      ∧ (__block_size : Int) - 1 - (__clz x : Int) = (Nat.log2 x : Int)
      ∧ Nat.log2 x < 64 ∧ x.testBit (Nat.log2 x) = true
      ∧ ∀ m, Nat.log2 x < m → x.testBit m = false := by
  have hlog : Nat.log2 x < 64 := (Nat.log2_lt h0).2 h1
  have hle : 2 ^ Nat.log2 x ≤ x := Nat.log2_self_le h0
  have hlt : x < 2 ^ (Nat.log2 x + 1) := Nat.lt_log2_self
  have e : (__block_size : Int) - 1 - (__clz x : Int) = (Nat.log2 x : Int) := by
    unfold __clz __block_size
    omega
  refine ⟨by rw [e]; rfl, e, hlog, ?_, ?_⟩
  · rw [Nat.testBit_to_div_mod]
    have : x / 2 ^ Nat.log2 x = 1 := by
      apply Nat.div_eq_of_lt_le
      · simpa using hle
      · rw [Nat.pow_succ] at hlt; omega
    simp [this]
  · intro m hm
    exact Nat.testBit_lt_two_pow (Nat.lt_of_lt_of_le hlt (Nat.pow_le_pow_right (by norm_num) hm))

theorem mask_testBit (x h m : Nat) (hh : h < 64) :
    (x &&& (((1 <<< h) % 2 ^ 64 + (2 ^ 64 - 1)) % 2 ^ 64)).testBit m
      = (x.testBit m && decide (m < h)) := by
  have e : ((1 <<< h) % 2 ^ 64 + (2 ^ 64 - 1)) % 2 ^ 64 = 2 ^ h - 1 := by
    rw [Nat.shiftLeft_eq, Nat.one_mul]
    have h2 : 2 ^ h < 2 ^ 64 := Nat.pow_lt_pow_right (by norm_num) hh
    have h3 : 0 < 2 ^ h := Nat.two_pow_pos h
    rw [Nat.mod_eq_of_lt h2]
    omega
  rw [e, Nat.testBit_and, Nat.testBit_two_pow_sub_one]

theorem mask_lt (x y : Nat) (hx : x < 2 ^ 64) : x &&& y < 2 ^ 64 :=
  Nat.lt_of_le_of_lt Nat.and_le_left hx

/-! ## The function `__bitset_partition` -/

theorem rdi_natCast (a : List α) (i : Nat) : rdi a (i : Int) = rd a i := by
  unfold rdi; simp

theorem rdi_eq_rd (a : List α) (x : Int) (i : Nat) (h : x = (i : Int)) : rdi a x = rd a i := by
  subst h; exact rdi_natCast a i

theorem length_iter_swapi (a : List α) (x y : Int) : (iter_swapi a x y).length = a.length :=
  length_iter_swap a _ _

theorem iter_swapi_perm (a : List α) (x y : Int) (hx : 0 ≤ x) (hx2 : x < a.length)
    (hy : 0 ≤ y) (hy2 : y < a.length) : (iter_swapi a x y).Perm a :=
  iter_swap_perm a _ _ (by omega) (by omega)

theorem rd_iter_swapi_of_ne (a : List α) (x y : Int) (hx : 0 ≤ x) (hy : 0 ≤ y) (i : Nat)
    (h1 : (i : Int) ≠ x) (h2 : (i : Int) ≠ y) : rd (iter_swapi a x y) i = rd a i :=
  rd_iter_swap_of_ne a _ _ i (by omega) (by omega)

theorem rdi_iter_swapi_of_ne (a : List α) (x y z : Int) (hx : 0 ≤ x) (hy : 0 ≤ y)
    (hz : 0 ≤ z) (h1 : z ≠ x) (h2 : z ≠ y) : rdi (iter_swapi a x y) z = rdi a z :=
  rd_iter_swap_of_ne a _ _ _ (by omega) (by omega)

theorem rdi_iter_swapi_left (a : List α) (x y : Int) (hx : 0 ≤ x) (hx2 : x < a.length)
    (hy : 0 ≤ y) (hy2 : y < a.length) : rdi (iter_swapi a x y) x = rdi a y :=
  rd_iter_swap_left a _ _ (by omega) (by omega)

theorem rdi_iter_swapi_right (a : List α) (x y : Int) (hy : 0 ≤ y) (hy2 : y < a.length) :
    rdi (iter_swapi a x y) y = rdi a x :=
  rd_iter_swap_right a _ _ (by omega)

/-! ### Filling the bit sets -/

theorem fill_left_spec (comp : α → α → Bool) (pivot : α) (a : List α) :
    ∀ (count j : Nat) (iter : Int) (bitset : Nat), bitset < 2 ^ 64 → j + count ≤ 64 →
      fill_left comp pivot a count j iter bitset < 2 ^ 64
        ∧ ∀ m : Nat, (fill_left comp pivot a count j iter bitset).testBit m
          = (bitset.testBit m
            || (decide (j ≤ m ∧ m < j + count) && comp pivot (rdi a (iter + ((m : Int) - j))))) := by
  intro count
  induction count with
  | zero =>
    intro j iter bitset hb _
    simp only [fill_left]
    refine ⟨hb, fun m => ?_⟩
    have : ¬ (j ≤ m ∧ m < j + 0) := by omega
    simp [this]
  | succ count ih =>
    intro j iter bitset hb hj
    simp only [fill_left]
    obtain ⟨i1, i2⟩ := ih (j + 1) (iter + 1) (setBit bitset (comp pivot (rdi a iter)) j)
      (setBit_lt _ _ _ hb) (by omega)
    refine ⟨i1, fun m => ?_⟩
    rw [i2 m, setBit_testBit]
    by_cases hm : m = j
    · subst hm
      have e1 : ¬ (m + 1 ≤ m ∧ m < m + 1 + count) := by omega
      have e2 : (m ≤ m ∧ m < m + (count + 1)) := by omega
      have e3 : iter + ((m : Int) - m) = iter := by omega
      have e4 : m < 64 := by omega
      simp [e1, e2, e3, e4]
    · by_cases hr : j + 1 ≤ m ∧ m < j + 1 + count
      · have e2 : (j ≤ m ∧ m < j + (count + 1)) := by omega
        have e3 : iter + 1 + ((m : Int) - ((j : Int) + 1)) = iter + ((m : Int) - j) := by
          omega
        simp [hm, hr, e2, e3]
      · have e2 : ¬ (j ≤ m ∧ m < j + (count + 1)) := by omega
        simp [hm, hr, e2]

theorem fill_right_spec (comp : α → α → Bool) (pivot : α) (a : List α) :
    ∀ (count j : Nat) (iter : Int) (bitset : Nat), bitset < 2 ^ 64 → j + count ≤ 64 →
      fill_right comp pivot a count j iter bitset < 2 ^ 64
        ∧ ∀ m : Nat, (fill_right comp pivot a count j iter bitset).testBit m
          = (bitset.testBit m
            || (decide (j ≤ m ∧ m < j + count) && comp (rdi a (iter - ((m : Int) - j))) pivot)) := by
  intro count
  induction count with
  | zero =>
    intro j iter bitset hb _
    simp only [fill_right]
    refine ⟨hb, fun m => ?_⟩
    have : ¬ (j ≤ m ∧ m < j + 0) := by omega
    simp [this]
  | succ count ih =>
    intro j iter bitset hb hj
    simp only [fill_right]
    obtain ⟨i1, i2⟩ := ih (j + 1) (iter - 1) (setBit bitset (comp (rdi a iter) pivot) j)
      (setBit_lt _ _ _ hb) (by omega)
    refine ⟨i1, fun m => ?_⟩
    rw [i2 m, setBit_testBit]
    by_cases hm : m = j
    · subst hm
      have e1 : ¬ (m + 1 ≤ m ∧ m < m + 1 + count) := by omega
      have e2 : (m ≤ m ∧ m < m + (count + 1)) := by omega
      have e3 : iter - ((m : Int) - m) = iter := by omega
      have e4 : m < 64 := by omega
      simp [e1, e2, e3, e4]
    · by_cases hr : j + 1 ≤ m ∧ m < j + 1 + count
      · have e2 : (j ≤ m ∧ m < j + (count + 1)) := by omega
        have e3 : iter - 1 - ((m : Int) - ((j : Int) + 1)) = iter - ((m : Int) - j) := by
          omega
        simp [hm, hr, e2, e3]
      · have e2 : ¬ (j ≤ m ∧ m < j + (count + 1)) := by omega
        simp [hm, hr, e2]

theorem fill_left_exact (comp : α → α → Bool) (pivot : α) (a : List α) (first : Int)
    (sz : Nat) (hsz : sz ≤ 64) :
    ExactL comp pivot a first (fill_left comp pivot a sz 0 first 0) sz := by
  obtain ⟨h1, h2⟩ := fill_left_spec comp pivot a sz 0 first 0 (by norm_num) (by omega)
  refine ⟨h1, fun m => ?_⟩
  rw [h2 m]
  simp

theorem fill_right_exact (comp : α → α → Bool) (pivot : α) (a : List α) (lm1 : Int)
    (sz : Nat) (hsz : sz ≤ 64) :
    ExactR comp pivot a lm1 (fill_right comp pivot a sz 0 lm1 0) sz := by
  obtain ⟨h1, h2⟩ := fill_right_spec comp pivot a sz 0 lm1 0 (by norm_num) (by omega)
  refine ⟨h1, fun m => ?_⟩
  rw [h2 m]
  simp

/-! ### Exchanging the values the bit sets name -/

theorem exactL_bit {comp : α → α → Bool} {pivot : α} {a : List α} {first : Int}
    {left sz : Nat} (h : ExactL comp pivot a first left sz) (m : Nat)
    (hm : left.testBit m = true) : m < sz ∧ comp pivot (rdi a (first + m)) = true := by
  have := h.2 m
  rw [hm] at this
  simpa using this.symm

theorem exactR_bit {comp : α → α → Bool} {pivot : α} {a : List α} {lm1 : Int}
    {right sz : Nat} (h : ExactR comp pivot a lm1 right sz) (m : Nat)
    (hm : right.testBit m = true) : m < sz ∧ comp (rdi a (lm1 - m)) pivot = true := by
  have := h.2 m
  rw [hm] at this
  simpa using this.symm

theorem exactL_zero {comp : α → α → Bool} {pivot : α} {a : List α} {first : Int}
    {sz : Nat} (h : ExactL comp pivot a first 0 sz) (m : Nat) (hm : m < sz) :
    comp pivot (rdi a (first + m)) = false := by
  have := h.2 m
  rw [Nat.zero_testBit] at this
  simpa [hm] using this.symm

theorem exactR_zero {comp : α → α → Bool} {pivot : α} {a : List α} {lm1 : Int}
    {sz : Nat} (h : ExactR comp pivot a lm1 0 sz) (m : Nat) (hm : m < sz) :
    comp (rdi a (lm1 - m)) pivot = false := by
  have := h.2 m
  rw [Nat.zero_testBit] at this
  simpa [hm] using this.symm

theorem swap_bitmap_pos_spec {comp : α → α → Bool} (h : StrictWeakOrder comp) (pivot : α)
    (first lm1 : Int) (lsz rsz n : Nat) (hfirst : 1 ≤ first) (hlm1 : lm1 < n)
    (hdis : 0 < lsz → 0 < rsz → first + lsz ≤ lm1 - rsz + 1) :
    ∀ (fuel : Nat) (a : List α) (left right : Nat), a.length = n →
      ExactL comp pivot a first left lsz → ExactR comp pivot a lm1 right rsz →
      (∀ m, left.testBit m = true → 64 ≤ fuel + m) →
      ((__swap_bitmap_pos first lm1 fuel a left right).1.Perm a
        ∧ (∀ i : Nat, ((i : Int) < first ∨ lm1 < (i : Int)) →
            rd (__swap_bitmap_pos first lm1 fuel a left right).1 i = rd a i)
        ∧ ExactL comp pivot (__swap_bitmap_pos first lm1 fuel a left right).1 first
            (__swap_bitmap_pos first lm1 fuel a left right).2.1 lsz
        ∧ ExactR comp pivot (__swap_bitmap_pos first lm1 fuel a left right).1 lm1
            (__swap_bitmap_pos first lm1 fuel a left right).2.2 rsz
        ∧ ((__swap_bitmap_pos first lm1 fuel a left right).2.1 = 0
            ∨ (__swap_bitmap_pos first lm1 fuel a left right).2.2 = 0)) := by
  intro fuel
  induction fuel with
  | zero =>
    intro a left right hlen hl hr hf
    simp only [__swap_bitmap_pos]
    refine ⟨List.Perm.refl _, fun _ _ => trivial, hl, hr, Or.inl ?_⟩
    apply eq_zero_of_testBit
    intro m
    cases hb : left.testBit m with
    | false => rfl
    | true =>
      have := hf m hb
      have := testBit_false_of_ge left hl.1 m (by omega)
      rw [hb] at this
      exact this
  | succ fuel ih =>
    intro a left right hlen hl hr hf
    simp only [__swap_bitmap_pos]
    by_cases hnz : left ≠ 0 ∧ right ≠ 0
    · rw [if_pos hnz]
      obtain ⟨cl1, cl2, cl3⟩ := ctz_spec left hnz.1 hl.1
      obtain ⟨cr1, cr2, cr3⟩ := ctz_spec right hnz.2 hr.1
      obtain ⟨bl1, bl2⟩ := exactL_bit hl _ cl2
      obtain ⟨br1, br2⟩ := exactR_bit hr _ cr2
      have hd := hdis (by omega) (by omega)
      have hx0 : 0 ≤ first + (__ctz left : Int) := by omega
      have hy0 : 0 ≤ lm1 - (__ctz right : Int) := by omega
      have hxn : first + (__ctz left : Int) < a.length := by omega
      have hyn : lm1 - (__ctz right : Int) < a.length := by omega
      have hl' : ExactL comp pivot
          (iter_swapi a (first + (__ctz left : Int)) (lm1 - (__ctz right : Int))) first
          (__blsr left) lsz := by
        refine ⟨blsr_lt left hnz.1 hl.1, fun m => ?_⟩
        rw [blsr_testBit left hnz.1 hl.1, hl.2 m]
        by_cases hm : m = __ctz left
        · subst hm
          rw [rdi_iter_swapi_left a _ _ hx0 hxn hy0 hyn, h.asymm _ _ br2]
          simp
        · by_cases hms : m < lsz
          · rw [rdi_iter_swapi_of_ne a _ _ _ hx0 hy0 (by omega) (by omega) (by omega)]
            simp [hm]
          · simp [hms]
      have hr' : ExactR comp pivot
          (iter_swapi a (first + (__ctz left : Int)) (lm1 - (__ctz right : Int))) lm1
          (__blsr right) rsz := by
        refine ⟨blsr_lt right hnz.2 hr.1, fun m => ?_⟩
        rw [blsr_testBit right hnz.2 hr.1, hr.2 m]
        by_cases hm : m = __ctz right
        · subst hm
          rw [rdi_iter_swapi_right a _ _ hy0 hyn, h.asymm _ _ bl2]
          simp
        · by_cases hms : m < rsz
          · rw [rdi_iter_swapi_of_ne a _ _ _ hx0 hy0 (by omega) (by omega) (by omega)]
            simp [hm]
          · simp [hms]
      have hf' : ∀ m, (__blsr left).testBit m = true → 64 ≤ fuel + m := by
        intro m hm
        rw [blsr_testBit left hnz.1 hl.1] at hm
        simp only [Bool.and_eq_true, decide_eq_true_eq] at hm
        have h1 := hf m hm.1
        have h2 : ¬ m < __ctz left := by
          intro hlt
          have := cl3 m hlt
          rw [hm.1] at this
          exact Bool.noConfusion this
        have := hf _ cl2
        omega
      obtain ⟨j1, j2, j3, j4, j5⟩ := ih _ (__blsr left) (__blsr right)
        (by rw [length_iter_swapi]; exact hlen) hl' hr' hf'
      refine ⟨j1.trans (iter_swapi_perm a _ _ hx0 hxn hy0 hyn), ?_, j3, j4, j5⟩
      intro i hi
      rw [j2 i hi]
      exact rd_iter_swapi_of_ne a _ _ hx0 hy0 i (by omega) (by omega)
    · rw [if_neg hnz]
      refine ⟨List.Perm.refl _, fun _ _ => rfl, hl, hr, ?_⟩
      by_cases h0 : left = 0
      · exact Or.inl h0
      · right
        by_contra h1
        exact hnz ⟨h0, h1⟩

/-! ### The regions -/

theorem partInv_of_same {comp : α → α → Bool} {pivot hole : α} {n : Nat} {a b : List α}
    {first lm1 : Int} (hinv : PartInv comp pivot hole n a first lm1) (hlen : b.length = n)
    (hsame : ∀ i : Nat, ((i : Int) < first ∨ lm1 < (i : Int)) → rd b i = rd a i) :
    PartInv comp pivot hole n b first lm1 where
  len := hlen
  piv := by rw [hsame 0 (Or.inl (by have := hinv.lo; omega))]; exact hinv.piv
  lo := hinv.lo
  hi := hinv.hi
  gap := hinv.gap
  fn := hinv.fn
  r1 := fun i h1 h2 => by rw [hsame i (Or.inl h2)]; exact hinv.r1 i h1 h2
  r2 := fun i h1 h2 h3 => by rw [hsame i (Or.inr h2)]; exact hinv.r2 i h1 h2 h3

theorem partInv_extend_left {comp : α → α → Bool} {pivot hole : α} {n : Nat} {a : List α}
    {first lm1 : Int} (hinv : PartInv comp pivot hole n a first lm1) (sz : Nat)
    (hex : ExactL comp pivot a first 0 sz) (hgap : first + sz ≤ lm1 + 2)
    (hfn : first + sz ≤ n) : PartInv comp pivot hole n a (first + sz) lm1 where
  len := hinv.len
  piv := hinv.piv
  lo := by have := hinv.lo; omega
  hi := hinv.hi
  gap := hgap
  fn := hfn
  r1 := fun i h1 h2 => by
    by_cases hi : (i : Int) < first
    · exact hinv.r1 i h1 hi
    · have := exactL_zero hex (i - first.toNat) (by have := hinv.lo; omega)
      rwa [rdi_eq_rd a _ i (by have := hinv.lo; omega)] at this
  r2 := fun i h1 h2 h3 => hinv.r2 i (by omega) h2 h3

theorem partInv_extend_right {comp : α → α → Bool} {pivot hole : α} {n : Nat} {a : List α}
    {first lm1 : Int} (hinv : PartInv comp pivot hole n a first lm1) (sz : Nat)
    (hex : ExactR comp pivot a lm1 0 sz) (hgap : first ≤ lm1 - sz + 2) :
    PartInv comp pivot hole n a first (lm1 - sz) where
  len := hinv.len
  piv := hinv.piv
  lo := hinv.lo
  hi := by have := hinv.hi; omega
  gap := hgap
  fn := hinv.fn
  r1 := hinv.r1
  r2 := fun i h1 h2 h3 => by
    by_cases hi : lm1 < (i : Int)
    · exact hinv.r2 i h1 hi h3
    · have := exactR_zero hex (lm1 - i).toNat (by omega)
      rwa [rdi_eq_rd a _ i (by omega)] at this

theorem partInv_close {comp : α → α → Bool} {pivot hole : α} {n : Nat} {a : List α}
    {first lm1 l : Int} (hinv : PartInv comp pivot hole n a first lm1) (h1 : lm1 < first)
    (h2 : l < first) (h3 : first ≤ l + 2) (h4 : l < n) : PartInv comp pivot hole n a first l where
  len := hinv.len
  piv := hinv.piv
  lo := hinv.lo
  hi := h4
  gap := h3
  fn := hinv.fn
  r1 := hinv.r1
  r2 := fun i i1 _ i3 => hinv.r2 i i1 (by omega) i3

theorem partInv_swap {comp : α → α → Bool} {pivot hole : α} {n : Nat} {a : List α}
    {first lm1 : Int} (hinv : PartInv comp pivot hole n a first lm1) (x y : Int)
    (hx1 : first ≤ x) (hx2 : x ≤ lm1) (hy1 : first ≤ y) (hy2 : y ≤ lm1) :
    PartInv comp pivot hole n (iter_swapi a x y) first lm1 :=
  partInv_of_same hinv (by rw [length_iter_swapi]; exact hinv.len) (fun i hi =>
    rd_iter_swapi_of_ne a x y (by have := hinv.lo; omega) (by have := hinv.lo; omega) i
      (by omega) (by omega))

/-! ### The main loop -/

theorem block_loop_spec {comp : α → α → Bool} (h : StrictWeakOrder comp) (pivot : α)
    {hole : α} (n : Nat) :
    ∀ (fuel : Nat) (a : List α) (first lm1 : Int) (left right : Nat),
      BlockInv comp pivot hole n a first lm1 left right → lm1 - first + 1 ≤ fuel →
      ((block_loop comp pivot fuel a first lm1 left right).1.Perm a
        ∧ BlockInv comp pivot hole n (block_loop comp pivot fuel a first lm1 left right).1
            (block_loop comp pivot fuel a first lm1 left right).2.1
            (block_loop comp pivot fuel a first lm1 left right).2.2.1
            (block_loop comp pivot fuel a first lm1 left right).2.2.2.1
            (block_loop comp pivot fuel a first lm1 left right).2.2.2.2
        ∧ (block_loop comp pivot fuel a first lm1 left right).2.2.1
            - (block_loop comp pivot fuel a first lm1 left right).2.1 < 127) := by
  intro fuel
  induction fuel with
  | zero =>
    intro a first lm1 left right hb hf
    simp only [block_loop]
    exact ⟨List.Perm.refl _, hb, by omega⟩
  | succ fuel ih =>
    intro a first lm1 left right hb hf
    have hbs : (__block_size : Int) = 64 := rfl
    have hbn : __block_size = 64 := rfl
    simp only [block_loop, hbn, Nat.cast_ofNat]
    by_cases hc : lm1 - first ≥ 2 * 64 - 1
    · rw [if_pos hc]
      have hinv := hb.inv
      have hL : ExactL comp pivot a first
          (if left = 0 then fill_left comp pivot a 64 0 first left else left) 64 := by
        by_cases h0 : left = 0
        · rw [if_pos h0, h0]; exact fill_left_exact comp pivot a first 64 (by norm_num)
        · rw [if_neg h0]
          rcases hb.exl with h1 | h1
          · exact absurd h1 h0
          · exact h1.1
      have hR : ExactR comp pivot a lm1
          (if right = 0 then fill_right comp pivot a 64 0 lm1 right else right) 64 := by
        by_cases h0 : right = 0
        · rw [if_pos h0, h0]; exact fill_right_exact comp pivot a lm1 64 (by norm_num)
        · rw [if_neg h0]
          rcases hb.exr with h1 | h1
          · exact absurd h1 h0
          · exact h1.1
      obtain ⟨s1, s2, s3, s4, s5⟩ := swap_bitmap_pos_spec h pivot first lm1 64 64 n hinv.lo
        hinv.hi (fun _ _ => by push_cast; omega) 64 a _ _ hinv.len hL hR (fun m _ => by omega)
      generalize __swap_bitmap_pos first lm1 64 a
        (if left = 0 then fill_left comp pivot a 64 0 first left else left)
        (if right = 0 then fill_right comp pivot a 64 0 lm1 right else right) = r at *
      obtain ⟨a', l', r'⟩ := r
      simp only at s1 s2 s3 s4 s5 ⊢
      have hinv' : PartInv comp pivot hole n a' first lm1 :=
        partInv_of_same hinv (by rw [s1.length_eq]; exact hinv.len) s2
      have hnew : BlockInv comp pivot hole n a' (first + if l' = 0 then 64 else 0)
          (lm1 - if r' = 0 then 64 else 0) l' r' := by
        have hA : PartInv comp pivot hole n a' (first + if l' = 0 then 64 else 0) lm1 := by
          by_cases h0 : l' = 0
          · rw [if_pos h0]
            rw [h0] at s3
            exact partInv_extend_left hinv' 64 s3 (by push_cast; omega)
              (by have := hinv.hi; push_cast; omega)
          · rw [if_neg h0]
            simpa using hinv'
        have hB : PartInv comp pivot hole n a' (first + if l' = 0 then 64 else 0)
            (lm1 - if r' = 0 then 64 else 0) := by
          by_cases h0 : r' = 0
          · rw [if_pos h0]
            rw [h0] at s4
            exact partInv_extend_right hA 64 s4 (by split_ifs <;> push_cast <;> omega)
          · rw [if_neg h0]
            simpa using hA
        refine ⟨hB, s5, ?_, ?_⟩
        · by_cases h0 : l' = 0
          · exact Or.inl h0
          · right
            rw [if_neg h0]
            refine ⟨by simpa using s3, ?_⟩
            split_ifs <;> omega
        · by_cases h0 : r' = 0
          · exact Or.inl h0
          · right
            rw [if_neg h0]
            have hl0 : l' = 0 := by
              rcases s5 with h1 | h1
              · exact h1
              · exact absurd h1 h0
            rw [if_pos hl0]
            have e : first + 64 = first + ((64 : Nat) : Int) := by push_cast; rfl
            have e2 : lm1 - 0 = lm1 := by omega
            refine ⟨?_, by omega⟩
            rw [e2]
            exact s4
      obtain ⟨i1, i2, i3⟩ := ih a' _ _ l' r' hnew (by
        rcases s5 with h1 | h1
        · rw [if_pos h1]; split_ifs <;> omega
        · rw [if_pos h1]; split_ifs <;> omega)
      exact ⟨i1.trans s1, i2, i3⟩
    · rw [if_neg hc]
      exact ⟨List.Perm.refl _, hb, by simp only; omega⟩

/-! ### The values left on one side -/

theorem partInv_shrink_right {comp : α → α → Bool} {pivot hole : α} {n : Nat} {a : List α}
    {first lm1 : Int} (hinv : PartInv comp pivot hole n a first lm1) (hle : first ≤ lm1)
    (hq : comp (rdi a lm1) pivot = false) : PartInv comp pivot hole n a first (lm1 - 1) where
  len := hinv.len
  piv := hinv.piv
  lo := hinv.lo
  hi := by have := hinv.hi; omega
  gap := by omega
  fn := hinv.fn
  r1 := hinv.r1
  r2 := fun i h1 h2 h3 => by
    by_cases hi : lm1 < (i : Int)
    · exact hinv.r2 i h1 hi h3
    · rwa [rdi_eq_rd a _ i (by omega)] at hq

theorem partInv_grow_left {comp : α → α → Bool} {pivot hole : α} {n : Nat} {a : List α}
    {first lm1 : Int} (hinv : PartInv comp pivot hole n a first lm1) (hle : first ≤ lm1)
    (hp : comp pivot (rdi a first) = false) : PartInv comp pivot hole n a (first + 1) lm1 where
  len := hinv.len
  piv := hinv.piv
  lo := by have := hinv.lo; omega
  hi := hinv.hi
  gap := by omega
  fn := by have := hinv.hi; omega
  r1 := fun i h1 h2 => by
    by_cases hi : (i : Int) < first
    · exact hinv.r1 i h1 hi
    · rwa [rdi_eq_rd a _ i (by omega)] at hp
  r2 := fun i h1 h2 h3 => hinv.r2 i (by omega) h2 h3

theorem left_side_loop_spec {comp : α → α → Bool} (h : StrictWeakOrder comp) (pivot : α)
    {hole : α} (n : Nat) (first : Int) :
    ∀ (fuel : Nat) (a : List α) (lm1 : Int) (left : Nat),
      PartInv comp pivot hole n a first lm1 → first ≤ lm1 + 1 →
      ExactL comp pivot a first left (lm1 - first + 1).toNat →
      (∀ m, left.testBit m = true → m < fuel) →
      ((left_side_loop first fuel a lm1 left).1.Perm a
        ∧ PartInv comp pivot hole n (left_side_loop first fuel a lm1 left).1
            ((left_side_loop first fuel a lm1 left).2 + 1)
            (left_side_loop first fuel a lm1 left).2) := by
  have hexit : ∀ (a : List α) (lm1 : Int), PartInv comp pivot hole n a first lm1 →
      first ≤ lm1 + 1 → ExactL comp pivot a first 0 (lm1 - first + 1).toNat →
      PartInv comp pivot hole n a (lm1 + 1) lm1 := by
    intro a lm1 hinv hle hex
    have := partInv_extend_left hinv _ hex (by omega) (by have := hinv.hi; omega)
    have e : first + ((lm1 - first + 1).toNat : Int) = lm1 + 1 := by omega
    rwa [e] at this
  intro fuel
  induction fuel with
  | zero =>
    intro a lm1 left hinv hle hex hf
    simp only [left_side_loop]
    have h0 : left = 0 := eq_zero_of_testBit left (fun m => by
      cases hb : left.testBit m with
      | false => rfl
      | true => exact absurd (hf m hb) (by omega))
    subst h0
    exact ⟨List.Perm.refl _, hexit a lm1 hinv hle hex⟩
  | succ fuel ih =>
    intro a lm1 left hinv hle hex hf
    simp only [left_side_loop]
    by_cases h0 : left = 0
    · rw [if_neg (by simpa using h0)]
      subst h0
      exact ⟨List.Perm.refl _, hexit a lm1 hinv hle hex⟩
    · rw [if_pos h0]
      obtain ⟨c1, c2, c3, c4, c5⟩ := clz_spec left h0 hex.1
      rw [c1, c2]
      obtain ⟨b1, b2⟩ := exactL_bit hex _ c4
      have hlo := hinv.lo
      have hhi := hinv.hi
      have hlen := hinv.len
      have hit1 : first ≤ first + (Nat.log2 left : Int) := by omega
      have hit2 : first + (Nat.log2 left : Int) ≤ lm1 := by omega
      -- the range after the exchange
      have hrd : ∀ z : Int, first ≤ z → z ≠ first + (Nat.log2 left : Int) → z ≠ lm1 →
          rdi (if first + (Nat.log2 left : Int) ≠ lm1 then
              iter_swapi a (first + (Nat.log2 left : Int)) lm1 else a) z = rdi a z := by
        intro z hz h1 h2
        split_ifs
        · exact rdi_iter_swapi_of_ne a _ _ z (by omega) (by omega) (by omega) h1 h2
        · rfl
      have hlast : rdi (if first + (Nat.log2 left : Int) ≠ lm1 then
              iter_swapi a (first + (Nat.log2 left : Int)) lm1 else a) lm1
            = rdi a (first + (Nat.log2 left : Int)) := by
        split_ifs with hne
        · exact rdi_iter_swapi_right a _ _ (by omega) (by omega)
        · have : first + (Nat.log2 left : Int) = lm1 := by simpa using hne
          rw [this]
      have hinv1 : PartInv comp pivot hole n (if first + (Nat.log2 left : Int) ≠ lm1 then
              iter_swapi a (first + (Nat.log2 left : Int)) lm1 else a) first lm1 := by
        split_ifs
        · exact partInv_swap hinv _ _ hit1 hit2 (by omega) (by omega)
        · exact hinv
      have hinv2 := partInv_shrink_right hinv1 (by omega) (by
        rw [hlast]; exact h.asymm _ _ b2)
      have hex2 : ExactL comp pivot (if first + (Nat.log2 left : Int) ≠ lm1 then
              iter_swapi a (first + (Nat.log2 left : Int)) lm1 else a) first
          (left &&& (((1 <<< Nat.log2 left) % 2 ^ 64 + (2 ^ 64 - 1)) % 2 ^ 64))
          (lm1 - 1 - first + 1).toNat := by
        refine ⟨mask_lt _ _ hex.1, fun m => ?_⟩
        rw [mask_testBit _ _ _ c3, hex.2 m]
        by_cases hm : m < Nat.log2 left
        · rw [hrd _ (by omega) (by omega) (by omega)]
          have e1 : m < (lm1 - first + 1).toNat := by omega
          have e2 : m < (lm1 - 1 - first + 1).toNat := by omega
          simp [hm, e1, e2]
        · by_cases hm2 : m < (lm1 - 1 - first + 1).toNat
          · by_cases hm3 : m = Nat.log2 left
            · subst hm3
              have hne : first + (Nat.log2 left : Int) ≠ lm1 := by omega
              have e0 : (if first + (Nat.log2 left : Int) ≠ lm1 then
                  iter_swapi a (first + (Nat.log2 left : Int)) lm1 else a)
                  = iter_swapi a (first + (Nat.log2 left : Int)) lm1 := if_pos hne
              rw [e0, rdi_iter_swapi_left a _ _ (by omega) (by omega) (by omega) (by omega)]
              have hb := hex.2 (lm1 - first).toNat
              rw [c5 _ (by omega)] at hb
              have e3 : first + (((lm1 - first).toNat : Nat) : Int) = lm1 := by omega
              rw [e3] at hb
              have e4 : (lm1 - first).toNat < (lm1 - first + 1).toNat := by omega
              simp only [e4, decide_True, Bool.true_and] at hb
              simp [hm, ← hb]
            · rw [hrd _ (by omega) (by omega) (by omega)]
              have hb := hex.2 m
              rw [c5 _ (by omega)] at hb
              have e1 : m < (lm1 - first + 1).toNat := by omega
              simp only [e1, decide_True, Bool.true_and] at hb
              simp [hm, ← hb]
          · simp [hm, hm2]
      obtain ⟨i1, i2⟩ := ih _ (lm1 - 1) _ hinv2 (by omega) hex2 (by
        intro m hm
        rw [mask_testBit _ _ _ c3] at hm
        simp only [Bool.and_eq_true, decide_eq_true_eq] at hm
        have := hf _ c4
        omega)
      refine ⟨i1.trans ?_, i2⟩
      split_ifs
      · exact iter_swapi_perm a _ _ (by omega) (by omega) (by omega) (by omega)
      · exact List.Perm.refl _

theorem right_side_loop_spec {comp : α → α → Bool} (h : StrictWeakOrder comp) (pivot : α)
    {hole : α} (n : Nat) (lm1 : Int) :
    ∀ (fuel : Nat) (a : List α) (first : Int) (right : Nat),
      PartInv comp pivot hole n a first lm1 → first ≤ lm1 + 1 →
      ExactR comp pivot a lm1 right (lm1 - first + 1).toNat →
      (∀ m, right.testBit m = true → m < fuel) →
      ((right_side_loop lm1 fuel a first right).1.Perm a
        ∧ PartInv comp pivot hole n (right_side_loop lm1 fuel a first right).1
            (right_side_loop lm1 fuel a first right).2
            ((right_side_loop lm1 fuel a first right).2 - 1)) := by
  have hexit : ∀ (a : List α) (first : Int), PartInv comp pivot hole n a first lm1 →
      first ≤ lm1 + 1 → ExactR comp pivot a lm1 0 (lm1 - first + 1).toNat →
      PartInv comp pivot hole n a first (first - 1) := by
    intro a first hinv hle hex
    have := partInv_extend_right hinv _ hex (by omega)
    have e : lm1 - ((lm1 - first + 1).toNat : Int) = first - 1 := by omega
    rwa [e] at this
  intro fuel
  induction fuel with
  | zero =>
    intro a first right hinv hle hex hf
    simp only [right_side_loop]
    have h0 : right = 0 := eq_zero_of_testBit right (fun m => by
      cases hb : right.testBit m with
      | false => rfl
      | true => exact absurd (hf m hb) (by omega))
    subst h0
    exact ⟨List.Perm.refl _, hexit a first hinv hle hex⟩
  | succ fuel ih =>
    intro a first right hinv hle hex hf
    simp only [right_side_loop]
    by_cases h0 : right = 0
    · rw [if_neg (by simpa using h0)]
      subst h0
      exact ⟨List.Perm.refl _, hexit a first hinv hle hex⟩
    · rw [if_pos h0]
      obtain ⟨c1, c2, c3, c4, c5⟩ := clz_spec right h0 hex.1
      rw [c1, c2]
      obtain ⟨b1, b2⟩ := exactR_bit hex _ c4
      have hlo := hinv.lo
      have hhi := hinv.hi
      have hlen := hinv.len
      have hit1 : first ≤ lm1 - (Nat.log2 right : Int) := by omega
      have hit2 : lm1 - (Nat.log2 right : Int) ≤ lm1 := by omega
      have hrd : ∀ z : Int, z ≤ lm1 → z ≠ lm1 - (Nat.log2 right : Int) → z ≠ first →
          0 ≤ z →
          rdi (if lm1 - (Nat.log2 right : Int) ≠ first then
              iter_swapi a (lm1 - (Nat.log2 right : Int)) first else a) z = rdi a z := by
        intro z hz h1 h2 h3
        split_ifs
        · exact rdi_iter_swapi_of_ne a _ _ z (by omega) (by omega) h3 h1 h2
        · rfl
      have hfirst : rdi (if lm1 - (Nat.log2 right : Int) ≠ first then
              iter_swapi a (lm1 - (Nat.log2 right : Int)) first else a) first
            = rdi a (lm1 - (Nat.log2 right : Int)) := by
        split_ifs with hne
        · exact rdi_iter_swapi_right a _ _ (by omega) (by omega)
        · have : lm1 - (Nat.log2 right : Int) = first := by simpa using hne
          rw [this]
      have hinv1 : PartInv comp pivot hole n (if lm1 - (Nat.log2 right : Int) ≠ first then
              iter_swapi a (lm1 - (Nat.log2 right : Int)) first else a) first lm1 := by
        split_ifs
        · exact partInv_swap hinv _ _ hit1 hit2 (by omega) (by omega)
        · exact hinv
      have hinv2 := partInv_grow_left hinv1 (by omega) (by
        rw [hfirst]; exact h.asymm _ _ b2)
      have hex2 : ExactR comp pivot (if lm1 - (Nat.log2 right : Int) ≠ first then
              iter_swapi a (lm1 - (Nat.log2 right : Int)) first else a) lm1
          (right &&& (((1 <<< Nat.log2 right) % 2 ^ 64 + (2 ^ 64 - 1)) % 2 ^ 64))
          (lm1 - (first + 1) + 1).toNat := by
        refine ⟨mask_lt _ _ hex.1, fun m => ?_⟩
        rw [mask_testBit _ _ _ c3, hex.2 m]
        by_cases hm : m < Nat.log2 right
        · rw [hrd _ (by omega) (by omega) (by omega) (by omega)]
          have e1 : m < (lm1 - first + 1).toNat := by omega
          have e2 : m < (lm1 - (first + 1) + 1).toNat := by omega
          simp [hm, e1, e2]
        · by_cases hm2 : m < (lm1 - (first + 1) + 1).toNat
          · by_cases hm3 : m = Nat.log2 right
            · subst hm3
              have hne : lm1 - (Nat.log2 right : Int) ≠ first := by omega
              have e0 : (if lm1 - (Nat.log2 right : Int) ≠ first then
                  iter_swapi a (lm1 - (Nat.log2 right : Int)) first else a)
                  = iter_swapi a (lm1 - (Nat.log2 right : Int)) first := if_pos hne
              rw [e0, rdi_iter_swapi_left a _ _ (by omega) (by omega) (by omega) (by omega)]
              have hb := hex.2 (lm1 - first).toNat
              rw [c5 _ (by omega)] at hb
              have e3 : lm1 - (((lm1 - first).toNat : Nat) : Int) = first := by omega
              rw [e3] at hb
              have e4 : (lm1 - first).toNat < (lm1 - first + 1).toNat := by omega
              simp only [e4, decide_True, Bool.true_and] at hb
              simp [hm, ← hb]
            · rw [hrd _ (by omega) (by omega) (by omega) (by omega)]
              have hb := hex.2 m
              rw [c5 _ (by omega)] at hb
              have e1 : m < (lm1 - first + 1).toNat := by omega
              simp only [e1, decide_True, Bool.true_and] at hb
              simp [hm, ← hb]
          · simp [hm, hm2]
      obtain ⟨i1, i2⟩ := ih _ (first + 1) _ hinv2 (by omega) hex2 (by
        intro m hm
        rw [mask_testBit _ _ _ c3] at hm
        simp only [Bool.and_eq_true, decide_eq_true_eq] at hm
        have := hf _ c4
        omega)
      refine ⟨i1.trans ?_, i2⟩
      split_ifs
      · exact iter_swapi_perm a _ _ (by omega) (by omega) (by omega) (by omega)
      · exact List.Perm.refl _

/-! ### The last blocks -/

theorem last_block_sizes_spec (rem : Int) (left right : Nat) (h1 : -1 ≤ rem) (h2 : rem ≤ 127)
    (hone : left = 0 ∨ right = 0) (hl : left ≠ 0 → 64 ≤ rem) (hr : right ≠ 0 → 64 ≤ rem) :
    (last_block_sizes rem left right).1 + (last_block_sizes rem left right).2 = rem
      ∧ 0 ≤ (last_block_sizes rem left right).1 ∧ (last_block_sizes rem left right).1 ≤ 64
      ∧ -1 ≤ (last_block_sizes rem left right).2 ∧ (last_block_sizes rem left right).2 ≤ 64
      ∧ ((last_block_sizes rem left right).2 < 0 → (last_block_sizes rem left right).1 = 0)
      ∧ (left ≠ 0 → (last_block_sizes rem left right).1 = 64)
      ∧ (right ≠ 0 → (last_block_sizes rem left right).2 = 64) := by
  unfold last_block_sizes
  have hbs : (__block_size : Int) = 64 := rfl
  by_cases h0 : left = 0 ∧ right = 0
  · rw [if_pos h0]
    simp only
    have hd : Int.tdiv rem 2 = if rem = -1 then 0 else rem / 2 := by
      by_cases hm : rem = -1
      · subst hm; rfl
      · rw [if_neg hm]; exact Int.tdiv_eq_ediv (by omega) (by norm_num)
    rw [hd]
    refine ⟨by omega, ?_, ?_, ?_, ?_, ?_, fun h => absurd h0.1 h, fun h => absurd h0.2 h⟩ <;>
      split_ifs <;> omega
  · rw [if_neg h0]
    by_cases hl0 : left = 0
    · rw [if_pos hl0]
      have hr0 : right ≠ 0 := fun h => h0 ⟨hl0, h⟩
      have := hr hr0
      simp only [hbs]
      exact ⟨by omega, by omega, by omega, by omega, by omega, by omega,
        fun h => absurd hl0 h, fun _ => trivial⟩
    · rw [if_neg hl0]
      have := hl hl0
      have hr0 : right = 0 := by
        rcases hone with h | h
        · exact absurd h hl0
        · exact h
      simp only [hbs]
      exact ⟨by omega, by omega, by omega, by omega, by omega, by omega,
        fun _ => trivial, fun h => absurd hr0 h⟩

theorem exists_bit_of_ne_zero (x : Nat) (h : x ≠ 0) : ∃ m, x.testBit m = true := by
  by_contra hc
  apply h
  apply eq_zero_of_testBit
  intro m
  cases hb : x.testBit m with
  | false => rfl
  | true => exact absurd ⟨m, hb⟩ hc

theorem partition_finish_spec {comp : α → α → Bool} (h : StrictWeakOrder comp) (pivot : α)
    {hole : α} (n : Nat) (a : List α) (first lm1 : Int) (left right : Nat)
    (hb : BlockInv comp pivot hole n a first lm1 left right) (hrem : lm1 - first < 127) :
    (partition_finish comp pivot a first lm1 left right).1.Perm a
      ∧ PartInv comp pivot hole n (partition_finish comp pivot a first lm1 left right).1
          (partition_finish comp pivot a first lm1 left right).2
          ((partition_finish comp pivot a first lm1 left right).2 - 1) := by
  have hinv := hb.inv
  have hlo := hinv.lo
  have hhi := hinv.hi
  have hgap := hinv.gap
  have hfn := hinv.fn
  obtain ⟨z1, z2, z3, z4, z5, z6, z7, z8⟩ := last_block_sizes_spec (lm1 - first + 1) left right
    (by omega) (by omega) hb.one
    (fun hl => by
      rcases hb.exl with h0 | h0
      · exact absurd h0 hl
      · omega)
    (fun hr => by
      rcases hb.exr with h0 | h0
      · exact absurd h0 hr
      · omega)
  unfold partition_finish
  have hbn : __block_size = 64 := rfl
  simp only [hbn]
  generalize last_block_sizes (lm1 - first + 1) left right = sz at *
  obtain ⟨ls, rs⟩ := sz
  simp only at z1 z2 z3 z4 z5 z6 z7 z8 ⊢
  have hL : ExactL comp pivot a first
      (if left = 0 then fill_left comp pivot a ls.toNat 0 first left else left) ls.toNat := by
    by_cases h0 : left = 0
    · rw [if_pos h0, h0]; exact fill_left_exact comp pivot a first _ (by omega)
    · rw [if_neg h0]
      rcases hb.exl with h1 | h1
      · exact absurd h1 h0
      · rw [z7 h0]; exact h1.1
  have hR : ExactR comp pivot a lm1
      (if right = 0 then fill_right comp pivot a rs.toNat 0 lm1 right else right) rs.toNat := by
    by_cases h0 : right = 0
    · rw [if_pos h0, h0]; exact fill_right_exact comp pivot a lm1 _ (by omega)
    · rw [if_neg h0]
      rcases hb.exr with h1 | h1
      · exact absurd h1 h0
      · rw [z8 h0]; exact h1.1
  obtain ⟨s1, s2, s3, s4, s5⟩ := swap_bitmap_pos_spec h pivot first lm1 ls.toNat rs.toNat n
    hlo hhi (fun _ _ => by omega) 64 a _ _ hinv.len hL hR (fun m _ => by omega)
  generalize __swap_bitmap_pos first lm1 64 a
    (if left = 0 then fill_left comp pivot a ls.toNat 0 first left else left)
    (if right = 0 then fill_right comp pivot a rs.toNat 0 lm1 right else right) = r at *
  obtain ⟨a3, l3, r3⟩ := r
  simp only at s1 s2 s3 s4 s5 ⊢
  have hinv3 : PartInv comp pivot hole n a3 first lm1 :=
    partInv_of_same hinv (by rw [s1.length_eq]; exact hinv.len) s2
  by_cases hl3 : l3 = 0
  · rw [if_neg (by simpa using hl3)]
    rw [hl3] at s3
    have hA := partInv_extend_left hinv3 ls.toNat s3 (by omega) (by omega)
    have e1 : first + ((ls.toNat : Nat) : Int) = first + ls := by omega
    rw [e1] at hA
    simp only [hl3, if_true]
    by_cases hr3 : r3 = 0
    · rw [if_neg (by simpa using hr3)]
      rw [hr3] at s4
      have hB := partInv_extend_right hA rs.toNat s4 (by omega)
      exact ⟨s1, partInv_close hB (by omega) (by omega) (by omega) (by omega)⟩
    · rw [if_pos hr3]
      obtain ⟨m, hm⟩ := exists_bit_of_ne_zero r3 hr3
      have hm1 := (exactR_bit s4 m hm).1
      simp only [hr3, if_false]
      have e2 : lm1 - 0 = lm1 := by omega
      rw [e2]
      have := right_side_loop_spec h pivot n lm1 64 a3 (first + ls) r3 hA (by omega)
        (by
          have e3 : (lm1 - (first + ls) + 1).toNat = rs.toNat := by omega
          rw [e3]; exact s4)
        (fun k hk => by
          by_contra hc
          have := testBit_false_of_ge r3 s4.1 k (by omega)
          rw [hk] at this
          exact Bool.noConfusion this)
      exact ⟨this.1.trans s1, this.2⟩
  · rw [if_pos hl3]
    have hr3 : r3 = 0 := by
      rcases s5 with h0 | h0
      · exact absurd h0 hl3
      · exact h0
    obtain ⟨m, hm⟩ := exists_bit_of_ne_zero l3 hl3
    have hm1 := (exactL_bit s3 m hm).1
    simp only [hl3, hr3, if_false, if_true]
    rw [hr3] at s4
    have hB := partInv_extend_right hinv3 rs.toNat s4 (by omega)
    have e1 : lm1 - ((rs.toNat : Nat) : Int) = lm1 - rs := by omega
    rw [e1] at hB
    have e2 : first + 0 = first := by omega
    rw [e2]
    have := left_side_loop_spec h pivot n first 64 a3 (lm1 - rs) l3 hB (by omega)
      (by
        have e3 : (lm1 - rs - first + 1).toNat = ls.toNat := by omega
        rw [e3]; exact s3)
      (fun k hk => by
        by_contra hc
        have := testBit_false_of_ge l3 s3.1 k (by omega)
        rw [hk] at this
        exact Bool.noConfusion this)
    refine ⟨this.1.trans s1, ?_⟩
    have e4 : (left_side_loop first 64 a3 (lm1 - rs) l3).2 + 1 - 1
        = (left_side_loop first 64 a3 (lm1 - rs) l3).2 := by omega
    simp only [e4]
    exact this.2

/-! ### The scans at the start -/

theorem scan_unguarded_spec (comp : α → α → Bool) (pivot : α) (a : List α) :
    ∀ (fuel : Nat) (first : Int), 0 ≤ first →
      (∃ m : Nat, first < m ∧ (m : Int) - first ≤ fuel ∧ comp pivot (rd a m) = true) →
      (first < scan_unguarded comp pivot a fuel first
        ∧ comp pivot (rdi a (scan_unguarded comp pivot a fuel first)) = true
        ∧ ∀ i : Nat, first < i → (i : Int) < scan_unguarded comp pivot a fuel first →
            comp pivot (rd a i) = false) := by
  intro fuel
  induction fuel with
  | zero =>
    intro first _ hm
    obtain ⟨m, h1, h2, _⟩ := hm
    omega
  | succ fuel ih =>
    intro first h0 hm
    obtain ⟨m, h1, h2, h3⟩ := hm
    simp only [scan_unguarded]
    by_cases hc : comp pivot (rdi a (first + 1)) = true
    · rw [if_neg (by simp [hc])]
      exact ⟨by omega, hc, fun i i1 i2 => by omega⟩
    · have hc2 : comp pivot (rdi a (first + 1)) = false := by simpa using hc
      rw [if_pos (by simp [hc2])]
      have hne : (m : Int) ≠ first + 1 := by
        intro e
        rw [rdi_eq_rd a _ m e.symm, h3] at hc2
        exact Bool.noConfusion hc2
      obtain ⟨j1, j2, j3⟩ := ih (first + 1) (by omega) ⟨m, by omega, by omega, h3⟩
      refine ⟨by omega, j2, fun i i1 i2 => ?_⟩
      by_cases hi : (i : Int) = first + 1
      · rw [rdi_eq_rd a _ i hi.symm] at hc2
        exact hc2
      · exact j3 i (by omega) i2

theorem scan_guarded_spec (comp : α → α → Bool) (pivot : α) (a : List α) (last : Int) :
    ∀ (fuel : Nat) (first : Int), 0 ≤ first → first < last → last - first ≤ fuel →
      (first < scan_guarded comp pivot a last fuel first
        ∧ scan_guarded comp pivot a last fuel first ≤ last
        ∧ (scan_guarded comp pivot a last fuel first < last →
            comp pivot (rdi a (scan_guarded comp pivot a last fuel first)) = true)
        ∧ ∀ i : Nat, first < i → (i : Int) < scan_guarded comp pivot a last fuel first →
            comp pivot (rd a i) = false) := by
  intro fuel
  induction fuel with
  | zero => intro first _ h1 h2; omega
  | succ fuel ih =>
    intro first h0 h1 h2
    simp only [scan_guarded]
    by_cases hc : first + 1 < last ∧ comp pivot (rdi a (first + 1)) = false
    · rw [if_pos hc]
      obtain ⟨j1, j2, j3, j4⟩ := ih (first + 1) (by omega) hc.1 (by omega)
      refine ⟨by omega, j2, j3, fun i i1 i2 => ?_⟩
      by_cases hi : (i : Int) = first + 1
      · have := hc.2
        rwa [rdi_eq_rd a _ i hi.symm] at this
      · exact j4 i (by omega) i2
    · rw [if_neg hc]
      refine ⟨by omega, by omega, fun hlt => ?_, fun i i1 i2 => by omega⟩
      cases hv : comp pivot (rdi a (first + 1)) with
      | true => rfl
      | false => exact absurd ⟨hlt, hv⟩ hc

theorem scan_back_spec (comp : α → α → Bool) (pivot : α) (a : List α) (g : Nat)
    (hp : comp pivot (rd a g) = false) :
    ∀ (fuel : Nat) (last : Int), (g : Int) < last → last - g ≤ fuel →
      ((g : Int) ≤ scan_back comp pivot a fuel last
        ∧ scan_back comp pivot a fuel last < last
        ∧ comp pivot (rdi a (scan_back comp pivot a fuel last)) = false
        ∧ ∀ i : Nat, scan_back comp pivot a fuel last < (i : Int) → (i : Int) < last →
            comp pivot (rd a i) = true) := by
  intro fuel
  induction fuel with
  | zero => intro last h1 h2; omega
  | succ fuel ih =>
    intro last h1 h2
    simp only [scan_back]
    by_cases hc : comp pivot (rdi a (last - 1)) = true
    · rw [if_pos hc]
      have hne : last - 1 ≠ g := by
        intro e
        rw [rdi_eq_rd a _ g e, hp] at hc
        exact Bool.noConfusion hc
      obtain ⟨j1, j2, j3, j4⟩ := ih (last - 1) (by omega) (by omega)
      refine ⟨j1, by omega, j3, fun i i1 i2 => ?_⟩
      by_cases hi : (i : Int) = last - 1
      · rwa [rdi_eq_rd a _ i hi.symm] at hc
      · exact j4 i i1 (by omega)
    · rw [if_neg hc]
      exact ⟨by omega, by omega, by simpa using hc, fun i i1 i2 => by omega⟩

theorem partition_start_spec {comp : α → α → Bool} (h : StrictWeakOrder comp) (pivot : α)
    (a : List α) (hne : 0 < a.length)
    (hg : ∃ g : Nat, g < a.length ∧ comp pivot (rd a g) = false) :
    (partition_start comp pivot a).1.Perm a
      ∧ PartInv comp pivot (rd a 0) a.length (partition_start comp pivot a).1
          (partition_start comp pivot a).2.1 (partition_start comp pivot a).2.2.1 := by
  obtain ⟨g, hg1, hg2⟩ := hg
  unfold partition_start
  dsimp only
  -- the first scan
  have hF : ∃ f : Int,
      (if comp pivot (rdi a ((a.length : Int) - 1)) then
          scan_unguarded comp pivot a a.length 0
        else scan_guarded comp pivot a (a.length : Int) a.length 0) = f
      ∧ 1 ≤ f ∧ f ≤ a.length
      ∧ (f < a.length → comp pivot (rdi a f) = true)
      ∧ ∀ i : Nat, 1 ≤ i → (i : Int) < f → comp pivot (rd a i) = false := by
    by_cases hc : comp pivot (rdi a ((a.length : Int) - 1)) = true
    · rw [if_pos hc]
      have hc' := hc
      rw [rdi_eq_rd a _ (a.length - 1) (by omega)] at hc'
      have hn1 : a.length - 1 ≠ 0 := by
        intro e
        have hg0 : g = 0 := by omega
        rw [hg0] at hg2
        rw [e, hg2] at hc'
        exact Bool.noConfusion hc'
      obtain ⟨j1, j2, j3⟩ := scan_unguarded_spec comp pivot a a.length 0 (by omega)
        ⟨a.length - 1, by omega, by omega, hc'⟩
      refine ⟨_, rfl, by omega, ?_, fun _ => j2, fun i i1 i2 => j3 i (by omega) i2⟩
      by_contra hgt
      have := j3 (a.length - 1) (by omega) (by omega)
      rw [hc'] at this
      exact Bool.noConfusion this
    · rw [if_neg hc]
      obtain ⟨j1, j2, j3, j4⟩ := scan_guarded_spec comp pivot a (a.length : Int) a.length 0
        (by omega) (by omega) (by omega)
      exact ⟨_, rfl, by omega, j2, j3, fun i i1 i2 => j4 i (by omega) i2⟩
  obtain ⟨f, hf0, hf1, hf2, hf3, hf4⟩ := hF
  rw [hf0]
  by_cases hfl : f < a.length
  · rw [if_pos hfl]
    obtain ⟨k1, k2, k3, k4⟩ := scan_back_spec comp pivot a g hg2 a.length (a.length : Int)
      (by omega) (by omega)
    generalize scan_back comp pivot a a.length (a.length : Int) = l at *
    have hfl2 : f ≠ l := by
      intro e
      rw [e] at hf3
      rw [hf3 (by omega)] at k3
      exact Bool.noConfusion k3
    by_cases hal : f ≥ l
    · -- already partitioned
      have hd : decide (f ≥ l) = true := by simpa using hal
      simp only [hd, Bool.not_true, Bool.false_eq_true, if_false]
      refine ⟨List.Perm.refl _, ?_⟩
      have hl1 : f ≤ l + 1 := by
        by_contra hc
        have i1 := k4 (f - 1).toNat (by omega) (by omega)
        have i2 := hf4 (f - 1).toNat (by omega) (by omega)
        rw [i1] at i2
        exact Bool.noConfusion i2
      exact {
        len := rfl
        piv := rfl
        lo := hf1
        hi := by omega
        gap := by omega
        fn := hf2
        r1 := hf4
        r2 := fun i i1 i2 i3 => h.asymm _ _ (k4 i (by omega) (by omega)) }
    · have hd : decide (f ≥ l) = false := by simpa using hal
      simp only [hd, Bool.not_false, if_true]
      have hx0 : (0 : Int) ≤ f := by omega
      have hy0 : (0 : Int) ≤ l := by omega
      refine ⟨iter_swapi_perm a f l hx0 hfl hy0 (by omega), ?_⟩
      exact {
        len := length_iter_swapi a f l
        piv := by
          exact rd_iter_swapi_of_ne a f l hx0 hy0 0 (by omega) (by omega)
        lo := by omega
        hi := by omega
        gap := by omega
        fn := by omega
        r1 := fun i i1 i2 => by
          by_cases hi : (i : Int) = f
          · have := rdi_iter_swapi_left a f l hx0 hfl hy0 (by omega)
            rw [rdi_eq_rd _ _ i hi.symm] at this
            rw [this]
            exact k3
          · rw [rd_iter_swapi_of_ne a f l hx0 hy0 i hi (by omega)]
            exact hf4 i i1 (by omega)
        r2 := fun i i1 i2 i3 => by
          by_cases hi : (i : Int) = l
          · have := rdi_iter_swapi_right a f l hy0 (by omega)
            rw [rdi_eq_rd _ _ i hi.symm] at this
            rw [this]
            exact h.asymm _ _ (hf3 hfl)
          · rw [rd_iter_swapi_of_ne a f l hx0 hy0 i (by omega) hi]
            exact h.asymm _ _ (k4 i (by omega) (by omega)) }
  · rw [if_neg hfl]
    have hfe : f = a.length := by omega
    have hd : decide (f ≥ (a.length : Int)) = true := by simpa using (by omega : f ≥ a.length)
    simp only [hd, Bool.not_true, Bool.false_eq_true, if_false]
    refine ⟨List.Perm.refl _, ?_⟩
    exact {
      len := rfl
      piv := rfl
      lo := hf1
      hi := by omega
      gap := by omega
      fn := hf2
      r1 := hf4
      r2 := fun i i1 i2 i3 => by omega }

/-! ### The whole partition -/

theorem scanGuarded_sentinel {comp : α → α → Bool} (h : StrictWeakOrder comp)
    (moved : α → α) (a : List α) (hne : 0 < a.length) :
    ScanGuarded comp moved a ↔
      ∃ g : Nat, g < a.length ∧ comp (rd a 0) (rd (a.set 0 (moved (rd a 0))) g) = false := by
  constructor
  · rintro (⟨i, h1, h2, h3⟩ | h0)
    · exact ⟨i, h2, by rw [rd_set_of_ne a 0 i _ (by omega)]; exact h3⟩
    · exact ⟨0, hne, by rw [rd_set_self a 0 _ hne]; exact h0⟩
  · rintro ⟨g, h1, h2⟩
    by_cases hg : g = 0
    · subst hg
      rw [rd_set_self a 0 _ hne] at h2
      exact Or.inr h2
    · rw [rd_set_of_ne a 0 g _ (fun e => hg e.symm)] at h2
      exact Or.inl ⟨g, by omega, h1, h2⟩

theorem scanGuarded_of_copy {comp : α → α → Bool} (h : StrictWeakOrder comp) (a : List α) :
    ScanGuarded comp (fun x => x) a :=
  Or.inr (h.irrefl _)

theorem perm_set_front {a a4 : List α} {hole : α} (hne : 0 < a.length)
    (hp : a4.Perm (a.set 0 hole)) (h0 : rd a4 0 = hole) :
    (a4.set 0 (rd a 0)).Perm a := by
  cases a with
  | nil => simp at hne
  | cons x tl =>
    cases a4 with
    | nil =>
      have := hp.length_eq
      simp at this
    | cons y tl4 =>
      have hy : y = hole := by simpa [rd] using h0
      subst hy
      have hx : rd (x :: tl) 0 = x := by simp [rd]
      rw [hx]
      simp only [List.set_cons_zero] at hp ⊢
      exact (List.Perm.cons_inv hp).cons x

theorem place_pivot {comp : α → α → Bool} {pivot hole : α} {n : Nat} {a4 : List α} {F : Int}
    (hinv : PartInv comp pivot hole n a4 F (F - 1)) :
    ((if (0 : Int) ≠ F - 1 then a4.set (0 : Int).toNat (rdi a4 (F - 1)) else a4).set
        (F - 1).toNat pivot) = iter_swap (a4.set 0 pivot) 0 (F - 1).toNat := by
  have hlo := hinv.lo
  have hfn := hinv.fn
  have hlen := hinv.len
  by_cases h0 : (0 : Int) ≠ F - 1
  · rw [if_pos h0]
    have hp : (0 : Nat) ≠ (F - 1).toNat := by omega
    unfold iter_swap rdi
    rw [rd_set_of_ne a4 0 _ pivot hp, rd_set_self a4 0 pivot (by omega), List.set_set]
    rfl
  · rw [if_neg h0]
    have e : (F - 1).toNat = 0 := by omega
    rw [e, iter_swap_self]

theorem bitset_partition_spec {comp : α → α → Bool} (h : StrictWeakOrder comp)
    (moved : α → α) (a : List α) (hne : 0 < a.length) (hg : ScanGuarded comp moved a) :
    PartitionPost comp a (__bitset_partition comp moved a) := by
  have hg2 := (scanGuarded_sentinel h moved a hne).1 hg
  unfold __bitset_partition
  have e0 : rdi a 0 = rd a 0 := rdi_natCast a 0
  simp only [e0]
  have hbl : (a.set (0 : Int).toNat (moved (rd a 0))).length = a.length := List.length_set ..
  have hb0 : rd (a.set (0 : Int).toNat (moved (rd a 0))) 0 = moved (rd a 0) :=
    rd_set_self a 0 _ hne
  have hbg : ∃ g : Nat, g < (a.set (0 : Int).toNat (moved (rd a 0))).length
      ∧ comp (rd a 0) (rd (a.set (0 : Int).toNat (moved (rd a 0))) g) = false := by
    obtain ⟨g, g1, g2⟩ := hg2
    exact ⟨g, by rw [hbl]; exact g1, g2⟩
  have hbp : ∀ a4 : List α, a4.Perm (a.set (0 : Int).toNat (moved (rd a 0))) →
      rd a4 0 = moved (rd a 0) → (a4.set 0 (rd a 0)).Perm a :=
    fun a4 hp h0 => perm_set_front hne hp h0
  generalize a.set (0 : Int).toNat (moved (rd a 0)) = b at *
  obtain ⟨p1, p2⟩ := partition_start_spec h (rd a 0) b (by omega) hbg
  rw [hb0, hbl] at p2
  rw [hbl]
  generalize partition_start comp (rd a 0) b = s at *
  obtain ⟨a1, f1, l1, ap⟩ := s
  simp only at p1 p2 ⊢
  obtain ⟨q1, q2, q3⟩ := block_loop_spec h (rd a 0) a.length a.length a1 f1 l1 0 0
    ⟨p2, Or.inl rfl, Or.inl rfl, Or.inl rfl⟩ (by have := p2.hi; have := p2.lo; omega)
  generalize block_loop comp (rd a 0) a.length a1 f1 l1 0 0 = r at *
  obtain ⟨a2, f2, l2, lb, rb⟩ := r
  simp only at q1 q2 q3 ⊢
  obtain ⟨t1, t2⟩ := partition_finish_spec h (rd a 0) a.length a2 f2 l2 lb rb q2 q3
  generalize partition_finish comp (rd a 0) a2 f2 l2 lb rb = t at *
  obtain ⟨a4, F⟩ := t
  simp only at t1 t2 ⊢
  rw [place_pivot t2]
  have hlo := t2.lo
  have hfn := t2.fn
  have hlen := t2.len
  have hclen : (a4.set 0 (rd a 0)).length = a.length := by rw [List.length_set]; exact hlen
  have hp : (F - 1).toNat < (a4.set 0 (rd a 0)).length := by omega
  have hc0 : rd (a4.set 0 (rd a 0)) 0 = rd a 0 := rd_set_self a4 0 _ (by omega)
  have hci : ∀ i : Nat, i ≠ 0 → rd (a4.set 0 (rd a 0)) i = rd a4 i :=
    fun i hi => rd_set_of_ne a4 0 i _ (fun e => hi e.symm)
  refine ⟨?_, by simp only; omega, by simp only; omega, ?_, ?_, ?_⟩
  · exact (iter_swap_perm _ 0 _ (by omega) hp).trans
      (hbp a4 (t1.trans (q1.trans p1)) t2.piv)
  · simp only
    rw [rd_iter_swap_right _ 0 _ hp]
    exact hc0
  · intro i hi
    simp only at hi ⊢
    by_cases hi0 : i = 0
    · subst hi0
      rw [rd_iter_swap_left _ 0 _ (by omega) hp, hci _ (by omega)]
      exact t2.r1 _ (by omega) (by omega)
    · rw [rd_iter_swap_of_ne _ 0 _ i hi0 (by omega), hci i hi0]
      exact t2.r1 i (by omega) (by omega)
  · intro i hi hin
    simp only at hi ⊢
    rw [rd_iter_swap_of_ne _ 0 _ i (by omega) (by omega), hci i (by omega)]
    exact t2.r2 i (by omega) (by omega) hin

/-! ## The function `__bitsetsort_loop` -/

theorem length_sort3_at {lt : α → α → Bool} {cs : List α → Nat → Nat → List α}
    (hcs : IsCondSwap lt cs) (a : List α) (a0 a1 a2 : Nat) (h0 : a0 < a.length)
    (h1 : a1 < a.length) (h2 : a2 < a.length) :
    (__sorting_network.__sort3_at cs a a0 a1 a2).length = a.length :=
  (sort3_at_perm hcs a a0 a1 a2 h0 h1 h2).length_eq

theorem select_pivot_perm {lt : α → α → Bool} {cs : List α → Nat → Nat → List α}
    (hcs : IsCondSwap lt cs) (a : List α) (hlen : 32 < a.length) :
    (select_pivot cs a).Perm a := by
  unfold select_pivot
  simp only
  by_cases h128 : a.length > 128
  · rw [if_pos h128]
    have p1 := sort3_at_perm hcs a 0 (a.length / 2) (a.length - 1) (by omega) (by omega)
      (by omega)
    have l1 := p1.length_eq
    have p2 := sort3_at_perm hcs _ 1 (a.length / 2 - 1) (a.length - 2)
      (by rw [l1]; omega) (by rw [l1]; omega) (by rw [l1]; omega)
    have l2 := p2.length_eq
    have p3 := sort3_at_perm hcs _ 2 (a.length / 2 + 1) (a.length - 3)
      (by rw [l2, l1]; omega) (by rw [l2, l1]; omega) (by rw [l2, l1]; omega)
    have l3 := p3.length_eq
    have p4 := sort3_at_perm hcs _ (a.length / 2 - 1) (a.length / 2) (a.length / 2 + 1)
      (by rw [l3, l2, l1]; omega) (by rw [l3, l2, l1]; omega) (by rw [l3, l2, l1]; omega)
    have l4 := p4.length_eq
    exact (iter_swap_perm _ 0 (a.length / 2) (by rw [l4, l3, l2, l1]; omega)
      (by rw [l4, l3, l2, l1]; omega)).trans (p4.trans (p3.trans (p2.trans p1)))
  · rw [if_neg h128]
    exact sort3_at_perm hcs a (a.length / 2) 0 (a.length - 1) (by omega) (by omega) (by omega)

theorem cswap_ordered {lt : α → α → Bool} (h : StrictWeakOrder lt) (a : List α) (x y : Nat)
    (hx : x < a.length) (hy : y < a.length) :
    lt (rd (cswap lt a x y) y) (rd (cswap lt a x y) x) = false := by
  unfold cswap
  by_cases hc : lt (rd a y) (rd a x) = true
  · rw [if_pos hc, rd_iter_swap_right a x y hy, rd_iter_swap_left a x y hx hy]
    exact h.asymm _ _ hc
  · rw [if_neg hc]
    simpa using hc

/-- After `__sort3` on three iterators the value at the second is not less than the value
at the first. -/
theorem sort3_at_ordered {lt : α → α → Bool} {cs : List α → Nat → Nat → List α}
    (h : StrictWeakOrder lt) (hcs : IsCondSwap lt cs) (a : List α) (a0 a1 a2 : Nat)
    (h0 : a0 < a.length) (h1 : a1 < a.length) (h2 : a2 < a.length) :
    lt (rd (__sorting_network.__sort3_at cs a a0 a1 a2) a1)
      (rd (__sorting_network.__sort3_at cs a a0 a1 a2) a0) = false := by
  unfold __sorting_network.__sort3_at
  have e1 := hcs a a1 a2 h1 h2
  have l1 : (cs a a1 a2).length = a.length := by rw [e1, length_cswap]
  have e2 := hcs (cs a a1 a2) a0 a2 (by rw [l1]; exact h0) (by rw [l1]; exact h2)
  have l2 : (cs (cs a a1 a2) a0 a2).length = a.length := by rw [e2, length_cswap, l1]
  rw [hcs (cs (cs a a1 a2) a0 a2) a0 a1 (by rw [l2]; exact h0) (by rw [l2]; exact h1)]
  exact cswap_ordered h _ a0 a1 (by rw [l2]; exact h0) (by rw [l2]; exact h1)

/-- The choice of the pivot guards the scan from the right of `__bitset_partition`: a value
after the first is not greater than the first. -/
theorem select_pivot_guard {lt : α → α → Bool} {cs : List α → Nat → Nat → List α}
    (h : StrictWeakOrder lt) (hcs : IsCondSwap lt cs) (a : List α) (hlen : 32 < a.length) :
    ∃ i : Nat, 1 ≤ i ∧ i < (select_pivot cs a).length
      ∧ lt (rd (select_pivot cs a) 0) (rd (select_pivot cs a) i) = false := by
  have hl := (select_pivot_perm hcs a hlen).length_eq
  rw [hl]
  unfold select_pivot
  simp only
  by_cases h128 : a.length > 128
  · rw [if_pos h128]
    have p1 := sort3_at_perm hcs a 0 (a.length / 2) (a.length - 1) (by omega) (by omega)
      (by omega)
    have l1 := p1.length_eq
    have p2 := sort3_at_perm hcs _ 1 (a.length / 2 - 1) (a.length - 2)
      (by rw [l1]; omega) (by rw [l1]; omega) (by rw [l1]; omega)
    have l2 := p2.length_eq
    have p3 := sort3_at_perm hcs _ 2 (a.length / 2 + 1) (a.length - 3)
      (by rw [l2, l1]; omega) (by rw [l2, l1]; omega) (by rw [l2, l1]; omega)
    have l3 := p3.length_eq
    have p4 := sort3_at_perm hcs _ (a.length / 2 - 1) (a.length / 2) (a.length / 2 + 1)
      (by rw [l3, l2, l1]; omega) (by rw [l3, l2, l1]; omega) (by rw [l3, l2, l1]; omega)
    have l4 := p4.length_eq
    have o4 := sort3_at_ordered h hcs _ (a.length / 2 - 1) (a.length / 2) (a.length / 2 + 1)
      (by rw [l3, l2, l1]; omega) (by rw [l3, l2, l1]; omega) (by rw [l3, l2, l1]; omega)
    refine ⟨a.length / 2 - 1, by omega, by omega, ?_⟩
    rw [rd_iter_swap_left _ 0 (a.length / 2) (by rw [l4, l3, l2, l1]; omega)
        (by rw [l4, l3, l2, l1]; omega),
      rd_iter_swap_of_ne _ 0 (a.length / 2) (a.length / 2 - 1) (by omega) (by omega)]
    exact o4
  · rw [if_neg h128]
    exact ⟨a.length / 2, by omega, by omega,
      sort3_at_ordered h hcs a (a.length / 2) 0 (a.length - 1) (by omega) (by omega)
        (by omega)⟩

theorem select_pivot_scanGuarded {comp : α → α → Bool} (h : StrictWeakOrder comp)
    (moved : α → α) (trivially : Bool) (a : List α) (hlen : 32 < a.length) :
    ScanGuarded comp moved
      (select_pivot (__sorting_network.__conditional_swap trivially comp) a) :=
  Or.inl (select_pivot_guard h (isCondSwap_conditional_swap trivially comp) a hlen)

theorem split_at (a : List α) (pos : Nat) (hpos : pos < a.length) :
    a = a.take pos ++ (a.drop pos).take 1 ++ a.drop (pos + 1)
      ∧ (a.drop pos).take 1 = [rd a pos] := by
  have e : (a.drop pos).take 1 = [rd a pos] := by
    rw [List.drop_eq_getElem_cons hpos, List.take_succ_cons, List.take_zero,
      rd_eq_getElem a pos hpos]
  refine ⟨?_, e⟩
  rw [List.append_assoc]
  conv_lhs => rw [← List.take_append_drop pos a]
  congr 1
  conv_lhs => rw [← List.take_append_drop 1 (a.drop pos)]
  rw [List.drop_drop, Nat.add_comm]

/-- Two sorted parts with the pivot between them make a sorted range. -/
theorem sorted_glue {comp : α → α → Bool} (h : StrictWeakOrder comp) (pivot : α)
    {lower upper L U : List α} (hL : L.Perm lower) (hU : U.Perm upper)
    (sL : SortedBy comp L) (sU : SortedBy comp U)
    (h1 : ∀ x ∈ lower, comp pivot x = false) (h2 : ∀ y ∈ upper, comp y pivot = false) :
    (L ++ [pivot] ++ U).Perm (lower ++ [pivot] ++ upper)
      ∧ SortedBy comp (L ++ [pivot] ++ U) := by
  refine ⟨(hL.append_right _).append hU, ?_⟩
  rw [sortedBy_iff_pairwise] at sL sU ⊢
  rw [List.append_assoc, List.pairwise_append]
  refine ⟨sL, ?_, ?_⟩
  · rw [List.singleton_append, List.pairwise_cons]
    exact ⟨fun y hy => h2 y (hU.subset hy), sU⟩
  · intro x hx y hy
    rw [List.singleton_append, List.mem_cons] at hy
    have hx1 := h1 x (hL.subset hx)
    rcases hy with hy | hy
    · rw [hy]; exact hx1
    · exact h.le_trans x pivot y hx1 (h2 y (hU.subset hy))

theorem bitsetsort_loop_spec {heap_sort : List α → List α} (moved : α → α)
    (trivially : Bool) {comp : α → α → Bool} (h : StrictWeakOrder comp)
    (hs : SortsRanges comp heap_sort) :
    ∀ (fuel : Nat) (a : List α) (limit : Int), a.length < fuel →
      (__bitsetsort_loop heap_sort moved trivially comp fuel a limit).Perm a
        ∧ SortedBy comp (__bitsetsort_loop heap_sort moved trivially comp fuel a limit) := by
  intro fuel
  induction fuel with
  | zero => intro a limit hf; omega
  | succ fuel ih =>
    intro a limit hf
    have hb : __bitonic.__batch = 8 := rfl
    have hm : __bitonic.__small_sort_max = 32 := rfl
    simp only [__bitsetsort_loop, hb, hm]
    by_cases hl0 : limit = 0
    · rw [if_pos hl0]
      exact hs a
    · rw [if_neg hl0]
      by_cases h8 : a.length ≤ 8
      · rw [if_pos h8]
        exact sort1to8_sorts h (isCondSwap_conditional_swap trivially comp) a h8
      · rw [if_neg h8]
        by_cases h32 : a.length ≤ 32
        · rw [if_pos h32]
          exact (small_sort_sorts trivially h a h32).2
        · rw [if_neg h32]
          have hsel := select_pivot_perm (isCondSwap_conditional_swap trivially comp) a
            (by omega)
          have hgd := select_pivot_scanGuarded h moved trivially a (by omega)
          generalize select_pivot (__sorting_network.__conditional_swap trivially comp) a
            = a1 at *
          have hlen1 := hsel.length_eq
          obtain ⟨p1, p2, p3, p4, p5, p6⟩ := bitset_partition_spec h moved a1 (by omega) hgd
          generalize __bitset_partition comp moved a1 = ret at *
          obtain ⟨a2, pos, ap⟩ := ret
          simp only at p1 p2 p3 p4 p5 p6 ⊢
          have hlen2 := p1.length_eq
          have hpos : pos.toNat < a2.length := by omega
          obtain ⟨e1, e2⟩ := split_at a2 pos.toNat hpos
          rw [p4] at e2
          rw [e2] at e1 ⊢
          have hlow : ∀ x ∈ a2.take pos.toNat, comp (rd a1 0) x = false := by
            intro x hx
            obtain ⟨i, hi, rfl⟩ := exists_rd_of_mem hx
            rw [List.length_take] at hi
            rw [rd_take _ _ _ (by omega)]
            exact p5 i (by omega)
          have hupp : ∀ y ∈ a2.drop (pos.toNat + 1), comp y (rd a1 0) = false := by
            intro y hy
            obtain ⟨i, hi, rfl⟩ := exists_rd_of_mem hy
            rw [List.length_drop] at hi
            rw [rd_drop]
            exact p6 _ (by omega) (by omega)
          have hll : (a2.take pos.toNat).length < fuel := by
            rw [List.length_take]; omega
          have hul : (a2.drop (pos.toNat + 1)).length < fuel := by
            rw [List.length_drop]; omega
          have hfin : ∀ L U : List α, L.Perm (a2.take pos.toNat) →
              U.Perm (a2.drop (pos.toNat + 1)) → SortedBy comp L → SortedBy comp U →
              (L ++ [rd a1 0] ++ U).Perm a ∧ SortedBy comp (L ++ [rd a1 0] ++ U) := by
            intro L U hL hU sL sU
            obtain ⟨g1, g2⟩ := sorted_glue h (rd a1 0) hL hU sL sU hlow hupp
            rw [← e1] at g1
            exact ⟨g1.trans (p1.trans hsel), g2⟩
          have iL := ih (a2.take pos.toNat) (limit - 1) hll
          have iU := ih (a2.drop (pos.toNat + 1)) (limit - 1) hul
          by_cases hap : ap = true
          · rw [if_pos hap]
            obtain ⟨l1, l2⟩ := partial_insertion_sort_spec h (a2.take pos.toNat)
            obtain ⟨u1, u2⟩ := partial_insertion_sort_spec h (a2.drop (pos.toNat + 1))
            have iL2 := ih (__partial_insertion_sort comp (a2.take pos.toNat)).2 (limit - 1)
              (by rw [l1.length_eq]; exact hll)
            have iU2 := ih (__partial_insertion_sort comp (a2.drop (pos.toNat + 1))).2
              (limit - 1) (by rw [u1.length_eq]; exact hul)
            by_cases hr : (__partial_insertion_sort comp (a2.drop (pos.toNat + 1))).1 = true
            · rw [if_pos hr]
              by_cases hl : (__partial_insertion_sort comp (a2.take pos.toNat)).1 = true
              · rw [if_pos hl]
                exact hfin _ _ l1 u1 (l2 hl) (u2 hr)
              · rw [if_neg hl]
                exact hfin _ _ (iL2.1.trans l1) u1 iL2.2 (u2 hr)
            · rw [if_neg hr]
              by_cases hl : (__partial_insertion_sort comp (a2.take pos.toNat)).1 = true
              · rw [if_pos hl]
                exact hfin _ _ l1 (iU2.1.trans u1) (l2 hl) iU2.2
              · rw [if_neg hl]
                exact hfin _ _ (iL2.1.trans l1) (iU2.1.trans u1) iL2.2 iU2.2
          · rw [if_neg hap]
            exact hfin _ _ iL.1 iU.1 iL.2 iU.2

/-- The function `bitsetsort` leaves a sorted permutation of the range. -/
theorem bitsetsort_spec {heap_sort : List α → List α} (moved : α → α) (trivially : Bool)
    {comp : α → α → Bool} (h : StrictWeakOrder comp) (hs : SortsRanges comp heap_sort)
    (a : List α) :
    (bitsetsort heap_sort moved trivially comp a).Perm a
      ∧ SortedBy comp (bitsetsort heap_sort moved trivially comp a) := by
  unfold bitsetsort __bitsetsort_internal
  exact bitsetsort_loop_spec moved trivially h hs (a.length + 1) a _ (Nat.lt_succ_self _)

/-! ## C20: `bitsetsort` sorts -/

theorem natLess_strictWeakOrder : StrictWeakOrder natLess where
  irrefl := fun a => by simp [natLess]
  trans := fun a b c h1 h2 => by
    simp only [natLess, decide_eq_true_eq] at h1 h2 ⊢
    omega
  incomp_trans := fun a b c h1 h2 h3 h4 => by
    simp only [natLess, decide_eq_false_iff_not, not_lt] at h1 h2 h3 h4 ⊢
    omega

theorem natHeapSort_sorts : SortsRanges natLess natHeapSort := by
  intro a
  refine ⟨List.perm_insertionSort _ a, ?_⟩
  rw [sortedBy_iff_pairwise]
  have hs := List.sorted_insertionSort (fun x y : Nat => x ≤ y) a
  unfold natHeapSort
  refine List.Pairwise.imp ?_ hs
  intro x y hxy
  simp only [natLess, decide_eq_false_iff_not, not_lt]
  exact hxy

/-- C20. For every comparator that is a strict weak ordering and every range, of any length,
the range after `bitsetsort` is a permutation of the range before it and is sorted: there
are no positions `i < j` with `comp (a[j]) (a[i])`. The heap sort of the standard library,
which the code falls back to at depth limit 0, is taken to meet its contract. Either branch
of the conditional swaps may be the one compiled in, and a move may leave any value in the
object moved from. -/
theorem bitsetsort_sorts {α : Type} [Inhabited α] (heap_sort : List α → List α)
    (moved : α → α) (trivially : Bool) (comp : α → α → Bool) (h : StrictWeakOrder comp)
    (hs : SortsRanges comp heap_sort) (a : List α) :
    (bitsetsort heap_sort moved trivially comp a).Perm a
      ∧ SortedBy comp (bitsetsort heap_sort moved trivially comp a) :=
  bitsetsort_spec moved trivially h hs a

theorem bitsetsort_sorts_witness :
    StrictWeakOrder natLess ∧ SortsRanges natLess natHeapSort
      ∧ ((bitsetsort natHeapSort (fun _ => 0) true natLess [3, 1, 2]).Perm [3, 1, 2]
        ∧ SortedBy natLess (bitsetsort natHeapSort (fun _ => 0) true natLess [3, 1, 2])) :=
  ⟨natLess_strictWeakOrder, natHeapSort_sorts,
    bitsetsort_sorts natHeapSort (fun _ => 0) true natLess natLess_strictWeakOrder
      natHeapSort_sorts [3, 1, 2]⟩

/-! ## C26: the sorting networks -/

/-- C26. For every strict weak ordering `comp` and every range of at most eight values,
`__sort1to8` driven by `__conditional_swap` leaves a permutation of the range in ascending
order (no `i < j` with `comp (a[j]) (a[i])`), and driven by `__reverse_conditional_swap` a
permutation in descending order (no `i < j` with `comp (a[i]) (a[j])`), whichever branch
of the swaps is compiled in. On every range and every two positions inside it, the branch
for trivially copyable values and the branch with `iter_swap` give the same range, for
both conditional swaps. -/
theorem sorting_networks_sort (trivially : Bool) (comp : α → α → Bool)
    (h : StrictWeakOrder comp) (a : List α) (hlen : a.length ≤ 8) :
    (__sorting_network.__sort1to8 (__sorting_network.__conditional_swap trivially comp) a
        (a.length : Int)).Perm a
    ∧ (∀ i j : Nat, i < j →
        j < (__sorting_network.__sort1to8 (__sorting_network.__conditional_swap trivially comp)
          a (a.length : Int)).length →
        comp (rd (__sorting_network.__sort1to8
            (__sorting_network.__conditional_swap trivially comp) a (a.length : Int)) j)
          (rd (__sorting_network.__sort1to8
            (__sorting_network.__conditional_swap trivially comp) a (a.length : Int)) i)
          = false)
    ∧ (__sorting_network.__sort1to8 (__sorting_network.__reverse_conditional_swap trivially comp)
        a (a.length : Int)).Perm a
    ∧ (∀ i j : Nat, i < j →
        j < (__sorting_network.__sort1to8
          (__sorting_network.__reverse_conditional_swap trivially comp) a
          (a.length : Int)).length →
        comp (rd (__sorting_network.__sort1to8
            (__sorting_network.__reverse_conditional_swap trivially comp) a (a.length : Int)) i)
          (rd (__sorting_network.__sort1to8
            (__sorting_network.__reverse_conditional_swap trivially comp) a (a.length : Int)) j)
          = false)
    ∧ (∀ (b : List α) (x y : Nat), x < b.length → y < b.length →
        __sorting_network.__conditional_swap true comp b x y
          = __sorting_network.__conditional_swap false comp b x y
        ∧ __sorting_network.__reverse_conditional_swap true comp b x y
          = __sorting_network.__reverse_conditional_swap false comp b x y) := by
  obtain ⟨u1, u2⟩ := sort1to8_sorts h (isCondSwap_conditional_swap trivially comp) a hlen
  obtain ⟨d1, d2⟩ := sort1to8_sorts (flipComp_strictWeakOrder h)
    (isCondSwap_reverse_conditional_swap trivially comp) a hlen
  refine ⟨u1, u2, d1, d2, fun b x y hx hy => ⟨?_, ?_⟩⟩
  · rw [conditional_swap_eq true comp b x y hx hy, conditional_swap_eq false comp b x y hx hy]
  · rw [reverse_conditional_swap_eq true comp b x y hx hy,
      reverse_conditional_swap_eq false comp b x y hx hy]

/-- C26 at a concrete input: five natural numbers under `<`. -/
theorem sorting_networks_sort_witness :
    StrictWeakOrder natLess ∧ [4, 1, 3, 1, 2].length ≤ 8
    ∧ __sorting_network.__sort1to8 (__sorting_network.__conditional_swap true natLess)
        [4, 1, 3, 1, 2] 5 = [1, 1, 2, 3, 4]
    ∧ __sorting_network.__sort1to8 (__sorting_network.__reverse_conditional_swap false natLess)
        [4, 1, 3, 1, 2] 5 = [4, 3, 2, 1, 1]
    ∧ (__sorting_network.__sort1to8 (__sorting_network.__conditional_swap true natLess)
        [4, 1, 3, 1, 2] (([4, 1, 3, 1, 2] : List Nat).length : Int)).Perm [4, 1, 3, 1, 2] :=
  ⟨natLess_strictWeakOrder, by decide, by decide, by decide,
    (sorting_networks_sort true natLess natLess_strictWeakOrder [4, 1, 3, 1, 2]
      (by decide)).1⟩

/-! ## C27: `__small_sort` -/

/-- C27. For every strict weak ordering and every range: `__small_sort` returns `false`
with the range untouched exactly when the range is longer than 32, and for a range of at
most 32 values it returns `true` and leaves a sorted permutation of the range. On the
way, `__enforce_order` leaves a permutation of the range in which every block of sixteen
values rises and then falls; `__forward_merge` turns a non-empty range that rises and then
falls into a sorted permutation of it, and `__backward_merge` into a permutation in
descending order. -/
theorem small_sort_contract (trivially : Bool) (comp : α → α → Bool)
    (h : StrictWeakOrder comp) (a : List α) :
    (__bitonic.__small_sort trivially comp a = (false, a) ↔ 32 < a.length)
    ∧ ((__bitonic.__small_sort trivially comp a).1 = false ↔ 32 < a.length)
    ∧ (a.length ≤ 32 →
        (__bitonic.__small_sort trivially comp a).1 = true
        ∧ (__bitonic.__small_sort trivially comp a).2.Perm a
        ∧ SortedBy comp (__bitonic.__small_sort trivially comp a).2)
    ∧ ((__bitonic.__enforce_order (__sorting_network.__conditional_swap trivially comp)
          (__sorting_network.__reverse_conditional_swap trivially comp) a).Perm a
        ∧ Bitonic16 comp
          (__bitonic.__enforce_order (__sorting_network.__conditional_swap trivially comp)
            (__sorting_network.__reverse_conditional_swap trivially comp) a))
    ∧ (∀ src : List α, NoValley comp src → 0 < src.length →
        (__bitonic.__forward_merge comp src).Perm src
        ∧ SortedBy comp (__bitonic.__forward_merge comp src)
        ∧ (__bitonic.__backward_merge comp src).Perm src
        ∧ SortedBy (flipComp comp) (__bitonic.__backward_merge comp src)) := by
  have hiff : (__bitonic.__small_sort trivially comp a).1 = false ↔ 32 < a.length := by
    constructor
    · intro hf
      by_contra hle
      have := (small_sort_sorts trivially h a (by omega)).1
      rw [this] at hf
      exact Bool.noConfusion hf
    · intro hl
      rw [small_sort_of_long trivially comp a hl]
  refine ⟨?_, hiff, fun hle => small_sort_sorts trivially h a hle, ?_, ?_⟩
  · constructor
    · intro he
      exact hiff.1 (by rw [he])
    · exact small_sort_of_long trivially comp a
  · have := enforce_order_spec h (isCondSwap_conditional_swap trivially comp)
      (isCondSwap_reverse_conditional_swap trivially comp) a
    exact ⟨this.1, this.2.1⟩
  · intro src hv hne
    have f := forward_merge_sorts h src hv hne
    have b := backward_merge_sorts h src hv hne
    exact ⟨f.1, f.2, b.1, b.2⟩

/-- C27 at a concrete input: twenty natural numbers under `<`. -/
theorem small_sort_contract_witness :
    StrictWeakOrder natLess
    ∧ __bitonic.__small_sort true natLess
        [20, 3, 17, 5, 1, 19, 8, 12, 2, 15, 7, 10, 4, 18, 6, 14, 9, 13, 11, 16]
      = (true, [1, 2, 3, 4, 5, 6, 7, 8, 9, 10, 11, 12, 13, 14, 15, 16, 17, 18, 19, 20])
    ∧ ((__bitonic.__small_sort true natLess
        [20, 3, 17, 5, 1, 19, 8, 12, 2, 15, 7, 10, 4, 18, 6, 14, 9, 13, 11, 16]).1 = false
      ↔ 32 < [20, 3, 17, 5, 1, 19, 8, 12, 2, 15, 7, 10, 4, 18, 6, 14, 9, 13, 11, 16].length) :=
  ⟨natLess_strictWeakOrder, by decide,
    (small_sort_contract true natLess natLess_strictWeakOrder
      [20, 3, 17, 5, 1, 19, 8, 12, 2, 15, 7, 10, 4, 18, 6, 14, 9, 13, 11, 16]).2.1⟩

/-! ## C28: the partition -/

theorem partition_sizes_spec {comp : α → α → Bool} (h : StrictWeakOrder comp)
    (moved : α → α) (a : List α) (hne : 0 < a.length) (hg : ScanGuarded comp moved a) :
    0 ≤ (partition_sizes comp moved a).1 ∧ (partition_sizes comp moved a).1 ≤ 64
      ∧ -1 ≤ (partition_sizes comp moved a).2 ∧ (partition_sizes comp moved a).2 ≤ 64
      ∧ ((partition_sizes comp moved a).2 < 0 → (partition_sizes comp moved a).1 = 0) := by
  have hg2 := (scanGuarded_sentinel h moved a hne).1 hg
  unfold partition_sizes
  have e0 : rdi a 0 = rd a 0 := rdi_natCast a 0
  simp only [e0]
  have hbl : (a.set (0 : Int).toNat (moved (rd a 0))).length = a.length := List.length_set ..
  have hb0 : rd (a.set (0 : Int).toNat (moved (rd a 0))) 0 = moved (rd a 0) :=
    rd_set_self a 0 _ hne
  have hbg : ∃ g : Nat, g < (a.set (0 : Int).toNat (moved (rd a 0))).length
      ∧ comp (rd a 0) (rd (a.set (0 : Int).toNat (moved (rd a 0))) g) = false := by
    obtain ⟨g, g1, g2⟩ := hg2
    exact ⟨g, by rw [hbl]; exact g1, g2⟩
  generalize a.set (0 : Int).toNat (moved (rd a 0)) = b at *
  obtain ⟨p1, p2⟩ := partition_start_spec h (rd a 0) b (by omega) hbg
  rw [hb0, hbl] at p2
  rw [hbl]
  generalize partition_start comp (rd a 0) b = s at *
  obtain ⟨a1, f1, l1, ap⟩ := s
  simp only at p1 p2 ⊢
  obtain ⟨q1, q2, q3⟩ := block_loop_spec h (rd a 0) a.length a.length a1 f1 l1 0 0
    ⟨p2, Or.inl rfl, Or.inl rfl, Or.inl rfl⟩ (by have := p2.hi; have := p2.lo; omega)
  generalize block_loop comp (rd a 0) a.length a1 f1 l1 0 0 = r at *
  obtain ⟨a2, f2, l2, lb, rb⟩ := r
  simp only at q1 q2 q3 ⊢
  have hgap := q2.inv.gap
  obtain ⟨_, z2, z3, z4, z5, z6, _, _⟩ := last_block_sizes_spec (l2 - f2 + 1) lb rb
    (by omega) (by omega) q2.one
    (fun hl => by
      rcases q2.exl with h0 | h0
      · exact absurd h0 hl
      · omega)
    (fun hr => by
      rcases q2.exr with h0 | h0
      · exact absurd h0 hr
      · omega)
  exact ⟨z2, z3, z4, z5, z6⟩

theorem highest_bit_lt (x : Nat) (h0 : x ≠ 0) (h1 : x < 2 ^ 64) :
    0 ≤ (__block_size : Int) - 1 - (__clz x : Int)
      ∧ (__block_size : Int) - 1 - (__clz x : Int) < 64 := by
  obtain ⟨_, c2, c3, _, _⟩ := clz_spec x h0 h1
  rw [c2]
  omega

/-- C28 (counterexample). First: on the range `5 1 2 3 9 8 7` under `<`, of values that a
move leaves as they are, the two scans cross: the range is already partitioned,
`__remaining_len` is `-1`, and `__l_size` is `0` while `__r_size` is `-1`. Second: the
range `5 1 2` under `>` (a descending sort) of values that a move leaves at `0`, the way
the move of a string leaves an empty string. No value after the first is greater than the
pivot `5`, and the first place holds `0` after the move: each of the three places holds a
value that `>` puts after the pivot, the scan `while (__comp(__pivot, *--__last))` has not
ended when `__last` has come down to the first place, and it goes on to read before the
range. -/
theorem partition_counterexample :
    StrictWeakOrder natLess
    ∧ ScanGuarded natLess (fun x => x) [5, 1, 2, 3, 9, 8, 7]
    ∧ __bitset_partition natLess (fun x => x) [5, 1, 2, 3, 9, 8, 7]
        = ([3, 1, 2, 5, 9, 8, 7], 3, true)
    ∧ partition_start natLess 5 [5, 1, 2, 3, 9, 8, 7] = ([5, 1, 2, 3, 9, 8, 7], 4, 2, true)
    ∧ partition_sizes natLess (fun x => x) [5, 1, 2, 3, 9, 8, 7] = (0, -1)
    ∧ StrictWeakOrder (flipComp natLess)
    ∧ ¬ ScanGuarded (flipComp natLess) (fun _ => 0) [5, 1, 2]
    ∧ [5, 1, 2].set 0 ((fun _ => 0) (rd [5, 1, 2] 0)) = [0, 1, 2]
    ∧ (∀ i : Nat, i < 3 → flipComp natLess 5 (rd [0, 1, 2] i) = true)
    ∧ scan_back (flipComp natLess) 5 [0, 1, 2] 3 3 = 0
    ∧ flipComp natLess 5 (rdi [0, 1, 2] 0) = true :=
  ⟨natLess_strictWeakOrder, Or.inl ⟨1, by decide, by decide, by decide⟩, by decide,
    by decide, by decide, flipComp_strictWeakOrder natLess_strictWeakOrder,
    by
      rintro (⟨i, h1, h2, h3⟩ | h0)
      · have hi : i = 1 ∨ i = 2 := by
          have : i < 3 := h2
          omega
        rcases hi with rfl | rfl
        · exact absurd h3 (by decide)
        · exact absurd h3 (by decide)
      · exact absurd h0 (by decide),
    by decide, by decide, by decide, by decide⟩

/-- C28 (as amended). For every strict weak ordering `comp` and every non-empty range on
which the scan from the right is guarded (a value after the first is not greater than the
first, or the move of the pivot leaves a value that is not greater than the pivot in the
first place), with the pivot the first value of the range: `__bitset_partition` returns a
position `p` inside the range, the range afterwards is a permutation of the range before,
the pivot is at `p`, no value before `p` is greater than the pivot and no value after `p`
is less. `__l_size` lies between 0 and 64 and `__r_size` between -1 and 64; when `__r_size`
is negative `__l_size` is 0, so that neither loop over the last blocks runs. A loop over a
block shifts by less than its size, and the position of the highest set bit of a non-zero
bit set, by which the loops over one side shift, is below 64. The scan is guarded on every
range when a move leaves the value in place, and on every range that `__bitsetsort_loop`
hands over after its choice of the pivot. -/
theorem bitset_partition_contract (comp : α → α → Bool) (h : StrictWeakOrder comp)
    (moved : α → α) (a : List α) (hne : 0 < a.length) (hg : ScanGuarded comp moved a) :
    (__bitset_partition comp moved a).1.Perm a
    ∧ 0 ≤ (__bitset_partition comp moved a).2.1
    ∧ (__bitset_partition comp moved a).2.1 < a.length
    ∧ rd (__bitset_partition comp moved a).1 (__bitset_partition comp moved a).2.1.toNat
        = rd a 0
    ∧ (∀ i : Nat, (i : Int) < (__bitset_partition comp moved a).2.1 →
        comp (rd a 0) (rd (__bitset_partition comp moved a).1 i) = false)
    ∧ (∀ i : Nat, (__bitset_partition comp moved a).2.1 < (i : Int) → i < a.length →
        comp (rd (__bitset_partition comp moved a).1 i) (rd a 0) = false)
    ∧ (0 ≤ (partition_sizes comp moved a).1 ∧ (partition_sizes comp moved a).1 ≤ 64
      ∧ -1 ≤ (partition_sizes comp moved a).2 ∧ (partition_sizes comp moved a).2 ≤ 64
      ∧ ((partition_sizes comp moved a).2 < 0 → (partition_sizes comp moved a).1 = 0))
    ∧ (∀ x : Nat, x ≠ 0 → x < 2 ^ 64 →
        0 ≤ (__block_size : Int) - 1 - (__clz x : Int)
        ∧ (__block_size : Int) - 1 - (__clz x : Int) < 64)
    ∧ (∀ b : List α, ScanGuarded comp (fun x => x) b)
    ∧ (∀ (trivially : Bool) (b : List α), 32 < b.length →
        ScanGuarded comp moved
          (select_pivot (__sorting_network.__conditional_swap trivially comp) b)) := by
  obtain ⟨p1, p2, p3, p4, p5, p6⟩ := bitset_partition_spec h moved a hne hg
  exact ⟨p1, p2, p3, p4, p5, p6, partition_sizes_spec h moved a hne hg, highest_bit_lt,
    fun b => scanGuarded_of_copy h b,
    fun trivially b hb => select_pivot_scanGuarded h moved trivially b hb⟩

/-- C28 (as amended) at a concrete input: seven natural numbers under `<`, the move of
the pivot leaving `0` in the first place; the third value guards the scan. -/
theorem bitset_partition_contract_witness :
    StrictWeakOrder natLess ∧ 0 < [5, 9, 1, 7, 3, 8, 2].length
    ∧ ScanGuarded natLess (fun _ => 0) [5, 9, 1, 7, 3, 8, 2]
    ∧ __bitset_partition natLess (fun _ => 0) [5, 9, 1, 7, 3, 8, 2]
        = ([3, 2, 1, 5, 7, 8, 9], 3, false)
    ∧ (__bitset_partition natLess (fun _ => 0) [5, 9, 1, 7, 3, 8, 2]).1.Perm
        [5, 9, 1, 7, 3, 8, 2] :=
  ⟨natLess_strictWeakOrder, by decide, Or.inl ⟨2, by decide, by decide, by decide⟩,
    by decide,
    (bitset_partition_contract natLess natLess_strictWeakOrder (fun _ => 0)
      [5, 9, 1, 7, 3, 8, 2] (by decide) (Or.inl ⟨2, by decide, by decide, by decide⟩)).1⟩

/-! ## C29: termination and depth -/

theorem log2i_loop_spec :
    ∀ (fuel n : Nat) (acc : Int), n ≤ fuel →
      log2i_loop fuel (n : Int) acc = acc + (Nat.log 2 n : Int) := by
  intro fuel
  induction fuel with
  | zero =>
    intro n acc hn
    have : n = 0 := by omega
    subst this
    simp [log2i_loop]
  | succ fuel ih =>
    intro n acc hn
    simp only [log2i_loop]
    by_cases h1 : (n : Int) > 1
    · rw [if_pos h1]
      have h2 : 2 ≤ n := by omega
      have e : (n : Int) / 2 = ((n / 2 : Nat) : Int) := by push_cast; rfl
      rw [e, ih (n / 2) (acc + 1) (by omega),
        Nat.log_of_one_lt_of_le (by norm_num) h2]
      push_cast
      omega
    · rw [if_neg h1]
      have h2 : n < 2 := by omega
      rw [Nat.log_of_lt h2]
      simp

theorem log2i_eq (n : Nat) : __log2i (n : Int) = (Nat.log2 n : Int) := by
  unfold __log2i
  rw [log2i_loop_spec _ n 0 (by simp), Nat.log2_eq_log_two]
  simp

theorem loop_lengths {comp : α → α → Bool} (h : StrictWeakOrder comp) (moved : α → α)
    (trivially : Bool) (a : List α) (h32 : 32 < a.length) :
    ((__bitset_partition comp moved (select_pivot
          (__sorting_network.__conditional_swap trivially comp) a)).1.take
        (__bitset_partition comp moved (select_pivot
          (__sorting_network.__conditional_swap trivially comp) a)).2.1.toNat).length
      < a.length
    ∧ ((__bitset_partition comp moved (select_pivot
          (__sorting_network.__conditional_swap trivially comp) a)).1.drop
        ((__bitset_partition comp moved (select_pivot
          (__sorting_network.__conditional_swap trivially comp) a)).2.1.toNat + 1)).length
      < a.length := by
  have hsel := select_pivot_perm (isCondSwap_conditional_swap trivially comp) a h32
  have hlen1 := hsel.length_eq
  obtain ⟨p1, p2, p3, _, _, _⟩ := bitset_partition_spec h moved
    (select_pivot (__sorting_network.__conditional_swap trivially comp) a) (by omega)
    (select_pivot_scanGuarded h moved trivially a h32)
  have hlen2 := p1.length_eq
  constructor
  · rw [List.length_take]; omega
  · rw [List.length_drop]; omega

theorem bitsetsort_loop_checked_eq {heap_sort : List α → List α} (moved : α → α)
    (trivially : Bool) {comp : α → α → Bool} (h : StrictWeakOrder comp) :
    ∀ (fuel : Nat) (a : List α) (limit : Int),
      (a.length < fuel ∨ (0 ≤ limit ∧ limit < fuel)) →
      __bitsetsort_loop_checked heap_sort moved trivially comp fuel a limit
        = some (__bitsetsort_loop heap_sort moved trivially comp fuel a limit) := by
  intro fuel
  induction fuel with
  | zero => intro a limit hf; omega
  | succ fuel ih =>
    intro a limit hf
    have hb : __bitonic.__batch = 8 := rfl
    have hm : __bitonic.__small_sort_max = 32 := rfl
    simp only [__bitsetsort_loop_checked, __bitsetsort_loop, hb, hm]
    by_cases hl0 : limit = 0
    · rw [if_pos hl0, if_pos hl0]
    · rw [if_neg hl0, if_neg hl0]
      by_cases h8 : a.length ≤ 8
      · rw [if_pos h8, if_pos h8]
      · rw [if_neg h8, if_neg h8]
        by_cases h32 : a.length ≤ 32
        · rw [if_pos h32, if_pos h32]
        · rw [if_neg h32, if_neg h32]
          obtain ⟨hl, hu⟩ := loop_lengths h moved trivially a (by omega)
          generalize __bitset_partition comp moved
            (select_pivot (__sorting_network.__conditional_swap trivially comp) a) = ret at *
          obtain ⟨a2, pos, ap⟩ := ret
          simp only at hl hu ⊢
          have hsub : ∀ x : List α, x.length < a.length →
              __bitsetsort_loop_checked heap_sort moved trivially comp fuel x (limit - 1)
                = some (__bitsetsort_loop heap_sort moved trivially comp fuel x (limit - 1)) := by
            intro x hx
            apply ih
            rcases hf with hf | hf
            · left; omega
            · right; omega
          have l1 := (partial_insertion_sort_spec h (a2.take pos.toNat)).1.length_eq
          have u1 := (partial_insertion_sort_spec h (a2.drop (pos.toNat + 1))).1.length_eq
          rw [hsub _ hl, hsub _ hu, hsub _ (by rw [l1]; exact hl), hsub _ (by rw [u1]; exact hu)]
          by_cases hap : ap = true
          · rw [if_pos hap, if_pos hap]
            split_ifs <;> rfl
          · rw [if_neg hap, if_neg hap]
            rfl

theorem bitsetsort_loop_fuel {heap_sort : List α → List α} (moved : α → α)
    (trivially : Bool) {comp : α → α → Bool} (h : StrictWeakOrder comp) :
    ∀ (fuel1 fuel2 : Nat) (a : List α) (limit : Int), fuel1 ≤ fuel2 →
      (a.length < fuel1 ∨ (0 ≤ limit ∧ limit < fuel1)) →
      __bitsetsort_loop heap_sort moved trivially comp fuel2 a limit
        = __bitsetsort_loop heap_sort moved trivially comp fuel1 a limit := by
  intro fuel1
  induction fuel1 with
  | zero => intro fuel2 a limit _ hf; omega
  | succ fuel ih =>
    intro fuel2 a limit hle hf
    obtain ⟨g, rfl⟩ : ∃ g, fuel2 = g + 1 := ⟨fuel2 - 1, by omega⟩
    have hb : __bitonic.__batch = 8 := rfl
    have hm : __bitonic.__small_sort_max = 32 := rfl
    simp only [__bitsetsort_loop, hb, hm]
    by_cases hl0 : limit = 0
    · rw [if_pos hl0, if_pos hl0]
    · rw [if_neg hl0, if_neg hl0]
      by_cases h8 : a.length ≤ 8
      · rw [if_pos h8, if_pos h8]
      · rw [if_neg h8, if_neg h8]
        by_cases h32 : a.length ≤ 32
        · rw [if_pos h32, if_pos h32]
        · rw [if_neg h32, if_neg h32]
          obtain ⟨hl, hu⟩ := loop_lengths h moved trivially a (by omega)
          generalize __bitset_partition comp moved
            (select_pivot (__sorting_network.__conditional_swap trivially comp) a) = ret at *
          obtain ⟨a2, pos, ap⟩ := ret
          simp only at hl hu ⊢
          have hsub : ∀ x : List α, x.length < a.length →
              __bitsetsort_loop heap_sort moved trivially comp g x (limit - 1)
                = __bitsetsort_loop heap_sort moved trivially comp fuel x (limit - 1) := by
            intro x hx
            apply ih g x (limit - 1) (by omega)
            rcases hf with hf | hf
            · left; omega
            · right; omega
          have l1 := (partial_insertion_sort_spec h (a2.take pos.toNat)).1.length_eq
          have u1 := (partial_insertion_sort_spec h (a2.drop (pos.toNat + 1))).1.length_eq
          rw [hsub _ hl, hsub _ hu, hsub _ (by rw [l1]; exact hl), hsub _ (by rw [u1]; exact hu)]

/-- C29. For every strict weak ordering and every range of length `n`, whatever a move
leaves in the object moved from:
`__bitsetsort_internal` starts `__bitsetsort_loop` with the depth limit `2 * __log2i n`,
which is twice the integer logarithm of `n` to base 2, not negative, and 0 for `n ≤ 1`.
`__bitsetsort_loop` returns for every depth limit, also a negative one: a counter that
allows `n + 1` nested turns is never used up, and a larger counter gives the same range.
For a depth limit `limit ≥ 0` a counter that allows `limit + 1` nested turns is never used
up either, and gives the same range: the nesting of turns and recursive calls is at most
`limit`, the turn at limit 0 being the heap sort. -/
theorem bitsetsort_loop_terminates (heap_sort : List α → List α) (moved : α → α)
    (trivially : Bool) (comp : α → α → Bool) (h : StrictWeakOrder comp) (a : List α) :
    (__bitsetsort_internal heap_sort moved trivially comp a
        = __bitsetsort_loop heap_sort moved trivially comp (a.length + 1) a
            (2 * (Nat.log2 a.length : Int)))
    ∧ 2 * __log2i (a.length : Int) = 2 * (Nat.log2 a.length : Int)
    ∧ 0 ≤ 2 * __log2i (a.length : Int)
    ∧ (a.length ≤ 1 → 2 * __log2i (a.length : Int) = 0)
    ∧ (∀ (limit : Int) (fuel : Nat), a.length < fuel →
        __bitsetsort_loop_checked heap_sort moved trivially comp fuel a limit
          = some (__bitsetsort_loop heap_sort moved trivially comp (a.length + 1) a limit))
    ∧ (∀ (limit : Int) (fuel : Nat), 0 ≤ limit → limit < fuel →
        __bitsetsort_loop_checked heap_sort moved trivially comp fuel a limit
          = some (__bitsetsort_loop heap_sort moved trivially comp (a.length + 1) a limit)) := by
  have hlog := log2i_eq a.length
  refine ⟨?_, by rw [hlog], by rw [hlog]; omega, ?_, ?_, ?_⟩
  · unfold __bitsetsort_internal
    simp only [hlog]
  · intro h1
    rw [hlog]
    have : Nat.log2 a.length = 0 := by
      rw [Nat.log2_eq_log_two]
      exact Nat.log_of_lt (by omega)
    rw [this]
    rfl
  · intro limit fuel hf
    rw [bitsetsort_loop_checked_eq moved trivially h fuel a limit (Or.inl hf),
      bitsetsort_loop_fuel moved trivially h (a.length + 1) fuel a limit (by omega)
        (Or.inl (Nat.lt_succ_self _))]
  · intro limit fuel h0 hf
    rw [bitsetsort_loop_checked_eq moved trivially h fuel a limit (Or.inr ⟨h0, hf⟩)]
    congr 1
    rcases Nat.le_total fuel (a.length + 1) with hle | hle
    · exact (bitsetsort_loop_fuel moved trivially h fuel (a.length + 1) a limit hle
        (Or.inr ⟨h0, hf⟩)).symm
    · exact bitsetsort_loop_fuel moved trivially h (a.length + 1) fuel a limit hle
        (Or.inl (Nat.lt_succ_self _))

/-- C29 at a concrete input: five natural numbers under `<`. The depth limit is 4; with
depth limit 0 the range goes to the heap sort at once, within one turn. -/
theorem bitsetsort_loop_terminates_witness :
    StrictWeakOrder natLess
    ∧ 2 * __log2i 5 = 4
    ∧ __bitsetsort_loop_checked natHeapSort (fun _ => 0) true natLess 1 [4, 1, 3, 5, 2] 0
      = some [1, 2, 3, 4, 5]
    ∧ __bitsetsort_loop_checked natHeapSort (fun _ => 0) true natLess 1 [4, 1, 3, 5, 2] 4
      = some [1, 2, 3, 4, 5]
    ∧ 0 ≤ 2 * __log2i (([4, 1, 3, 5, 2] : List Nat).length : Int) :=
  ⟨natLess_strictWeakOrder, by decide, by decide, by decide,
    (bitsetsort_loop_terminates natHeapSort (fun _ => 0) true natLess
      natLess_strictWeakOrder [4, 1, 3, 5, 2]).2.2.1⟩

end stdext
